import Mathlib

/-!
# Party server: room registry

A shallow embedding of `server.js`: the in-memory room store `rooms`, the
socket.io group subscriptions of every connection, and the nine event handlers
registered on a new connection (server.js:21-127), followed by the properties proved
about them.

Modelling conventions.

* A JavaScript object used as a dictionary is a list of key/value pairs in
  insertion order (`Object.keys` order for keys that are not array indices).
* `rooms` is created by the literal `{}` (server.js:12), so a read `rooms[k]`
  also finds the properties inherited from `Object.prototype`; `roomsAt`
  distinguishes the three outcomes of that read.
* A handler returns the messages it emitted, in order, whether it ended by
  throwing a `TypeError`, and the state it had reached then. Nothing in
  `server.js` catches the exception, so the process exits: `step` has no state
  after an event whose handler threw, and neither `run` nor `Reachable` goes on
  from it.
* Numbers are doubles. `round` holds an integer and `room.round += 1` is
  `doubleAddOne`; a value of `Math.random()` is a `Draw`, and its product with
  `chars.length` is rounded to the nearest double before `Math.floor`.
* socket.io keeps every connection in a private group named by `socket.id`
  (`socketId`), next to the groups entered through `socket.join`.
-/

namespace Party

/-! ## Values -/

/-- Values that arrive in event payloads and that the server forwards or tests
for truthiness only (`name`, `language`, `layer`, `seed`, `msg`, `promptObj`).
An object or array is represented by its JSON text. -/
inductive JsVal where
  | undefined
  | null
  | bool (b : Bool)
  | num (n : Int)
  | str (s : String)
  | obj (json : String)
deriving DecidableEq, Repr

/-- JavaScript truthiness. -/
def JsVal.truthy : JsVal → Bool
  | .undefined => false
  | .null => false
  | .bool b => b
  | .num n => n != 0
  | .str s => s != ""
  | .obj _ => true

/-- The JavaScript expression `a || b`. -/
def JsVal.orElse (a b : JsVal) : JsVal := if a.truthy then a else b

/-- Connection identifier `socket.id`. socket.io hands every connection a
token of its own; the tokens are never array-index strings, so an object keyed by
them enumerates its keys in insertion order. Connections are numbered here. -/
abbrev ConnId := Nat

/-- Room identifier: any string a client may send as `roomId`. -/
abbrev RoomId := String

/-- The record `{ name, ready }` stored under `room.players[socket.id]`. -/
structure Player where
  name : JsVal
  ready : Bool
deriving DecidableEq, Repr

/-- The record `{ hostId, players, language, layer, round }` stored under
`rooms[rid]` (server.js:27-28; the comment of line 12 lists neither `round` nor
`ready`, the code stores both). `round` is the integer held by the double. -/
structure Room where
  hostId : ConnId
  players : List (ConnId × Player)
  language : JsVal
  layer : JsVal
  round : Nat
deriving DecidableEq, Repr

/-- Messages the server emits. -/
inductive Msg where
  | roomCreated (roomId : RoomId)
  | roomUpdate (room : Room)
  | errorJoin (text : String)
  | roundStarted (round : Nat) (seed : JsVal)
  | newPrompt (prompt : JsVal) (sender : JsVal)
  | chatMessage (name : JsVal) (msg : JsVal)
deriving DecidableEq, Repr

/-- An emit: `socket.emit(...)` reaches one connection, `io.to(rid).emit(...)`
is addressed to the group `rid`. -/
inductive Emit where
  | toSocket (c : ConnId) (m : Msg)
  | toRoom (rid : RoomId) (m : Msg)
deriving DecidableEq, Repr

/-! ## Dictionaries -/

/-- Keys in enumeration order: `Object.keys(o)`. -/
def keysOf {κ α : Type} (l : List (κ × α)) : List κ := l.map Prod.fst

/-- Own-property read `o[k]`. -/
def getKey {κ α : Type} [DecidableEq κ] : List (κ × α) → κ → Option α
  | [], _ => none
  | (k', v) :: rest, k => if k' = k then some v else getKey rest k

/-- Assignment `o[k] = v`: an existing key keeps its position, a new key is
appended. -/
def putKey {κ α : Type} [DecidableEq κ] (l : List (κ × α)) (k : κ) (v : α) :
    List (κ × α) :=
  if k ∈ keysOf l then l.map (fun p => (p.1, if p.1 = k then v else p.2))
  else l ++ [(k, v)]

/-- The statement `delete o[k]`. -/
def delKey {κ α : Type} [DecidableEq κ] (l : List (κ × α)) (k : κ) :
    List (κ × α) :=
  l.filter (fun p => decide (p.1 ≠ k))

/-! ## State -/

/-- Server state: the store `rooms`, and the group subscriptions kept by
socket.io, one pair `(c, rid)` for every group `rid` that connection `c` has
entered through `socket.join` and not left, in the order of entering. The
private group of a connection, named by its `socket.id`, is not a pair of
`subs`: every connection is in it from the start, see `socketGroups`. -/
structure State where
  rooms : List (RoomId × Room)
  subs : List (ConnId × RoomId)
deriving DecidableEq, Repr

/-- The state at process start. -/
def State.empty : State := ⟨[], []⟩

/-- The call `socket.join(rid)`. -/
def socketJoin (subs : List (ConnId × RoomId)) (c : ConnId) (rid : RoomId) :
    List (ConnId × RoomId) :=
  if (c, rid) ∈ subs then subs else subs ++ [(c, rid)]

/-- The call `socket.leave(rid)`. -/
def socketLeave (subs : List (ConnId × RoomId)) (c : ConnId) (rid : RoomId) :
    List (ConnId × RoomId) :=
  subs.filter (fun p => decide (p ≠ (c, rid)))

/-- The text of `socket.id`, which is also the name of the private group of
the connection. socket.io draws a token of 20 characters for it; the token of
connection `n` is written `socket-n` here. -/
def socketId (c : ConnId) : RoomId := "socket-" ++ toString c

/-- The set `socket.rooms`: the private group of the connection, then the
groups it entered through `socket.join`, in order. `io.to(rid).emit(...)`
reaches the connections that have `rid` in this set. -/
def socketGroups (subs : List (ConnId × RoomId)) (c : ConnId) : List RoomId :=
  socketId c :: (subs.filter (fun p => decide (p.1 = c))).map Prod.snd

/-- The groups of a connection without its private one:
`Array.from(socket.rooms).filter(r => r !== socket.id)` (server.js:111). -/
def socketRooms (subs : List (ConnId × RoomId)) (c : ConnId) : List RoomId :=
  (socketGroups subs c).filter (fun r => decide (r ≠ socketId c))

/-- What socket.io does once the `disconnecting` listeners have run: the
connection leaves every group. -/
def leaveAll (subs : List (ConnId × RoomId)) (c : ConnId) :
    List (ConnId × RoomId) :=
  subs.filter (fun p => decide (p.1 ≠ c))

/-- Names of the properties every object literal inherits from
`Object.prototype`. Each of them holds a function or an object, hence a truthy
value without a `players` or `hostId` property. -/
def protoNames : List String :=
  ["constructor", "__defineGetter__", "__defineSetter__", "hasOwnProperty",
   "__lookupGetter__", "__lookupSetter__", "isPrototypeOf",
   "propertyIsEnumerable", "toString", "valueOf", "__proto__",
   "toLocaleString"]

/-- Outcome of the read `rooms[rid]`. -/
inductive Found where
  | undefined
  | inherited
  | room (r : Room)
deriving DecidableEq, Repr

/-- The read `rooms[rid]`: a stored room, else an inherited property, else
`undefined`. -/
def roomsAt (rooms : List (RoomId × Room)) (rid : RoomId) : Found :=
  match getKey rooms rid with
  | some r => .room r
  | none => if rid ∈ protoNames then .inherited else .undefined

/-- Truthiness of `rooms[rid]`, the loop test of server.js:26. -/
def Found.truthy : Found → Bool
  | .undefined => false
  | .inherited => true
  | .room _ => true

/-- Result of running one handler. -/
structure Result where
  state : State
  out : List Emit
  threw : Bool
deriving DecidableEq, Repr

/-- A handler that returns without a change and without a message. -/
def Result.silent (s : State) : Result := ⟨s, [], false⟩

/-- A handler that throws before any change and any message: `state` is the
state at the throw. The exception is not caught, so the process exits there and
no event is served after it (see `step`). -/
def Result.typeError (s : State) : Result := ⟨s, [], true⟩

/-- What becomes of a handler result as an event of the server: a handler that
returned has run the event to its end; a handler that threw has not, the process
has exited and there is no state after the event. -/
def finish (r : Result) : Option Result := if r.threw then none else some r

/-! ## makeRoomId -/

/-- One value returned by `Math.random()`: a double that is at least 0 and
below 1, that is, `mant / 2 ^ exp` with a significand of at most 53 bits and an
exponent between 53 and 1074 (normal and subnormal doubles below 1, and 0). -/
structure Draw where
  mant : Nat
  exp : Nat
  mant_lt : mant < 2 ^ 53
  exp_ge : 53 ≤ exp
  exp_le : exp ≤ 1074

/-- The constant `chars` of `makeRoomId`. -/
def chars : List Char := "ABCDEFGHJKMNPQRSTUVWXYZ23456789".toList

/-- The number of low bits an integer has beyond 53, the size of the
significand of a double: the least `s` with `N < 2 ^ (53 + s)`. The first
argument bounds the number of halvings; `N` itself is enough. -/
def dropBits : Nat → Nat → Nat
  | 0, _ => 0
  | fuel + 1, N => if N < 2 ^ 53 then 0 else dropBits fuel (N / 2) + 1

/-- The quotient `N / 2 ^ s` rounded to the nearest integer, a tie going to the
even one: the rounding of IEEE 754 arithmetic. -/
def roundHalfEven (N s : Nat) : Nat :=
  if 2 * (N % 2 ^ s) < 2 ^ s then N / 2 ^ s
  else if 2 ^ s < 2 * (N % 2 ^ s) then N / 2 ^ s + 1
  else if N / 2 ^ s % 2 = 0 then N / 2 ^ s
  else N / 2 ^ s + 1

/-- The expression `Math.floor(r * n)` for an integer `n` below `2 ^ 53`. The
exact product is `mant * n / 2 ^ exp`; the double product keeps 53 bits of
`mant * n`, rounded to nearest with ties to even, and `Math.floor` is taken of
that double. -/
def Draw.floorMul (r : Draw) (n : Nat) : Nat :=
  let N := r.mant * n
  let s := dropBits N N
  roundHalfEven N s * 2 ^ s / 2 ^ r.exp

/-- The expression `chars[i]` as it is appended to a string: a missing index
reads `undefined`, whose text is appended. -/
def charAt (i : Nat) : String :=
  match chars.get? i with
  | some ch => ch.toString
  | none => "undefined"

/-- The function `makeRoomId` (server.js:14-19), run on the values its five
calls of `Math.random()` return. -/
def makeRoomId (r0 r1 r2 r3 r4 : Draw) : RoomId :=
  [r0, r1, r2, r3, r4].foldl
    (fun id r => id ++ charAt (r.floorMul chars.length)) ""

/-- The ids successive calls of `makeRoomId` return when `Math.random()`
returns the given values in turn. -/
def candidates : List Draw → List RoomId
  | r0 :: r1 :: r2 :: r3 :: r4 :: rest =>
    makeRoomId r0 r1 r2 r3 r4 :: candidates rest
  | _ => []

/-- The loop `let rid = makeRoomId(); while (rooms[rid]) rid = makeRoomId();`
(server.js:25-26): the first candidate for which `rooms[rid]` is falsy. The
result is `none` when every candidate supplied is taken, that is, when the loop
is still running after the supplied draws. -/
def pickRoomId (rooms : List (RoomId × Room)) (cands : List RoomId) :
    Option RoomId :=
  cands.find? (fun rid => !(roomsAt rooms rid).truthy)

/-! ## Event handlers -/

/-- Handler of `createRoom` (server.js:24-33). `draws` are the values
`Math.random()` returns from this point on; the result is `none` when the loop
of line 26 has not ended after them. -/
def createRoom (s : State) (c : ConnId) (name language layer : JsVal)
    (draws : List Draw) : Option Result :=
  match pickRoomId s.rooms (candidates draws) with
  | none => none
  | some rid =>
    let room : Room :=
      { hostId := c, players := putKey [] c { name := name, ready := false },
        language := language, layer := layer, round := 0 }
    some { state := { rooms := putKey s.rooms rid room,
                      subs := socketJoin s.subs c rid },
           out := [.toSocket c (.roomCreated rid), .toRoom rid (.roomUpdate room)],
           threw := false }

/-- Handler of `joinRoom` (server.js:35-45). For an inherited property the
guard of line 37 passes and line 41 assigns into `undefined`. -/
def joinRoom (s : State) (c : ConnId) (roomId : RoomId) (name : JsVal) :
    Result :=
  match roomsAt s.rooms roomId with
  | .undefined =>
    { state := s, out := [.toSocket c (.errorJoin "Room not found")],
      threw := false }
  | .inherited => Result.typeError s
  | .room room =>
    let room' : Room :=
      { room with players := putKey room.players c { name := name, ready := false } }
    { state := { rooms := putKey s.rooms roomId room',
                 subs := socketJoin s.subs c roomId },
      out := [.toRoom roomId (.roomUpdate room')],
      threw := false }

/-- Handler of `leaveRoom` (server.js:47-61). For an inherited property line 50
deletes from `undefined`. -/
def leaveRoom (s : State) (c : ConnId) (roomId : RoomId) : Result :=
  match roomsAt s.rooms roomId with
  | .undefined => Result.silent s
  | .inherited => Result.typeError s
  | .room room =>
    let players := delKey room.players c
    let subs := socketLeave s.subs c roomId
    match keysOf players with
    | [] =>
      { state := { rooms := delKey s.rooms roomId, subs := subs },
        out := [], threw := false }
    | first :: _ =>
      let room' : Room :=
        { room with players := players,
                    hostId := if room.hostId = c then first else room.hostId }
      { state := { rooms := putKey s.rooms roomId room', subs := subs },
        out := [.toRoom roomId (.roomUpdate room')],
        threw := false }

/-- Handler of `toggleReady` (server.js:63-70). For an inherited property line
66 reads from `undefined`. -/
def toggleReady (s : State) (c : ConnId) (roomId : RoomId) : Result :=
  match roomsAt s.rooms roomId with
  | .undefined => Result.silent s
  | .inherited => Result.typeError s
  | .room room =>
    match getKey room.players c with
    | none => Result.silent s
    | some p =>
      let room' : Room :=
        { room with players := putKey room.players c { p with ready := !p.ready } }
      { state := { s with rooms := putKey s.rooms roomId room' },
        out := [.toRoom roomId (.roomUpdate room')],
        threw := false }

/-- The statement `x += 1` for a double `x` that holds a non-negative integer:
exact below `2 ^ 53`; from there on `x + 1` is not a double and is rounded to
nearest with ties to even, which gives `x` again or, for an `x` below `2 ^ 54`
with an odd significand, `x + 2`. -/
def doubleAddOne (n : Nat) : Nat :=
  if n < 2 ^ 53 then n + 1
  else if n < 2 ^ 54 ∧ n % 4 = 2 then n + 2
  else n

/-- Handler of `startRound` (server.js:72-80); `now` is the value of
`Date.now()`. An inherited property has no `hostId`, so line 76 returns. -/
def startRound (s : State) (c : ConnId) (roomId : RoomId) (seed : JsVal)
    (now : Nat) : Result :=
  match roomsAt s.rooms roomId with
  | .undefined => Result.silent s
  | .inherited => Result.silent s
  | .room room =>
    if room.hostId ≠ c then Result.silent s
    else
      let room' : Room := { room with round := doubleAddOne room.round }
      { state := { s with rooms := putKey s.rooms roomId room' },
        out := [.toRoom roomId
                 (.roundStarted room'.round (seed.orElse (.num (Int.ofNat now))))],
        threw := false }

/-- Handler of `requestPrompt` (server.js:82-95): every path returns without
an effect. The comments of lines 86 and 90-91 speak of a prompt broadcast to
all; no path of the code emits one. -/
def requestPrompt (s : State) (c : ConnId) (roomId : RoomId)
    (_type _language _layer : JsVal) : Result :=
  match roomsAt s.rooms roomId with
  | .undefined => Result.silent s
  | .inherited => Result.silent s
  | .room room => if room.hostId ≠ c then Result.silent s else Result.silent s

/-- The expression `rooms[roomId]?.players[socket.id]?.name` for a stored
room. -/
def playerName (room : Room) (c : ConnId) : JsVal :=
  match getKey room.players c with
  | some p => p.name
  | none => .undefined

/-- Handler of `selectedPrompt` (server.js:97-100). The optional chain stops at
an `undefined` room; for an inherited property `players` is `undefined` and the
index into it throws. -/
def selectedPrompt (s : State) (c : ConnId) (roomId : RoomId)
    (promptObj : JsVal) : Result :=
  match roomsAt s.rooms roomId with
  | .undefined =>
    { state := s,
      out := [.toRoom roomId
               (.newPrompt promptObj (JsVal.undefined.orElse (.str "Host")))],
      threw := false }
  | .inherited => Result.typeError s
  | .room room =>
    { state := s,
      out := [.toRoom roomId
               (.newPrompt promptObj ((playerName room c).orElse (.str "Host")))],
      threw := false }

/-- Handler of `chat` (server.js:102-107). For an inherited property line 105
reads from `undefined`. -/
def chat (s : State) (c : ConnId) (roomId : RoomId) (msg : JsVal) : Result :=
  match roomsAt s.rooms roomId with
  | .undefined => Result.silent s
  | .inherited => Result.typeError s
  | .room room =>
    { state := s,
      out := [.toRoom roomId
               (.chatMessage ((playerName room c).orElse (.str "Anon")) msg)],
      threw := false }

/-- The `forEach` of the `disconnecting` handler (server.js:112-124) over the
group names still to visit: the store after it, the messages emitted, and
whether a callback threw, which ends the iteration. -/
def disconnectingLoop (c : ConnId) :
    List RoomId → List (RoomId × Room) → List (RoomId × Room) × List Emit × Bool
  | [], rooms => (rooms, [], false)
  | roomId :: rest, rooms =>
    match roomsAt rooms roomId with
    | .undefined => disconnectingLoop c rest rooms
    | .inherited => (rooms, [], true)
    | .room room =>
      let players := delKey room.players c
      match keysOf players with
      | [] => disconnectingLoop c rest (delKey rooms roomId)
      | first :: _ =>
        let room' : Room :=
          { room with players := players,
                      hostId := if room.hostId = c then first else room.hostId }
        let r := disconnectingLoop c rest (putKey rooms roomId room')
        (r.1, Emit.toRoom roomId (.roomUpdate room') :: r.2.1, r.2.2)

/-- Handler of `disconnecting` (server.js:109-125). -/
def disconnecting (s : State) (c : ConnId) : Result :=
  let r := disconnectingLoop c (socketRooms s.subs c) s.rooms
  { state := { s with rooms := r.1 }, out := r.2.1, threw := r.2.2 }

/-- A connection going away: the `disconnecting` handler runs, then socket.io
removes the connection from every group. -/
def disconnect (s : State) (c : ConnId) : Result :=
  let r := disconnecting s c
  if r.threw then r
  else { r with state := { r.state with subs := leaveAll r.state.subs c } }

/-! ## Event sequences -/

/-- Events a connection can raise, with their payloads. `createRoom` also
carries the values `Math.random()` returns while it runs, `startRound` the
value of `Date.now()`. -/
inductive Event where
  | createRoom (name language layer : JsVal) (draws : List Draw)
  | joinRoom (roomId : RoomId) (name : JsVal)
  | leaveRoom (roomId : RoomId)
  | toggleReady (roomId : RoomId)
  | startRound (roomId : RoomId) (seed : JsVal) (now : Nat)
  | requestPrompt (roomId : RoomId) (type language layer : JsVal)
  | selectedPrompt (roomId : RoomId) (promptObj : JsVal)
  | chat (roomId : RoomId) (msg : JsVal)
  | disconnect

/-- Dispatch of one event raised by connection `c`: the result of the handler
when the event runs to its end, `none` when it does not, because the loop of
`createRoom` has not ended or because the handler threw and the process
exited. -/
def step (s : State) (c : ConnId) : Event → Option Result
  | .createRoom name language layer draws => createRoom s c name language layer draws
  | .joinRoom roomId name => finish (joinRoom s c roomId name)
  | .leaveRoom roomId => finish (leaveRoom s c roomId)
  | .toggleReady roomId => finish (toggleReady s c roomId)
  | .startRound roomId seed now => finish (startRound s c roomId seed now)
  | .requestPrompt roomId type language layer =>
    finish (requestPrompt s c roomId type language layer)
  | .selectedPrompt roomId promptObj => finish (selectedPrompt s c roomId promptObj)
  | .chat roomId msg => finish (chat s c roomId msg)
  | .disconnect => finish (disconnect s c)

/-- States the server can be in: the empty store at start, and the state after
any event that has run to its end. An event whose handler throws ends the
process and leads to no state. -/
inductive Reachable : State → Prop where
  | init : Reachable State.empty
  | step {s : State} (c : ConnId) (e : Event) {r : Result} :
    Reachable s → step s c e = some r → Reachable r.state

/-- Run a list of events, each with the connection raising it; `none` when
one of them does not run to its end. Returns the last state and all
messages. -/
def run : State → List (ConnId × Event) → Option (State × List Emit)
  | s, [] => some (s, [])
  | s, (c, e) :: rest =>
    match step s c e with
    | none => none
    | some r =>
      match run r.state rest with
      | none => none
      | some (s', out) => some (s', r.out ++ out)

/-! ## Invariant -/

/-- Every stored room has its host among its players, every player of a room
is subscribed to the group of that room, and every room is stored under an id
of 5 characters, as `makeRoomId` returns them: no name inherited from
`Object.prototype` and no `socket.id` is among the keys. -/
def RoomsOk (rooms : List (RoomId × Room)) (subs : List (ConnId × RoomId)) : Prop :=
  ∀ p ∈ rooms, p.2.hostId ∈ keysOf p.2.players ∧
    (∀ c ∈ keysOf p.2.players, (c, p.1) ∈ subs) ∧ p.1.length = 5

/-- The invariant of reachable states: `RoomsOk`, and every group entered
through `socket.join` has a name of 5 characters. -/
def Inv (s : State) : Prop :=
  RoomsOk s.rooms s.subs ∧ ∀ q ∈ s.subs, q.2.length = 5

/-! ## Further invariants -/

/-- Every subscription is a membership: a connection subscribed to the group
`rid` is a player of the room stored under `rid`. -/
def SubsOk (s : State) : Prop :=
  ∀ q ∈ s.subs, ∃ room, getKey s.rooms q.2 = some room ∧ q.1 ∈ keysOf room.players

/-- No key occurs twice, in the store and in the players of every stored room,
as in a JavaScript object. -/
def Distinct (rooms : List (RoomId × Room)) : Prop :=
  (keysOf rooms).Nodup ∧ ∀ p ∈ rooms, (keysOf p.2.players).Nodup

/-- No connection is a player of rooms stored under two different ids. -/
def Alone (rooms : List (RoomId × Room)) : Prop :=
  ∀ c : ConnId, ∀ p ∈ rooms, ∀ q ∈ rooms,
    c ∈ keysOf p.2.players → c ∈ keysOf q.2.players → p.1 = q.1

/-- Every room of the first store has its players among the players of a room
stored under the same id in the second. -/
def Dominated (rooms' rooms : List (RoomId × Room)) : Prop :=
  ∀ p' ∈ rooms', ∃ p ∈ rooms, p.1 = p'.1 ∧
    ∀ c ∈ keysOf p'.2.players, c ∈ keysOf p.2.players

/-! ## Definitions used in statements -/

/-- The room record once connection `c` has been taken out of it, as both
`leaveRoom` (server.js:50-58) and `disconnecting` (server.js:115-121) compute
it; `none` when no player is left and the room is deleted. -/
def removed (room : Room) (c : ConnId) : Option Room :=
  match keysOf (delKey room.players c) with
  | [] => none
  | first :: _ =>
    some { room with players := delKey room.players c,
                     hostId := if room.hostId = c then first else room.hostId }

/-- The state after connection `c` has gone from room `rid`, by a `leaveRoom`
event or by disconnecting. -/
def depart (s : State) (c : ConnId) (rid : RoomId) (byDisconnect : Bool) : State :=
  if byDisconnect then (disconnect s c).state else (leaveRoom s c rid).state

/-- The host of the room stored under `rid`, if there is one. -/
def hostOf (s : State) (rid : RoomId) : Option ConnId :=
  (getKey s.rooms rid).map Room.hostId

/-- The room ids announced by `roomCreated` messages, in order. -/
def createdIds : List Emit → List RoomId
  | [] => []
  | .toSocket _ (.roomCreated rid) :: rest => rid :: createdIds rest
  | _ :: rest => createdIds rest

/-- Events that can delete a room: `leaveRoom` and a disconnect. -/
def Event.removes : Event → Bool
  | .leaveRoom _ => true
  | .disconnect => true
  | _ => false

/-- Events that are `createRoom`. -/
def Event.creates : Event → Bool
  | .createRoom _ _ _ _ => true
  | _ => false

/-- The `leaveRoom` events of connection `c` for the given rooms, in order. -/
def leaveEvents (c : ConnId) (l : List RoomId) : List (ConnId × Event) :=
  l.map (fun rid => (c, Event.leaveRoom rid))

/-- A message is a `chatMessage`. -/
def Msg.isChat : Msg → Bool
  | .chatMessage _ _ => true
  | _ => false

/-- An emit is a broadcast of a `chatMessage` to a group. -/
def Emit.isChatBroadcast : Emit → Bool
  | .toRoom _ m => m.isChat
  | _ => false

/-- The states after each event of a list, in order; `none` when one of them
does not run to its end. -/
def trace : State → List (ConnId × Event) → Option (List State)
  | _, [] => some []
  | s, (c, e) :: rest =>
    match step s c e with
    | none => none
    | some r => (trace r.state rest).map (fun tr => r.state :: tr)

/-- The room id carried by a room-scoped event. -/
def Event.roomId : Event → Option RoomId
  | .createRoom _ _ _ _ => none
  | .joinRoom roomId _ => some roomId
  | .leaveRoom roomId => some roomId
  | .toggleReady roomId => some roomId
  | .startRound roomId _ _ => some roomId
  | .requestPrompt roomId _ _ _ => some roomId
  | .selectedPrompt roomId _ => some roomId
  | .chat roomId _ => some roomId
  | .disconnect => none

/-- The ids of the stored rooms that have connection `c` among their players. -/
def roomsOf (s : State) (c : ConnId) : List RoomId :=
  (s.rooms.filter (fun p => decide (c ∈ keysOf p.2.players))).map Prod.fst

/-- A discipline of the callers, not checked by the server: `createRoom` is
raised only by a connection that is in no room, `joinRoom` only by a connection
that is in no room other than the one it names. -/
def entersAlone (s : State) (c : ConnId) : Event → Bool
  | .createRoom _ _ _ _ => (roomsOf s c).isEmpty
  | .joinRoom roomId _ => (roomsOf s c).all (fun r => decide (r = roomId))
  | _ => true

/-- States reachable when every caller keeps the discipline `entersAlone`. -/
inductive ReachableAlone : State → Prop where
  | init : ReachableAlone State.empty
  | step {s : State} (c : ConnId) (e : Event) {r : Result} :
    ReachableAlone s → entersAlone s c e = true → step s c e = some r →
    ReachableAlone r.state

/-- An emit is a broadcast of a `newPrompt` to a group. -/
def Emit.isPromptBroadcast : Emit → Bool
  | .toRoom _ (.newPrompt _ _) => true
  | _ => false

/-- An emit is a broadcast of a `roomUpdate` to a group. -/
def Emit.isRoomUpdate : Emit → Bool
  | .toRoom _ (.roomUpdate _) => true
  | _ => false

/-- Delivery of an emit in a state: `socket.emit` reaches its own connection,
`io.to(g).emit` reaches the connections that have `g` in `socket.rooms`. -/
def receives (s : State) (c : ConnId) : Emit → Bool
  | .toSocket c' _ => decide (c' = c)
  | .toRoom g _ => decide (g ∈ socketGroups s.subs c)

/-! ## Example data -/

/-- The draw 0, whose character is `A`. -/
def drawA : Draw := ⟨0, 53, by decide, by decide, by decide⟩

/-- The draw 1/16, whose character is `B`. -/
def drawB : Draw := ⟨2 ^ 49, 53, by decide, by decide, by decide⟩

/-- The draw 0.25806451612903225, the double next to 8/31 from below: the
exact product with 31 is below 8, the double product is 8, so its character is
`J`, not `H`. -/
def drawJ : Draw := ⟨4648877034705028, 54, by decide, by decide, by decide⟩

/-- The largest double below 1, whose character is `9`. -/
def drawTop : Draw := ⟨2 ^ 53 - 1, 53, by decide, by decide, by decide⟩

/-- The double 2^-200, whose character is `A`. -/
def drawTiny : Draw := ⟨1, 200, by decide, by decide, by decide⟩

/-- Draws that make `makeRoomId` return `AAAAA`. -/
def drawsA : List Draw := [drawA, drawA, drawA, drawA, drawA]

/-- Draws that make `makeRoomId` return `J9ABA`. -/
def drawsJ : List Draw := [drawJ, drawTop, drawTiny, drawB, drawA]

/-- Draws that make `makeRoomId` return `AAAAA` and then `AAAAB`. -/
def drawsAB : List Draw := drawsA ++ [drawA, drawA, drawA, drawA, drawB]

/-- Ann (connection 1) creates a room, which gets the id `AAAAA`. -/
def evAnn : List (ConnId × Event) :=
  [(1, .createRoom (.str "Ann") (.str "en") (.num 1) drawsA)]

/-- The room of `evAnn`. -/
def roomAnn : Room :=
  { hostId := 1, players := [(1, { name := .str "Ann", ready := false })],
    language := .str "en", layer := .num 1, round := 0 }

/-- The state after `evAnn`. -/
def stAnn : State := { rooms := [("AAAAA", roomAnn)], subs := [(1, "AAAAA")] }

/-- The state of `evAnn` with the round of the room at `n`. -/
def stRound (n : Nat) : State :=
  { rooms := [("AAAAA", { roomAnn with round := n })], subs := [(1, "AAAAA")] }

/-- Ann creates `AAAAA`, then Bob (connection 2) joins it. -/
def evAnnBob : List (ConnId × Event) :=
  evAnn ++ [(2, .joinRoom "AAAAA" (.str "Bob"))]

/-- The room of `evAnnBob`. -/
def roomAnnBob : Room :=
  { roomAnn with players := [(1, { name := .str "Ann", ready := false }),
                             (2, { name := .str "Bob", ready := false })] }

/-- The state after `evAnnBob`. -/
def stAnnBob : State :=
  { rooms := [("AAAAA", roomAnnBob)], subs := [(1, "AAAAA"), (2, "AAAAA")] }

/-- The state after `evAnnBob` and a `leaveRoom` of Ann for `AAAAA`: Bob is
alone in the room and its host, Ann is connected and in no room. -/
def stBob : State :=
  { rooms := [("AAAAA", { roomAnn with
      hostId := 2, players := [(2, { name := .str "Bob", ready := false })] })],
    subs := [(2, "AAAAA")] }

/-- Ann creates `AAAAA` and, the first candidate being taken, `AAAAB`; Bob
joins `AAAAB`. Ann is then alone in `AAAAA` and host of `AAAAB`. -/
def evTwoRooms : List (ConnId × Event) :=
  evAnn ++ [(1, .createRoom (.str "Ann") (.str "fr") (.num 2) drawsAB),
            (2, .joinRoom "AAAAB" (.str "Bob"))]

/-- The second room of `evTwoRooms`. -/
def roomSecond : Room :=
  { hostId := 1,
    players := [(1, { name := .str "Ann", ready := false }),
                (2, { name := .str "Bob", ready := false })],
    language := .str "fr", layer := .num 2, round := 0 }

/-- The state after `evTwoRooms`. -/
def stTwoRooms : State :=
  { rooms := [("AAAAA", roomAnn), ("AAAAB", roomSecond)],
    subs := [(1, "AAAAA"), (1, "AAAAB"), (2, "AAAAB")] }

/-- The messages emitted during `evTwoRooms`. -/
def outTwoRooms : List Emit :=
  [.toSocket 1 (.roomCreated "AAAAA"), .toRoom "AAAAA" (.roomUpdate roomAnn),
   .toSocket 1 (.roomCreated "AAAAB"),
   .toRoom "AAAAB" (.roomUpdate
     { roomSecond with players := [(1, { name := .str "Ann", ready := false })] }),
   .toRoom "AAAAB" (.roomUpdate roomSecond)]

/-! ## Dictionary lemmas -/

theorem getKey_eq_none_iff {κ α : Type} [DecidableEq κ] (l : List (κ × α)) (k : κ) :
    getKey l k = none ↔ k ∉ keysOf l := by
  induction l with
  | nil => simp [getKey, keysOf]
  | cons p rest ih =>
    obtain ⟨k', v⟩ := p
    by_cases h : k' = k
    · simp [getKey, keysOf, h]
    · have h' : ¬ k = k' := fun e => h e.symm
      simpa [getKey, keysOf, h, h'] using ih

theorem getKey_some_mem {κ α : Type} [DecidableEq κ] {l : List (κ × α)} {k : κ} {v : α}
    (h : getKey l k = some v) : (k, v) ∈ l := by
  induction l with
  | nil => simp [getKey] at h
  | cons p rest ih =>
    obtain ⟨k', v'⟩ := p
    by_cases hk : k' = k
    · simp [getKey, hk] at h
      simp [hk, h]
    · simp [getKey, hk] at h
      exact List.mem_cons_of_mem _ (ih h)

theorem mem_keysOf_of_mem {κ α : Type} {l : List (κ × α)} {p : κ × α} (h : p ∈ l) :
    p.1 ∈ keysOf l := List.mem_map_of_mem Prod.fst h

theorem getKey_isSome_of_mem_keys {κ α : Type} [DecidableEq κ] {l : List (κ × α)} {k : κ}
    (h : k ∈ keysOf l) : ∃ v, getKey l k = some v := by
  cases hg : getKey l k with
  | none => exact absurd h ((getKey_eq_none_iff l k).1 hg)
  | some v => exact ⟨v, rfl⟩

theorem mem_putKey {κ α : Type} [DecidableEq κ] {l : List (κ × α)} {k : κ} {v : α} {p : κ × α}
    (h : p ∈ putKey l k v) : p = (k, v) ∨ (p ∈ l ∧ p.1 ≠ k) := by
  unfold putKey at h
  split at h
  · rw [List.mem_map] at h
    obtain ⟨q, hq, rfl⟩ := h
    by_cases hk : q.1 = k
    · left; simp [hk]
    · right; simpa [hk] using hq
  · rw [List.mem_append] at h
    rcases h with h | h
    · right
      refine ⟨h, fun e => ?_⟩
      rename_i hn
      exact hn (e ▸ mem_keysOf_of_mem h)
    · left; simpa using h

theorem mem_delKey {κ α : Type} [DecidableEq κ] {l : List (κ × α)} {k : κ} {p : κ × α} :
    p ∈ delKey l k ↔ p ∈ l ∧ p.1 ≠ k := by
  simp [delKey]

theorem not_mem_keysOf_delKey {κ α : Type} [DecidableEq κ] (l : List (κ × α)) (k : κ) :
    k ∉ keysOf (delKey l k) := by
  intro h
  obtain ⟨p, hp, rfl⟩ := List.mem_map.1 h
  exact (mem_delKey.1 hp).2 rfl

theorem mem_keysOf_delKey {κ α : Type} [DecidableEq κ] {l : List (κ × α)} {k k' : κ} :
    k' ∈ keysOf (delKey l k) ↔ k' ∈ keysOf l ∧ k' ≠ k := by
  constructor
  · intro h
    obtain ⟨p, hp, rfl⟩ := List.mem_map.1 h
    exact ⟨mem_keysOf_of_mem (mem_delKey.1 hp).1, (mem_delKey.1 hp).2⟩
  · rintro ⟨h, hne⟩
    obtain ⟨p, hp, rfl⟩ := List.mem_map.1 h
    exact mem_keysOf_of_mem (mem_delKey.2 ⟨hp, hne⟩)

theorem keysOf_putKey_of_mem {κ α : Type} [DecidableEq κ] {l : List (κ × α)} {k : κ} (v : α)
    (h : k ∈ keysOf l) : keysOf (putKey l k v) = keysOf l := by
  unfold putKey
  rw [if_pos h]
  unfold keysOf
  rw [List.map_map]
  apply List.map_congr_left
  intro p _
  rfl

theorem keysOf_putKey_of_not_mem {κ α : Type} [DecidableEq κ] {l : List (κ × α)} {k : κ} (v : α)
    (h : k ∉ keysOf l) : keysOf (putKey l k v) = keysOf l ++ [k] := by
  unfold putKey
  rw [if_neg h]
  simp [keysOf]

theorem mem_keysOf_putKey {κ α : Type} [DecidableEq κ] {l : List (κ × α)} {k k' : κ} {v : α} :
    k' ∈ keysOf (putKey l k v) ↔ k' ∈ keysOf l ∨ k' = k := by
  by_cases h : k ∈ keysOf l
  · rw [keysOf_putKey_of_mem v h]
    constructor
    · exact Or.inl
    · rintro (h' | rfl)
      · exact h'
      · exact h
  · rw [keysOf_putKey_of_not_mem v h]
    simp

theorem getKey_putKey_same {κ α : Type} [DecidableEq κ] (l : List (κ × α)) (k : κ) (v : α) :
    getKey (putKey l k v) k = some v := by
  unfold putKey
  split
  · rename_i h
    induction l with
    | nil => simp [keysOf] at h
    | cons p rest ih =>
      obtain ⟨k', v'⟩ := p
      by_cases hk : k' = k
      · simp [getKey, hk]
      · have : k ∈ keysOf rest := by
          have h' : ¬ k = k' := fun e => hk e.symm
          simpa [keysOf, h'] using h
        simpa [getKey, hk] using ih this
  · rename_i h
    induction l with
    | nil => simp [getKey]
    | cons p rest ih =>
      obtain ⟨k', v'⟩ := p
      have hk : ¬ k' = k := by
        intro e; apply h; simp [keysOf, e]
      have : k ∉ keysOf rest := by
        intro e; apply h; simp [keysOf] at e ⊢; right; exact e
      simpa [getKey, hk] using ih this

theorem getKey_map_ne {κ α : Type} [DecidableEq κ] (l : List (κ × α)) (k k' : κ) (v : α) (hne : k' ≠ k) :
    getKey (l.map (fun p => (p.1, if p.1 = k then v else p.2))) k' = getKey l k' := by
  induction l with
  | nil => rfl
  | cons p rest ih =>
    obtain ⟨k1, v1⟩ := p
    by_cases hk : k1 = k
    · have h2 : ¬ k = k' := fun e => hne e.symm
      simp [getKey, hk, h2, ih]
    · by_cases h1 : k1 = k'
      · subst h1
        simp [getKey, hk]
      · simp [getKey, hk, h1, ih]

theorem getKey_append_ne {κ α : Type} [DecidableEq κ] (l : List (κ × α)) (k k' : κ) (v : α) (hne : k' ≠ k) :
    getKey (l ++ [(k, v)]) k' = getKey l k' := by
  induction l with
  | nil =>
    have h2 : ¬ k = k' := fun e => hne e.symm
    simp [getKey, h2]
  | cons p rest ih =>
    obtain ⟨k1, v1⟩ := p
    simp [getKey, ih]

theorem getKey_putKey_ne {κ α : Type} [DecidableEq κ] (l : List (κ × α)) {k k' : κ} (v : α) (hne : k' ≠ k) :
    getKey (putKey l k v) k' = getKey l k' := by
  unfold putKey
  split
  · exact getKey_map_ne l k k' v hne
  · exact getKey_append_ne l k k' v hne

theorem getKey_delKey_same {κ α : Type} [DecidableEq κ] (l : List (κ × α)) (k : κ) :
    getKey (delKey l k) k = none :=
  (getKey_eq_none_iff _ _).2 (not_mem_keysOf_delKey l k)

theorem getKey_delKey_ne {κ α : Type} [DecidableEq κ] (l : List (κ × α)) {k k' : κ} (hne : k' ≠ k) :
    getKey (delKey l k) k' = getKey l k' := by
  induction l with
  | nil => rfl
  | cons p rest ih =>
    obtain ⟨k1, v1⟩ := p
    have ih' : getKey (List.filter (fun p => !decide (p.1 = k)) rest) k' = getKey rest k' := by
      simpa [delKey] using ih
    by_cases hk : k1 = k
    · have h2 : ¬ k = k' := fun e => hne e.symm
      simp [delKey, List.filter, hk, getKey, h2, ih']
    · simp [delKey, List.filter, hk, getKey, ih']

/-! ## Subscription lemmas -/

theorem mem_socketJoin {subs : List (ConnId × RoomId)} {c : ConnId} {rid : RoomId}
    {q : ConnId × RoomId} :
    q ∈ socketJoin subs c rid ↔ q ∈ subs ∨ q = (c, rid) := by
  unfold socketJoin
  split
  · rename_i h
    constructor
    · exact Or.inl
    · rintro (h' | rfl)
      · exact h'
      · exact h
  · simp

theorem mem_socketLeave {subs : List (ConnId × RoomId)} {c : ConnId} {rid : RoomId}
    {q : ConnId × RoomId} :
    q ∈ socketLeave subs c rid ↔ q ∈ subs ∧ q ≠ (c, rid) := by
  simp [socketLeave]

theorem mem_leaveAll {subs : List (ConnId × RoomId)} {c : ConnId}
    {q : ConnId × RoomId} :
    q ∈ leaveAll subs c ↔ q ∈ subs ∧ q.1 ≠ c := by
  simp [leaveAll]

theorem mem_socketGroups {subs : List (ConnId × RoomId)} {c : ConnId} {rid : RoomId} :
    rid ∈ socketGroups subs c ↔ rid = socketId c ∨ (c, rid) ∈ subs := by
  simp [socketGroups]

theorem mem_socketRooms {subs : List (ConnId × RoomId)} {c : ConnId} {rid : RoomId} :
    rid ∈ socketRooms subs c ↔ (c, rid) ∈ subs ∧ rid ≠ socketId c := by
  unfold socketRooms
  rw [List.mem_filter, mem_socketGroups]
  simp only [decide_eq_true_eq]
  constructor
  · rintro ⟨h | h, hne⟩
    · exact absurd h hne
    · exact ⟨h, hne⟩
  · rintro ⟨h, hne⟩
    exact ⟨Or.inr h, hne⟩

/-! ## Reading the store -/

theorem roomsAt_room_iff {rooms : List (RoomId × Room)} {rid : RoomId} {r : Room} :
    roomsAt rooms rid = .room r ↔ getKey rooms rid = some r := by
  unfold roomsAt
  cases h : getKey rooms rid with
  | none => by_cases hp : rid ∈ protoNames <;> simp [hp]
  | some r' => simp

theorem roomsAt_undefined_iff {rooms : List (RoomId × Room)} {rid : RoomId} :
    roomsAt rooms rid = .undefined ↔ getKey rooms rid = none ∧ rid ∉ protoNames := by
  unfold roomsAt
  cases h : getKey rooms rid with
  | none => by_cases hp : rid ∈ protoNames <;> simp [hp]
  | some r' => simp

theorem roomsAt_inherited_iff {rooms : List (RoomId × Room)} {rid : RoomId} :
    roomsAt rooms rid = .inherited ↔ getKey rooms rid = none ∧ rid ∈ protoNames := by
  unfold roomsAt
  cases h : getKey rooms rid with
  | none => by_cases hp : rid ∈ protoNames <;> simp [hp]
  | some r' => simp

theorem roomsAt_truthy_eq_false {rooms : List (RoomId × Room)} {rid : RoomId} :
    (roomsAt rooms rid).truthy = false ↔ rid ∉ keysOf rooms ∧ rid ∉ protoNames := by
  rw [← getKey_eq_none_iff, ← roomsAt_undefined_iff]
  cases roomsAt rooms rid <;> simp [Found.truthy]

theorem pickRoomId_some {rooms : List (RoomId × Room)} {cands : List RoomId}
    {rid : RoomId} (h : pickRoomId rooms cands = some rid) :
    rid ∈ cands ∧ rid ∉ keysOf rooms ∧ rid ∉ protoNames := by
  unfold pickRoomId at h
  have h1 := List.find?_some h
  have h2 := List.mem_of_find?_eq_some h
  simp only [Bool.not_eq_true', roomsAt_truthy_eq_false] at h1
  exact ⟨h2, h1⟩

/-! ## Generated ids -/

theorem finish_eq_some {x r : Result} : finish x = some r ↔ x = r ∧ x.threw = false := by
  unfold finish
  cases h : x.threw <;> simp

theorem finish_of_not_threw {x : Result} (h : x.threw = false) : finish x = some x := by
  unfold finish
  simp [h]

theorem dropBits_le (fuel : Nat) :
    ∀ (N j : Nat), N < 2 ^ (53 + j) → dropBits fuel N ≤ j := by
  induction fuel with
  | zero => intro N j _; exact Nat.zero_le _
  | succ f ih =>
    intro N j h
    unfold dropBits
    split
    · exact Nat.zero_le _
    · rename_i hN
      cases j with
      | zero => exact absurd h hN
      | succ j =>
        have : N / 2 < 2 ^ (53 + j) := by
          rw [Nat.div_lt_iff_lt_mul (by decide : 0 < 2)]
          have e : 2 ^ (53 + (j + 1)) = 2 ^ (53 + j) * 2 := by
            rw [← Nat.add_assoc, Nat.pow_succ]
          rw [← e]
          exact h
        exact Nat.succ_le_succ (ih _ j this)

theorem roundHalfEven_le (N s : Nat) (hs : s ≤ 5) :
    roundHalfEven N s * 2 ^ s ≤ N + 16 := by
  have hdm := Nat.div_add_mod N (2 ^ s)
  have hlt : N % 2 ^ s < 2 ^ s := Nat.mod_lt _ (Nat.pos_pow_of_pos s (by decide))
  unfold roundHalfEven
  generalize N / 2 ^ s = q at hdm ⊢
  generalize N % 2 ^ s = m at hdm hlt ⊢
  interval_cases s <;> simp only [Nat.reducePow] at hdm hlt ⊢ <;> split_ifs <;> omega

theorem floorMul_lt (r : Draw) : r.floorMul chars.length < chars.length := by
  have hm := r.mant_lt
  have he := r.exp_ge
  have hlen : chars.length = 31 := by decide
  unfold Draw.floorMul
  rw [hlen]
  simp only
  have hN : r.mant * 31 < 2 ^ (53 + 5) := by
    have : (2 : Nat) ^ (53 + 5) = 2 ^ 53 * 32 := by norm_num
    omega
  have hs := dropBits_le (r.mant * 31) (r.mant * 31) 5 hN
  have hR := roundHalfEven_le (r.mant * 31) (dropBits (r.mant * 31) (r.mant * 31)) hs
  have hpow : 2 ^ 53 ≤ 2 ^ r.exp := Nat.pow_le_pow_right (by decide) he
  rw [Nat.div_lt_iff_lt_mul (Nat.pos_pow_of_pos _ (by decide))]
  have h53 : (2 : Nat) ^ 53 = 9007199254740992 := by norm_num
  omega

theorem chars_length : chars.length = 31 := by decide

theorem charAt_mem_chars {i : Nat} (h : i < chars.length) :
    ∃ ch ∈ chars, charAt i = ch.toString := by
  unfold charAt
  rw [List.get?_eq_get h]
  exact ⟨chars.get ⟨i, h⟩, List.get_mem _ _ _, rfl⟩

theorem makeRoomId_eq (r0 r1 r2 r3 r4 : Draw) :
    ∃ c0 ∈ chars, ∃ c1 ∈ chars, ∃ c2 ∈ chars, ∃ c3 ∈ chars, ∃ c4 ∈ chars,
      makeRoomId r0 r1 r2 r3 r4 = String.mk [c0, c1, c2, c3, c4] := by
  obtain ⟨c0, h0, e0⟩ := charAt_mem_chars (floorMul_lt r0)
  obtain ⟨c1, h1, e1⟩ := charAt_mem_chars (floorMul_lt r1)
  obtain ⟨c2, h2, e2⟩ := charAt_mem_chars (floorMul_lt r2)
  obtain ⟨c3, h3, e3⟩ := charAt_mem_chars (floorMul_lt r3)
  obtain ⟨c4, h4, e4⟩ := charAt_mem_chars (floorMul_lt r4)
  refine ⟨c0, h0, c1, h1, c2, h2, c3, h3, c4, h4, ?_⟩
  simp only [makeRoomId, List.foldl, e0, e1, e2, e3, e4]
  rfl

theorem makeRoomId_length (r0 r1 r2 r3 r4 : Draw) :
    (makeRoomId r0 r1 r2 r3 r4).length = 5 := by
  obtain ⟨c0, -, c1, -, c2, -, c3, -, c4, -, e⟩ := makeRoomId_eq r0 r1 r2 r3 r4
  rw [e]
  rfl

theorem protoNames_length : ∀ n ∈ protoNames, n.length ≠ 5 := by decide

theorem candidates_length :
    ∀ (n : Nat) (draws : List Draw), draws.length ≤ n →
      ∀ rid ∈ candidates draws, rid.length = 5 := by
  intro n
  induction n using Nat.strong_induction_on with
  | _ n ih =>
    intro draws hlen rid hrid
    match draws, hlen, hrid with
    | r0 :: r1 :: r2 :: r3 :: r4 :: rest, hlen, hrid =>
      simp only [candidates, List.mem_cons] at hrid
      rcases hrid with rfl | hrid
      · exact makeRoomId_length _ _ _ _ _
      · refine ih rest.length ?_ rest (Nat.le_refl _) rid hrid
        simp only [List.length_cons] at hlen
        omega
    | [], _, hrid => simp [candidates] at hrid
    | [_], _, hrid => simp [candidates] at hrid
    | [_, _], _, hrid => simp [candidates] at hrid
    | [_, _, _], _, hrid => simp [candidates] at hrid
    | [_, _, _, _], _, hrid => simp [candidates] at hrid

theorem candidates_not_proto {draws : List Draw} {rid : RoomId}
    (h : rid ∈ candidates draws) : rid ∉ protoNames :=
  fun hp => protoNames_length rid hp (candidates_length _ draws (Nat.le_refl _) rid h)

theorem candidates_mem_length {draws : List Draw} {rid : RoomId}
    (h : rid ∈ candidates draws) : rid.length = 5 :=
  candidates_length _ draws (Nat.le_refl _) rid h

theorem not_proto_of_length {rid : RoomId} (h : rid.length = 5) : rid ∉ protoNames :=
  fun hp => protoNames_length rid hp h

theorem socketId_length (c : ConnId) : 7 ≤ (socketId c).length := by
  unfold socketId
  rw [String.length_append]
  exact Nat.le_add_right _ _

theorem ne_socketId_of_length {rid : RoomId} (h : rid.length = 5) (c : ConnId) :
    rid ≠ socketId c := by
  intro e
  have := socketId_length c
  rw [← e, h] at this
  exact absurd this (by decide)

/-! ## The invariant of reachable states -/

theorem roomsOk_putKey {rooms : List (RoomId × Room)} {subs subs' : List (ConnId × RoomId)}
    {rid : RoomId} {room' : Room}
    (h : RoomsOk rooms subs) (hk : rid.length = 5)
    (hhost : room'.hostId ∈ keysOf room'.players)
    (hmem : ∀ c ∈ keysOf room'.players, (c, rid) ∈ subs')
    (hsub : ∀ q ∈ subs, q.2 ≠ rid → q ∈ subs') :
    RoomsOk (putKey rooms rid room') subs' := by
  intro p hp
  rcases mem_putKey hp with rfl | ⟨hp', hne⟩
  · exact ⟨hhost, hmem, hk⟩
  · obtain ⟨h1, h2, h3⟩ := h p hp'
    exact ⟨h1, fun c hc => hsub _ (h2 c hc) hne, h3⟩

theorem roomsOk_delKey {rooms : List (RoomId × Room)} {subs subs' : List (ConnId × RoomId)}
    {rid : RoomId}
    (h : RoomsOk rooms subs)
    (hsub : ∀ q ∈ subs, q.2 ≠ rid → q ∈ subs') :
    RoomsOk (delKey rooms rid) subs' := by
  intro p hp
  obtain ⟨hp', hne⟩ := mem_delKey.1 hp
  obtain ⟨h1, h2, h3⟩ := h p hp'
  exact ⟨h1, fun c hc => hsub _ (h2 c hc) hne, h3⟩

theorem roomsOk_getKey {rooms : List (RoomId × Room)} {subs : List (ConnId × RoomId)}
    {rid : RoomId} {room : Room}
    (h : RoomsOk rooms subs) (hg : getKey rooms rid = some room) :
    room.hostId ∈ keysOf room.players ∧
      (∀ c ∈ keysOf room.players, (c, rid) ∈ subs) ∧ rid.length = 5 :=
  h (rid, room) (getKey_some_mem hg)

theorem inv_empty : Inv State.empty := by
  constructor
  · intro p hp
    simp [State.empty] at hp
  · intro q hq
    simp [State.empty] at hq

theorem inv_createRoom {s : State} {c : ConnId} {name language layer : JsVal}
    {draws : List Draw} {r : Result} (h : Inv s)
    (hr : createRoom s c name language layer draws = some r) : Inv r.state := by
  unfold createRoom at hr
  cases hp : pickRoomId s.rooms (candidates draws) with
  | none => simp [hp] at hr
  | some rid =>
    simp only [hp, Option.some.injEq] at hr
    subst hr
    have hproto : rid.length = 5 := candidates_mem_length (pickRoomId_some hp).1
    constructor
    · refine roomsOk_putKey h.1 hproto ?_ ?_ ?_
      · simp [putKey, keysOf]
      · intro c' hc'
        have : c' = c := by simpa [putKey, keysOf] using hc'
        subst this
        exact mem_socketJoin.2 (Or.inr rfl)
      · intro q hq _
        exact mem_socketJoin.2 (Or.inl hq)
    · intro q hq
      rcases mem_socketJoin.1 hq with hq | rfl
      · exact h.2 q hq
      · exact hproto

theorem inv_joinRoom {s : State} (c : ConnId) (roomId : RoomId) (name : JsVal)
    (h : Inv s) : Inv (joinRoom s c roomId name).state := by
  unfold joinRoom
  cases hf : roomsAt s.rooms roomId with
  | undefined => exact h
  | inherited => exact h
  | room room =>
    obtain ⟨h1, h2, h3⟩ := roomsOk_getKey h.1 (roomsAt_room_iff.1 hf)
    constructor
    · refine roomsOk_putKey h.1 h3 ?_ ?_ ?_
      · exact mem_keysOf_putKey.2 (Or.inl h1)
      · intro c' hc'
        rcases mem_keysOf_putKey.1 hc' with hc' | rfl
        · exact mem_socketJoin.2 (Or.inl (h2 c' hc'))
        · exact mem_socketJoin.2 (Or.inr rfl)
      · intro q hq _
        exact mem_socketJoin.2 (Or.inl hq)
    · intro q hq
      rcases mem_socketJoin.1 hq with hq | rfl
      · exact h.2 q hq
      · exact h3

theorem head_mem_keysOf {κ α : Type} {l : List (κ × α)} {k : κ} {ks : List κ}
    (h : keysOf l = k :: ks) : k ∈ keysOf l := by
  rw [h]; exact List.mem_cons_self _ _

theorem inv_leaveRoom {s : State} (c : ConnId) (roomId : RoomId)
    (h : Inv s) : Inv (leaveRoom s c roomId).state := by
  unfold leaveRoom
  cases hf : roomsAt s.rooms roomId with
  | undefined => exact h
  | inherited => exact h
  | room room =>
    obtain ⟨h1, h2, h3⟩ := roomsOk_getKey h.1 (roomsAt_room_iff.1 hf)
    have hsub : ∀ q ∈ s.subs, q.2 ≠ roomId → q ∈ socketLeave s.subs c roomId := by
      intro q hq hne
      refine mem_socketLeave.2 ⟨hq, fun e => hne ?_⟩
      rw [e]
    have hsubKey : ∀ q ∈ socketLeave s.subs c roomId, q.2.length = 5 :=
      fun q hq => h.2 q (mem_socketLeave.1 hq).1
    simp only
    cases hk : keysOf (delKey room.players c) with
    | nil => exact ⟨roomsOk_delKey h.1 hsub, hsubKey⟩
    | cons first ks =>
      refine ⟨roomsOk_putKey h.1 h3 ?_ ?_ hsub, hsubKey⟩
      · simp only
        split
        · exact head_mem_keysOf hk
        · rename_i hne
          exact mem_keysOf_delKey.2 ⟨h1, hne⟩
      · intro c' hc'
        obtain ⟨hc1, hc2⟩ := mem_keysOf_delKey.1 hc'
        refine mem_socketLeave.2 ⟨h2 c' hc1, fun e => hc2 ?_⟩
        exact (Prod.mk.inj e).1

theorem inv_toggleReady {s : State} (c : ConnId) (roomId : RoomId)
    (h : Inv s) : Inv (toggleReady s c roomId).state := by
  unfold toggleReady
  cases hf : roomsAt s.rooms roomId with
  | undefined => exact h
  | inherited => exact h
  | room room =>
    obtain ⟨h1, h2, h3⟩ := roomsOk_getKey h.1 (roomsAt_room_iff.1 hf)
    simp only
    cases hg : getKey room.players c with
    | none => exact h
    | some p =>
      have hc : c ∈ keysOf room.players := mem_keysOf_of_mem (getKey_some_mem hg)
      refine ⟨roomsOk_putKey h.1 h3 ?_ ?_ (fun q hq _ => hq), h.2⟩
      · simp only [keysOf_putKey_of_mem _ hc]
        exact h1
      · simp only [keysOf_putKey_of_mem _ hc]
        exact h2

theorem inv_startRound {s : State} (c : ConnId) (roomId : RoomId) (seed : JsVal)
    (now : Nat) (h : Inv s) : Inv (startRound s c roomId seed now).state := by
  unfold startRound
  cases hf : roomsAt s.rooms roomId with
  | undefined => exact h
  | inherited => exact h
  | room room =>
    obtain ⟨h1, h2, h3⟩ := roomsOk_getKey h.1 (roomsAt_room_iff.1 hf)
    simp only
    split
    · exact h
    · exact ⟨roomsOk_putKey h.1 h3 h1 h2 (fun q hq _ => hq), h.2⟩

theorem requestPrompt_eq (s : State) (c : ConnId) (roomId : RoomId)
    (type language layer : JsVal) :
    requestPrompt s c roomId type language layer = Result.silent s := by
  unfold requestPrompt
  cases roomsAt s.rooms roomId <;> simp

theorem selectedPrompt_state (s : State) (c : ConnId) (roomId : RoomId)
    (promptObj : JsVal) : (selectedPrompt s c roomId promptObj).state = s := by
  unfold selectedPrompt
  cases roomsAt s.rooms roomId <;> rfl

theorem chat_state (s : State) (c : ConnId) (roomId : RoomId) (msg : JsVal) :
    (chat s c roomId msg).state = s := by
  unfold chat
  cases roomsAt s.rooms roomId <;> rfl

/-! ## The loop of the disconnecting handler -/

theorem roomsOk_disconnectingLoop (c : ConnId) (subs : List (ConnId × RoomId))
    (l : List RoomId) :
    ∀ rooms : List (RoomId × Room), RoomsOk rooms subs →
      RoomsOk (disconnectingLoop c l rooms).1 subs := by
  induction l with
  | nil => intro rooms h; exact h
  | cons rid rest ih =>
    intro rooms h
    unfold disconnectingLoop
    cases hf : roomsAt rooms rid with
    | undefined => exact ih rooms h
    | inherited => exact h
    | room room =>
      obtain ⟨h1, h2, h3⟩ := roomsOk_getKey h (roomsAt_room_iff.1 hf)
      simp only
      cases hk : keysOf (delKey room.players c) with
      | nil => exact ih _ (roomsOk_delKey h (fun q hq _ => hq))
      | cons first ks =>
        refine ih _ (roomsOk_putKey h h3 ?_ ?_ (fun q hq _ => hq))
        · simp only
          split
          · exact head_mem_keysOf hk
          · rename_i hne
            exact mem_keysOf_delKey.2 ⟨h1, hne⟩
        · intro c' hc'
          exact h2 c' (mem_keysOf_delKey.1 hc').1

theorem disconnectingLoop_threw (c : ConnId) (l : List RoomId) :
    ∀ rooms : List (RoomId × Room), (∀ r ∈ l, r ∉ protoNames) →
      (disconnectingLoop c l rooms).2.2 = false := by
  induction l with
  | nil => intro rooms _; rfl
  | cons rid rest ih =>
    intro rooms hl
    have hrest : ∀ r ∈ rest, r ∉ protoNames := fun r hr => hl r (List.mem_cons_of_mem _ hr)
    unfold disconnectingLoop
    cases hf : roomsAt rooms rid with
    | undefined => exact ih rooms hrest
    | inherited =>
      exact absurd (roomsAt_inherited_iff.1 hf).2 (hl rid (List.mem_cons_self _ _))
    | room room =>
      simp only
      cases hk : keysOf (delKey room.players c) with
      | nil => exact ih _ hrest
      | cons first ks => exact ih _ hrest

theorem disconnectingLoop_removes (c : ConnId) (l : List RoomId) :
    ∀ rooms : List (RoomId × Room), (∀ r ∈ l, r ∉ protoNames) →
      (∀ p ∈ rooms, c ∈ keysOf p.2.players → p.1 ∈ l) →
      ∀ p ∈ (disconnectingLoop c l rooms).1, c ∉ keysOf p.2.players := by
  induction l with
  | nil =>
    intro rooms _ hc p hp hcp
    exact absurd (hc p hp hcp) (List.not_mem_nil _)
  | cons rid rest ih =>
    intro rooms hl hc
    have hrest : ∀ r ∈ rest, r ∉ protoNames := fun r hr => hl r (List.mem_cons_of_mem _ hr)
    unfold disconnectingLoop
    cases hf : roomsAt rooms rid with
    | undefined =>
      refine ih rooms hrest (fun p hp hcp => ?_)
      have hnk : rid ∉ keysOf rooms :=
        (getKey_eq_none_iff _ _).1 (roomsAt_undefined_iff.1 hf).1
      rcases List.mem_cons.1 (hc p hp hcp) with e | e
      · exact absurd (e ▸ mem_keysOf_of_mem hp) hnk
      · exact e
    | inherited =>
      exact absurd (roomsAt_inherited_iff.1 hf).2 (hl rid (List.mem_cons_self _ _))
    | room room =>
      simp only
      cases hk : keysOf (delKey room.players c) with
      | nil =>
        refine ih _ hrest (fun p hp hcp => ?_)
        obtain ⟨hp', hne⟩ := mem_delKey.1 hp
        rcases List.mem_cons.1 (hc p hp' hcp) with e | e
        · exact absurd e hne
        · exact e
      | cons first ks =>
        refine ih _ hrest (fun p hp hcp => ?_)
        rcases mem_putKey hp with rfl | ⟨hp', hne⟩
        · exact absurd hcp (not_mem_keysOf_delKey _ _)
        · rcases List.mem_cons.1 (hc p hp' hcp) with e | e
          · exact absurd e hne
          · exact e

theorem socketRooms_not_proto {s : State} (h : Inv s) (c : ConnId) :
    ∀ r ∈ socketRooms s.subs c, r ∉ protoNames :=
  fun r hr => not_proto_of_length (h.2 (c, r) (mem_socketRooms.1 hr).1)

theorem mem_socketRooms_of_inv {s : State} (h : Inv s) {c : ConnId} {rid : RoomId}
    (hm : (c, rid) ∈ s.subs) : rid ∈ socketRooms s.subs c :=
  mem_socketRooms.2 ⟨hm, ne_socketId_of_length (h.2 (c, rid) hm) c⟩

theorem disconnecting_threw {s : State} (h : Inv s) (c : ConnId) :
    (disconnecting s c).threw = false :=
  disconnectingLoop_threw c _ _ (socketRooms_not_proto h c)

theorem disconnect_eq {s : State} (h : Inv s) (c : ConnId) :
    disconnect s c =
      { state := { rooms := (disconnecting s c).state.rooms,
                   subs := leaveAll s.subs c },
        out := (disconnecting s c).out, threw := false } := by
  unfold disconnect
  simp only [disconnecting_threw h c]
  rfl

theorem disconnecting_removes {s : State} (h : Inv s) (c : ConnId) :
    ∀ p ∈ (disconnecting s c).state.rooms, c ∉ keysOf p.2.players := by
  refine disconnectingLoop_removes c _ s.rooms (socketRooms_not_proto h c) ?_
  intro p hp hcp
  exact mem_socketRooms_of_inv h ((h.1 p hp).2.1 c hcp)

theorem inv_disconnect {s : State} (c : ConnId) (h : Inv s) :
    Inv (disconnect s c).state := by
  rw [disconnect_eq h c]
  have hok : RoomsOk (disconnecting s c).state.rooms s.subs :=
    roomsOk_disconnectingLoop c s.subs _ s.rooms h.1
  constructor
  · intro p hp
    obtain ⟨h1, h2, h3⟩ := hok p hp
    refine ⟨h1, fun c' hc' => mem_leaveAll.2 ⟨h2 c' hc', fun e => ?_⟩, h3⟩
    exact disconnecting_removes h c p hp (e ▸ hc')
  · intro q hq
    exact h.2 q (mem_leaveAll.1 hq).1

theorem inv_step {s : State} {c : ConnId} {e : Event} {r : Result}
    (h : Inv s) (hr : step s c e = some r) : Inv r.state := by
  cases e with
  | createRoom name language layer draws => exact inv_createRoom h hr
  | joinRoom roomId name =>
    have hr := (finish_eq_some.1 hr).1
    subst hr; exact inv_joinRoom c roomId name h
  | leaveRoom roomId =>
    have hr := (finish_eq_some.1 hr).1
    subst hr; exact inv_leaveRoom c roomId h
  | toggleReady roomId =>
    have hr := (finish_eq_some.1 hr).1
    subst hr; exact inv_toggleReady c roomId h
  | startRound roomId seed now =>
    have hr := (finish_eq_some.1 hr).1
    subst hr; exact inv_startRound c roomId seed now h
  | requestPrompt roomId type language layer =>
    have hr := (finish_eq_some.1 hr).1
    subst hr; rw [requestPrompt_eq]; exact h
  | selectedPrompt roomId promptObj =>
    have hr := (finish_eq_some.1 hr).1
    subst hr; rw [selectedPrompt_state]; exact h
  | chat roomId msg =>
    have hr := (finish_eq_some.1 hr).1
    subst hr; rw [chat_state]; exact h
  | disconnect =>
    have hr := (finish_eq_some.1 hr).1
    subst hr; exact inv_disconnect c h

theorem inv_of_reachable {s : State} (h : Reachable s) : Inv s := by
  induction h with
  | init => exact inv_empty
  | step c e _ hr ih => exact inv_step ih hr

/-! ## Runs -/

theorem reachable_of_run {evs : List (ConnId × Event)} :
    ∀ {s s' : State} {out : List Emit}, Reachable s → run s evs = some (s', out) →
      Reachable s' := by
  induction evs with
  | nil =>
    intro s s' out h hr
    simp only [run, Option.some.injEq, Prod.mk.injEq] at hr
    exact hr.1 ▸ h
  | cons ce rest ih =>
    intro s s' out h hr
    obtain ⟨c, e⟩ := ce
    simp only [run] at hr
    cases hs : step s c e with
    | none => simp [hs] at hr
    | some r =>
      simp only [hs] at hr
      cases hrest : run r.state rest with
      | none => simp [hrest] at hr
      | some so =>
        obtain ⟨s1, out1⟩ := so
        simp only [hrest, Option.some.injEq, Prod.mk.injEq] at hr
        exact hr.1 ▸ ih (Reachable.step c e h hs) hrest

theorem run_evAnn : run State.empty evAnn =
    some (stAnn, [.toSocket 1 (.roomCreated "AAAAA"), .toRoom "AAAAA" (.roomUpdate roomAnn)]) := by
  decide

theorem run_evAnnBob : run State.empty evAnnBob =
    some (stAnnBob, [.toSocket 1 (.roomCreated "AAAAA"), .toRoom "AAAAA" (.roomUpdate roomAnn),
      .toRoom "AAAAA" (.roomUpdate roomAnnBob)]) := by
  decide

theorem run_evTwoRooms : run State.empty evTwoRooms = some (stTwoRooms, outTwoRooms) := by
  decide

theorem reachable_stAnn : Reachable stAnn :=
  reachable_of_run Reachable.init run_evAnn

theorem reachable_stAnnBob : Reachable stAnnBob :=
  reachable_of_run Reachable.init run_evAnnBob

theorem run_evBob : run State.empty (evAnnBob ++ [(1, .leaveRoom "AAAAA")]) =
    some (stBob, [.toSocket 1 (.roomCreated "AAAAA"), .toRoom "AAAAA" (.roomUpdate roomAnn),
      .toRoom "AAAAA" (.roomUpdate roomAnnBob),
      .toRoom "AAAAA" (.roomUpdate { roomAnn with
        hostId := 2, players := [(2, { name := .str "Bob", ready := false })] })]) := by
  decide

theorem reachable_stBob : Reachable stBob :=
  reachable_of_run Reachable.init run_evBob

theorem reachable_stTwoRooms : Reachable stTwoRooms :=
  reachable_of_run Reachable.init run_evTwoRooms

/-! ## Taking a connection out of a room -/

theorem removed_none_iff {room : Room} {c : ConnId} :
    removed room c = none ↔ keysOf (delKey room.players c) = [] := by
  unfold removed
  cases keysOf (delKey room.players c) <;> simp

theorem delKey_of_not_mem {κ α : Type} [DecidableEq κ] {l : List (κ × α)} {k : κ}
    (h : k ∉ keysOf l) : delKey l k = l := by
  unfold delKey
  rw [List.filter_eq_self]
  intro p hp
  have : p.1 ≠ k := fun e => h (e ▸ mem_keysOf_of_mem hp)
  simpa using this

theorem removed_idem {room room' : Room} {c : ConnId}
    (h : removed room c = some room') : removed room' c = some room' := by
  unfold removed at h
  cases hk : keysOf (delKey room.players c) with
  | nil => simp [hk] at h
  | cons first ks =>
    simp only [hk, Option.some.injEq] at h
    subst h
    have hd : delKey (delKey room.players c) c = delKey room.players c :=
      delKey_of_not_mem (not_mem_keysOf_delKey _ _)
    have hfirst : first ≠ c := (mem_keysOf_delKey.1 (head_mem_keysOf hk)).2
    unfold removed
    simp only [hd, hk]
    by_cases hh : room.hostId = c
    · simp [hh, hfirst]
    · simp [hh]

theorem leaveRoom_rooms {s : State} {c : ConnId} {rid : RoomId} {room : Room}
    (hg : getKey s.rooms rid = some room) :
    (leaveRoom s c rid).state.rooms =
      (match removed room c with
       | none => delKey s.rooms rid
       | some room' => putKey s.rooms rid room') ∧
    (leaveRoom s c rid).out =
      (match removed room c with
       | none => []
       | some room' => [Emit.toRoom rid (.roomUpdate room')]) ∧
    (leaveRoom s c rid).state.subs = socketLeave s.subs c rid ∧
    (leaveRoom s c rid).threw = false := by
  unfold leaveRoom removed
  rw [roomsAt_room_iff.2 hg]
  simp only
  cases hk : keysOf (delKey room.players c) <;> simp

theorem leaveRoom_getKey {s : State} {c : ConnId} {rid : RoomId} {room : Room}
    (hg : getKey s.rooms rid = some room) :
    getKey (leaveRoom s c rid).state.rooms rid = removed room c := by
  rw [(leaveRoom_rooms hg).1]
  cases removed room c with
  | none => exact getKey_delKey_same _ _
  | some room' => exact getKey_putKey_same _ _ _

theorem disconnectingLoop_getKey (c : ConnId) (rid : RoomId) (l : List RoomId) :
    ∀ rooms : List (RoomId × Room), (∀ r ∈ l, r ∉ protoNames) →
      getKey (disconnectingLoop c l rooms).1 rid =
        if rid ∈ l then (getKey rooms rid).bind (fun room => removed room c)
        else getKey rooms rid := by
  induction l with
  | nil => intro rooms _; simp [disconnectingLoop]
  | cons r rest ih =>
    intro rooms hl
    have hrest : ∀ r ∈ rest, r ∉ protoNames := fun r hr => hl r (List.mem_cons_of_mem _ hr)
    have hstep : ∀ rooms' : List (RoomId × Room),
        (r = rid → getKey rooms' rid = (getKey rooms rid).bind (fun room => removed room c) ∧
          ((getKey rooms' rid).bind (fun room => removed room c)) = getKey rooms' rid) →
        (r ≠ rid → getKey rooms' rid = getKey rooms rid) →
        getKey (disconnectingLoop c rest rooms').1 rid =
          if rid ∈ r :: rest then (getKey rooms rid).bind (fun room => removed room c)
          else getKey rooms rid := by
      intro rooms' h1 h2
      rw [ih rooms' hrest]
      by_cases hr : r = rid
      · obtain ⟨h3, h4⟩ := h1 hr
        subst hr
        simp only [List.mem_cons, true_or, if_true]
        split
        · rw [h4, h3]
        · exact h3
      · have hr' : ¬ rid = r := fun e => hr e.symm
        simp only [List.mem_cons, hr', false_or, h2 hr]
    unfold disconnectingLoop
    cases hf : roomsAt rooms r with
    | undefined =>
      refine hstep rooms (fun e => ?_) (fun _ => rfl)
      subst e
      simp [(roomsAt_undefined_iff.1 hf).1]
    | inherited =>
      exact absurd (roomsAt_inherited_iff.1 hf).2 (hl r (List.mem_cons_self _ _))
    | room room =>
      have hg := roomsAt_room_iff.1 hf
      simp only
      cases hk : keysOf (delKey room.players c) with
      | nil =>
        refine hstep _ (fun e => ?_) (fun e => getKey_delKey_ne _ (Ne.symm e))
        subst e
        have : removed room c = none := removed_none_iff.2 hk
        simp [getKey_delKey_same, hg, this]
      | cons first ks =>
        refine hstep _ (fun e => ?_) (fun e => getKey_putKey_ne _ _ (Ne.symm e))
        subst e
        have hrm : removed room c = some { room with
            players := delKey room.players c,
            hostId := if room.hostId = c then first else room.hostId } := by
          unfold removed; simp [hk]
        simp [getKey_putKey_same, hg, hrm, removed_idem hrm]

theorem disconnect_getKey {s : State} (h : Inv s) {c : ConnId} {rid : RoomId}
    {room : Room} (hg : getKey s.rooms rid = some room) (hc : c ∈ keysOf room.players) :
    getKey (disconnect s c).state.rooms rid = removed room c := by
  rw [disconnect_eq h c]
  have hmem : rid ∈ socketRooms s.subs c :=
    mem_socketRooms_of_inv h ((roomsOk_getKey h.1 hg).2.1 c hc)
  have := disconnectingLoop_getKey c rid (socketRooms s.subs c) s.rooms
    (socketRooms_not_proto h c)
  simp only [hmem, if_true, hg, Option.some_bind] at this
  exact this

theorem depart_getKey {s : State} (h : Inv s) {c : ConnId} {rid : RoomId}
    {room : Room} (hg : getKey s.rooms rid = some room) (hc : c ∈ keysOf room.players)
    (b : Bool) : getKey (depart s c rid b).rooms rid = removed room c := by
  unfold depart
  cases b
  · simpa using leaveRoom_getKey hg
  · simpa using disconnect_getKey h hg hc

theorem inv_depart {s : State} (h : Inv s) (c : ConnId) (rid : RoomId) (b : Bool) :
    Inv (depart s c rid b) := by
  unfold depart
  cases b
  · simpa using inv_leaveRoom c rid h
  · simpa using inv_disconnect c h

theorem putKey_of_not_mem {κ α : Type} [DecidableEq κ] {l : List (κ × α)} {k : κ}
    (v : α) (h : k ∉ keysOf l) : putKey l k v = l ++ [(k, v)] := by
  unfold putKey
  rw [if_neg h]

theorem joinRoom_of_room {s : State} {c : ConnId} {rid : RoomId} {room : Room}
    (name : JsVal) (hg : getKey s.rooms rid = some room) :
    joinRoom s c rid name =
      { state := { rooms := putKey s.rooms rid
                     { room with players := putKey room.players c ⟨name, false⟩ },
                   subs := socketJoin s.subs c rid },
        out := [.toRoom rid (.roomUpdate
                 { room with players := putKey room.players c ⟨name, false⟩ })],
        threw := false } := by
  unfold joinRoom
  rw [roomsAt_room_iff.2 hg]

theorem joinRoom_getKey {s : State} {c : ConnId} {rid : RoomId} {room : Room}
    (name : JsVal) (hg : getKey s.rooms rid = some room) :
    getKey (joinRoom s c rid name).state.rooms rid =
      some { room with players := putKey room.players c ⟨name, false⟩ } := by
  rw [joinRoom_of_room name hg]
  exact getKey_putKey_same _ _ _

theorem createRoom_some {s : State} {c : ConnId} {name language layer : JsVal}
    {draws : List Draw} {r : Result}
    (hr : createRoom s c name language layer draws = some r) :
    ∃ rid, pickRoomId s.rooms (candidates draws) = some rid ∧
      r = { state := { rooms := s.rooms ++
                         [(rid, { hostId := c, players := [(c, ⟨name, false⟩)],
                                  language := language, layer := layer, round := 0 })],
                       subs := socketJoin s.subs c rid },
            out := [.toSocket c (.roomCreated rid),
                    .toRoom rid (.roomUpdate
                      { hostId := c, players := [(c, ⟨name, false⟩)],
                        language := language, layer := layer, round := 0 })],
            threw := false } := by
  unfold createRoom at hr
  cases hp : pickRoomId s.rooms (candidates draws) with
  | none => simp [hp] at hr
  | some rid =>
    simp only [hp, Option.some.injEq] at hr
    refine ⟨rid, rfl, ?_⟩
    have hk := (pickRoomId_some hp).2.1
    rw [← hr, putKey_of_not_mem _ hk, putKey_of_not_mem _ (List.not_mem_nil c)]
    rfl

/-- C1. Host is a member: in every state reachable from the empty store by
events of any connections, every stored room has a `hostId` that is a key of
its `players`; this holds for every entry of the store and so for the room that
the read `rooms[rid]` finds. -/
theorem host_is_member (s : State) (h : Reachable s) :
    (∀ p ∈ s.rooms, p.2.hostId ∈ keysOf p.2.players) ∧
    (∀ (rid : RoomId) (room : Room), getKey s.rooms rid = some room →
      room.hostId ∈ keysOf room.players) :=
  ⟨fun p hp => ((inv_of_reachable h).1 p hp).1,
   fun _ _ hg => (roomsOk_getKey (inv_of_reachable h).1 hg).1⟩

/-- Witness of C1 at the state where Ann created a room, Bob joined it and the
host Ann left: Bob, the host now, is a player. -/
theorem host_is_member_witness :
    getKey (leaveRoom stAnnBob 1 "AAAAA").state.rooms "AAAAA" =
      some { roomAnn with hostId := 2,
                          players := [(2, { name := .str "Bob", ready := false })] } ∧
    (2 : ConnId) ∈ keysOf [((2 : ConnId), ({ name := .str "Bob", ready := false } : Player))] :=
  ⟨by decide,
   (host_is_member _ (Reachable.step 1 (.leaveRoom "AAAAA") reachable_stAnnBob rfl)).2
     "AAAAA" { roomAnn with hostId := 2,
                            players := [(2, { name := .str "Bob", ready := false })] }
     (by decide)⟩

theorem hostOf_eq {s : State} {rid : RoomId} {room : Room}
    (hg : getKey s.rooms rid = some room) : hostOf s rid = some room.hostId := by
  simp [hostOf, hg]

theorem removed_host {room : Room} {c first : ConnId} {rest : List ConnId}
    (hh : room.hostId = c) (hk : keysOf (delKey room.players c) = first :: rest) :
    removed room c =
      some { room with players := delKey room.players c, hostId := first } := by
  unfold removed
  simp [hk, hh]

/-- C2. Host migration follows join order. First part: from any reachable
state, let A create a room and B, then C, join it (A, B, C distinct); the room
then has the players A, B, C in this order and host A; after A goes (by
`leaveRoom` or by disconnecting) the host is B; after A and B have gone, in
either order and each by either way, the host is C. Second part: whenever the
host `c` of a stored room goes, by either way, and players remain, the room
stays stored with `c` taken out and with the first of the remaining players, in
insertion order, as its host. -/
theorem host_migration_by_join_order :
    (∀ (s : State) (A B C : ConnId) (na nb nc language layer : JsVal)
       (draws : List Draw) (r1 : Result) (rid : RoomId),
       Reachable s → A ≠ B → A ≠ C → B ≠ C →
       createRoom s A na language layer draws = some r1 →
       r1.out.head? = some (.toSocket A (.roomCreated rid)) →
       (getKey (joinRoom (joinRoom r1.state B rid nb).state C rid nc).state.rooms rid).map
           (fun room => (room.hostId, keysOf room.players)) = some (A, [A, B, C]) ∧
       ∀ b1 b2 : Bool,
         hostOf (depart (joinRoom (joinRoom r1.state B rid nb).state C rid nc).state
                   A rid b1) rid = some B ∧
         hostOf (depart (depart (joinRoom (joinRoom r1.state B rid nb).state C rid nc).state
                   A rid b1) B rid b2) rid = some C ∧
         hostOf (depart (depart (joinRoom (joinRoom r1.state B rid nb).state C rid nc).state
                   B rid b1) A rid b2) rid = some C) ∧
    (∀ (s : State) (c : ConnId) (rid : RoomId) (room : Room) (first : ConnId)
       (rest : List ConnId) (b : Bool),
       Reachable s → getKey s.rooms rid = some room → room.hostId = c →
       keysOf (delKey room.players c) = first :: rest →
       getKey (depart s c rid b).rooms rid =
         some { room with players := delKey room.players c, hostId := first }) := by
  constructor
  · intro s A B C na nb nc language layer draws r1 rid hs hAB hAC hBC hcr hout
    have hBA : B ≠ A := Ne.symm hAB
    have hCA : C ≠ A := Ne.symm hAC
    have hCB : C ≠ B := Ne.symm hBC
    have hinv1 : Inv r1.state := inv_createRoom (inv_of_reachable hs) hcr
    obtain ⟨rid0, hpick, hr1⟩ := createRoom_some hcr
    have hrid : rid0 = rid := by
      rw [hr1] at hout
      simpa using hout
    subst hrid
    have hk := (pickRoomId_some hpick).2.1
    have hg1 : getKey r1.state.rooms rid0 =
        some { hostId := A, players := [(A, ⟨na, false⟩)],
               language := language, layer := layer, round := 0 } := by
      rw [hr1, ← putKey_of_not_mem _ hk]
      exact getKey_putKey_same _ _ _
    have hinv2 := inv_joinRoom B rid0 nb hinv1
    have hg2 := @joinRoom_getKey _ B _ _ nb hg1
    have hinv3 := inv_joinRoom C rid0 nc hinv2
    have hg3 := @joinRoom_getKey _ C _ _ nc hg2
    have hp3 : putKey (putKey [(A, (⟨na, false⟩ : Player))] B ⟨nb, false⟩) C ⟨nc, false⟩ =
        [(A, ⟨na, false⟩), (B, ⟨nb, false⟩), (C, ⟨nc, false⟩)] := by
      simp [putKey, keysOf, hBA, hCA, hCB]
    simp only [hp3] at hg3
    refine ⟨by simp [hg3, keysOf], fun b1 b2 => ?_⟩
    -- A goes first
    have hA := @depart_getKey _ hinv3 A _ _ hg3 (by simp [keysOf]) b1
    have hrA : removed
        { hostId := A,
          players := [(A, ⟨na, false⟩), (B, ⟨nb, false⟩), (C, ⟨nc, false⟩)],
          language := language, layer := layer, round := 0 } A =
        some { hostId := B, players := [(B, ⟨nb, false⟩), (C, ⟨nc, false⟩)],
               language := language, layer := layer, round := 0 } := by
      simp [removed, delKey, keysOf, List.filter, hBA, hCA]
    rw [hrA] at hA
    have hAB2 := @depart_getKey _ (inv_depart hinv3 A rid0 b1) B _ _ hA (by simp [keysOf]) b2
    have hrAB : removed
        { hostId := B, players := [(B, ⟨nb, false⟩), (C, ⟨nc, false⟩)],
          language := language, layer := layer, round := 0 } B =
        some { hostId := C, players := [(C, ⟨nc, false⟩)],
               language := language, layer := layer, round := 0 } := by
      simp [removed, delKey, keysOf, List.filter, hCB]
    rw [hrAB] at hAB2
    -- B goes first
    have hB := @depart_getKey _ hinv3 B _ _ hg3 (by simp [keysOf]) b1
    have hrB : removed
        { hostId := A,
          players := [(A, ⟨na, false⟩), (B, ⟨nb, false⟩), (C, ⟨nc, false⟩)],
          language := language, layer := layer, round := 0 } B =
        some { hostId := A, players := [(A, ⟨na, false⟩), (C, ⟨nc, false⟩)],
               language := language, layer := layer, round := 0 } := by
      simp [removed, delKey, keysOf, List.filter, hAB, hCB]
    rw [hrB] at hB
    have hBA2 := @depart_getKey _ (inv_depart hinv3 B rid0 b1) A _ _ hB (by simp [keysOf]) b2
    have hrBA : removed
        { hostId := A, players := [(A, ⟨na, false⟩), (C, ⟨nc, false⟩)],
          language := language, layer := layer, round := 0 } A =
        some { hostId := C, players := [(C, ⟨nc, false⟩)],
               language := language, layer := layer, round := 0 } := by
      simp [removed, delKey, keysOf, List.filter, hCA]
    rw [hrBA] at hBA2
    exact ⟨hostOf_eq hA, hostOf_eq hAB2, hostOf_eq hBA2⟩
  · intro s c rid room first rest b hs hg hh hk
    have hinv := inv_of_reachable hs
    have hc : c ∈ keysOf room.players := hh ▸ (roomsOk_getKey hinv.1 hg).1
    rw [depart_getKey hinv hg hc b, removed_host hh hk]

/-- Witness of C2, first part: connections 1, 2, 3 on the empty store, the room
getting the id `AAAAA`; the first to go leaves, the second disconnects. -/
theorem host_migration_by_join_order_witness :
    createRoom State.empty 1 (.str "Ann") (.str "en") (.num 1) drawsA =
      some ⟨stAnn, [.toSocket 1 (.roomCreated "AAAAA"),
                    .toRoom "AAAAA" (.roomUpdate roomAnn)], false⟩ ∧
    hostOf (depart (joinRoom (joinRoom stAnn 2 "AAAAA" (.str "Bob")).state 3 "AAAAA"
              (.str "Cy")).state 1 "AAAAA" false) "AAAAA" = some 2 ∧
    hostOf (depart (depart (joinRoom (joinRoom stAnn 2 "AAAAA" (.str "Bob")).state 3 "AAAAA"
              (.str "Cy")).state 1 "AAAAA" false) 2 "AAAAA" true) "AAAAA" = some 3 ∧
    hostOf (depart (depart (joinRoom (joinRoom stAnn 2 "AAAAA" (.str "Bob")).state 3 "AAAAA"
              (.str "Cy")).state 2 "AAAAA" false) 1 "AAAAA" true) "AAAAA" = some 3 :=
  ⟨by decide,
   (host_migration_by_join_order.1 State.empty 1 2 3 (.str "Ann") (.str "Bob") (.str "Cy")
      (.str "en") (.num 1) drawsA
      ⟨stAnn, [.toSocket 1 (.roomCreated "AAAAA"), .toRoom "AAAAA" (.roomUpdate roomAnn)], false⟩
      "AAAAA" Reachable.init (by decide) (by decide) (by decide) (by decide) rfl).2 false true⟩

/-! ## Creating rooms -/

theorem getKey_append_of_some {κ α : Type} [DecidableEq κ] {l : List (κ × α)} {k : κ}
    {v : α} (l' : List (κ × α)) (h : getKey l k = some v) :
    getKey (l ++ l') k = some v := by
  induction l with
  | nil => simp [getKey] at h
  | cons p rest ih =>
    obtain ⟨k1, v1⟩ := p
    by_cases hk : k1 = k
    · simpa [getKey, hk] using h
    · simp only [getKey, hk, if_false, List.cons_append] at h ⊢
      exact ih h

theorem createRoom_completes {s : State} (c : ConnId) (name language layer : JsVal)
    {draws : List Draw} (h : ∃ rid ∈ candidates draws, rid ∉ keysOf s.rooms) :
    ∃ r, createRoom s c name language layer draws = some r := by
  obtain ⟨rid, hrid, hk⟩ := h
  unfold createRoom
  cases hp : pickRoomId s.rooms (candidates draws) with
  | none =>
    unfold pickRoomId at hp
    have := List.find?_eq_none.1 hp rid hrid
    simp only [Bool.not_eq_true, Bool.not_eq_true', Bool.not_eq_false] at this
    have hf : (roomsAt s.rooms rid).truthy = false :=
      roomsAt_truthy_eq_false.2 ⟨hk, candidates_not_proto hrid⟩
    rw [hf] at this
    exact absurd this (by decide)
  | some rid' => exact ⟨_, rfl⟩

theorem createdIds_append (a b : List Emit) :
    createdIds (a ++ b) = createdIds a ++ createdIds b := by
  induction a with
  | nil => rfl
  | cons e rest ih =>
    cases e with
    | toSocket c m => cases m <;> simp [createdIds, ih]
    | toRoom rid m => simp [createdIds, ih]

theorem step_keeps_keys {s : State} {c : ConnId} {e : Event} {r : Result}
    (hrem : e.removes = false) (hr : step s c e = some r) :
    keysOf s.rooms ⊆ keysOf r.state.rooms ∧
    ((e.creates = true ∧ ∃ rid, createdIds r.out = [rid] ∧ rid ∉ keysOf s.rooms ∧
        rid ∈ keysOf r.state.rooms) ∨
     (e.creates = false ∧ createdIds r.out = [])) := by
  cases e with
  | createRoom name language layer draws =>
    obtain ⟨rid, hpick, hr1⟩ := createRoom_some hr
    subst hr1
    refine ⟨?_, Or.inl ⟨rfl, rid, rfl, (pickRoomId_some hpick).2.1, ?_⟩⟩
    · intro k hk
      simp only [keysOf, List.map_append, List.mem_append] at hk ⊢
      exact Or.inl hk
    · simp [keysOf]
  | joinRoom roomId name =>
    have hr := (finish_eq_some.1 hr).1
    subst hr
    cases hf : roomsAt s.rooms roomId with
    | undefined =>
      simp only [joinRoom, hf]
      exact ⟨fun _ h => h, Or.inr ⟨rfl, rfl⟩⟩
    | inherited =>
      simp only [joinRoom, hf]
      exact ⟨fun _ h => h, Or.inr ⟨rfl, rfl⟩⟩
    | room room =>
      have hg := roomsAt_room_iff.1 hf
      rw [joinRoom_of_room name hg]
      have hk : roomId ∈ keysOf s.rooms := mem_keysOf_of_mem (getKey_some_mem hg)
      simp only [keysOf_putKey_of_mem _ hk]
      exact ⟨fun _ h => h, Or.inr ⟨rfl, rfl⟩⟩
  | leaveRoom roomId => simp [Event.removes] at hrem
  | toggleReady roomId =>
    have hr := (finish_eq_some.1 hr).1
    subst hr
    unfold toggleReady
    cases hf : roomsAt s.rooms roomId with
    | undefined => exact ⟨fun _ h => h, Or.inr ⟨rfl, rfl⟩⟩
    | inherited => exact ⟨fun _ h => h, Or.inr ⟨rfl, rfl⟩⟩
    | room room =>
      have hg := roomsAt_room_iff.1 hf
      have hk : roomId ∈ keysOf s.rooms := mem_keysOf_of_mem (getKey_some_mem hg)
      simp only
      cases hp : getKey room.players c with
      | none => exact ⟨fun _ h => h, Or.inr ⟨rfl, rfl⟩⟩
      | some p =>
        simp only [keysOf_putKey_of_mem _ hk]
        exact ⟨fun _ h => h, Or.inr ⟨rfl, rfl⟩⟩
  | startRound roomId seed now =>
    have hr := (finish_eq_some.1 hr).1
    subst hr
    unfold startRound
    cases hf : roomsAt s.rooms roomId with
    | undefined => exact ⟨fun _ h => h, Or.inr ⟨rfl, rfl⟩⟩
    | inherited => exact ⟨fun _ h => h, Or.inr ⟨rfl, rfl⟩⟩
    | room room =>
      have hg := roomsAt_room_iff.1 hf
      have hk : roomId ∈ keysOf s.rooms := mem_keysOf_of_mem (getKey_some_mem hg)
      simp only
      split
      · exact ⟨fun _ h => h, Or.inr ⟨rfl, rfl⟩⟩
      · simp only [keysOf_putKey_of_mem _ hk]
        exact ⟨fun _ h => h, Or.inr ⟨rfl, rfl⟩⟩
  | requestPrompt roomId type language layer =>
    have hr := (finish_eq_some.1 hr).1
    subst hr
    rw [requestPrompt_eq]
    exact ⟨fun _ h => h, Or.inr ⟨rfl, rfl⟩⟩
  | selectedPrompt roomId promptObj =>
    have hr := (finish_eq_some.1 hr).1
    subst hr
    rw [selectedPrompt_state]
    refine ⟨fun _ h => h, Or.inr ⟨rfl, ?_⟩⟩
    unfold selectedPrompt
    cases roomsAt s.rooms roomId <;> rfl
  | chat roomId msg =>
    have hr := (finish_eq_some.1 hr).1
    subst hr
    rw [chat_state]
    refine ⟨fun _ h => h, Or.inr ⟨rfl, ?_⟩⟩
    unfold chat
    cases roomsAt s.rooms roomId <;> rfl
  | disconnect => simp [Event.removes] at hrem

theorem run_createdIds (evs : List (ConnId × Event)) :
    ∀ (s s' : State) (out : List Emit), (∀ ce ∈ evs, ce.2.removes = false) →
      run s evs = some (s', out) →
      keysOf s.rooms ⊆ keysOf s'.rooms ∧ (createdIds out).Nodup ∧
      (createdIds out).length = evs.countP (fun ce => ce.2.creates) ∧
      ∀ rid ∈ createdIds out, rid ∈ keysOf s'.rooms ∧ rid ∉ keysOf s.rooms := by
  induction evs with
  | nil =>
    intro s s' out _ hr
    simp only [run, Option.some.injEq, Prod.mk.injEq] at hr
    obtain ⟨rfl, rfl⟩ := hr
    simp [createdIds]
  | cons ce rest ih =>
    intro s s' out hrem hr
    obtain ⟨c, e⟩ := ce
    simp only [run] at hr
    cases hs : step s c e with
    | none => simp [hs] at hr
    | some r =>
      simp only [hs] at hr
      cases hrest : run r.state rest with
      | none => simp [hrest] at hr
      | some so =>
        obtain ⟨s1, out1⟩ := so
        simp only [hrest, Option.some.injEq, Prod.mk.injEq] at hr
        obtain ⟨rfl, rfl⟩ := hr
        obtain ⟨hsub1, hnd, hlen, hids⟩ :=
          ih r.state s1 out1 (fun ce h => hrem ce (List.mem_cons_of_mem _ h)) hrest
        obtain ⟨hsub0, hcase⟩ := step_keeps_keys (hrem (c, e) (List.mem_cons_self _ _)) hs
        refine ⟨fun k hk => hsub1 (hsub0 hk), ?_⟩
        rw [createdIds_append]
        rcases hcase with ⟨hc, rid, hid, hnew, hin⟩ | ⟨hc, hid⟩
        · rw [hid]
          refine ⟨?_, ?_, ?_⟩
          · simp only [List.singleton_append, List.nodup_cons]
            exact ⟨fun h => (hids rid h).2 hin, hnd⟩
          · simp [List.countP_cons, hc, hlen]
          · intro rid' hrid'
            simp only [List.singleton_append, List.mem_cons] at hrid'
            rcases hrid' with rfl | h
            · exact ⟨hsub1 hin, hnew⟩
            · exact ⟨(hids rid' h).1, fun hk => (hids rid' h).2 (hsub0 hk)⟩
        · rw [hid]
          refine ⟨by simpa using hnd, ?_, ?_⟩
          · simp [List.countP_cons, hc, hlen]
          · intro rid' hrid'
            simp only [List.nil_append] at hrid'
            exact ⟨(hids rid' hrid').1, fun hk => (hids rid' hrid').2 (hsub0 hk)⟩

/-- C3. `createRoom` never overwrites a stored room. (1) It ends as soon as a
generated candidate is not a key of the store, whatever candidates collided
before. (2) When it ends, the id it chose is a generated candidate that was not
a key before; the store is the old one, same entries in the same order, with one
entry added under the new id; every room found before is found unchanged; the
new entry is the room with host the caller, the caller as only player with the
given name and `ready = false`, the given language and layer, and round 0; the
caller is told the id and the room gets its snapshot. (3) Consequently a run of
events without `leaveRoom` and disconnect announces pairwise distinct ids, one
for each `createRoom`, all of them stored at the end and none stored before. -/
theorem createRoom_never_overwrites :
    (∀ (s : State) (c : ConnId) (name language layer : JsVal) (draws : List Draw),
       (∃ rid ∈ candidates draws, rid ∉ keysOf s.rooms) →
       ∃ r, createRoom s c name language layer draws = some r) ∧
    (∀ (s : State) (c : ConnId) (name language layer : JsVal) (draws : List Draw)
       (r : Result), createRoom s c name language layer draws = some r →
       ∃ rid, rid ∈ candidates draws ∧ rid ∉ keysOf s.rooms ∧
         r.state.rooms = s.rooms ++
           [(rid, { hostId := c, players := [(c, { name := name, ready := false })],
                    language := language, layer := layer, round := 0 })] ∧
         (∀ (rid' : RoomId) (room : Room), getKey s.rooms rid' = some room →
            getKey r.state.rooms rid' = some room) ∧
         getKey r.state.rooms rid =
           some { hostId := c, players := [(c, { name := name, ready := false })],
                  language := language, layer := layer, round := 0 } ∧
         r.out = [.toSocket c (.roomCreated rid),
                  .toRoom rid (.roomUpdate
                    { hostId := c, players := [(c, { name := name, ready := false })],
                      language := language, layer := layer, round := 0 })]) ∧
    (∀ (s s' : State) (evs : List (ConnId × Event)) (out : List Emit),
       (∀ ce ∈ evs, ce.2.removes = false) → run s evs = some (s', out) →
       (createdIds out).Nodup ∧
       (createdIds out).length = evs.countP (fun ce => ce.2.creates) ∧
       ∀ rid ∈ createdIds out, rid ∈ keysOf s'.rooms ∧ rid ∉ keysOf s.rooms) := by
  refine ⟨fun s c name language layer draws h =>
            createRoom_completes c name language layer h, ?_, ?_⟩
  · intro s c name language layer draws r hr
    obtain ⟨rid, hpick, hr1⟩ := createRoom_some hr
    obtain ⟨hcand, hk, -⟩ := pickRoomId_some hpick
    subst hr1
    refine ⟨rid, hcand, hk, rfl, fun rid' room hg => getKey_append_of_some _ hg, ?_, rfl⟩
    simp only
    rw [← putKey_of_not_mem _ hk]
    exact getKey_putKey_same _ _ _
  · intro s s' evs out hrem hr
    exact (run_createdIds evs s s' out hrem hr).2

/-- Witness of C3: Ann creates `AAAAA`, then creates again while the generator
returns `AAAAA` first and `AAAAB` next, and Bob joins; the two ids announced
are distinct. -/
theorem createRoom_never_overwrites_witness :
    run State.empty evTwoRooms = some (stTwoRooms, outTwoRooms) ∧
    createdIds outTwoRooms = ["AAAAA", "AAAAB"] ∧
    (createdIds outTwoRooms).Nodup :=
  ⟨by decide, by decide,
   (createRoom_never_overwrites.2.2 State.empty stTwoRooms evTwoRooms outTwoRooms
     (by decide) (by decide)).1⟩

/-! ## Chat -/

theorem playerName_of_not_mem {room : Room} {c : ConnId}
    (h : c ∉ keysOf room.players) : playerName room c = .undefined := by
  unfold playerName
  rw [(getKey_eq_none_iff _ _).2 h]

/-- C4, the claim as stated fails: Ann is alone in room `AAAAA`; connection 2,
which is not a player of it, sends `chat` with `hi`, and the room receives a
`chatMessage` under the name `Anon`. -/
theorem chat_from_non_member_is_broadcast :
    run State.empty evAnn =
      some (stAnn, [.toSocket 1 (.roomCreated "AAAAA"),
                    .toRoom "AAAAA" (.roomUpdate roomAnn)]) ∧
    getKey stAnn.rooms "AAAAA" = some roomAnn ∧
    (2 : ConnId) ∉ keysOf roomAnn.players ∧
    (chat stAnn 2 "AAAAA" (.str "hi")).out =
      [.toRoom "AAAAA" (.chatMessage (.str "Anon") (.str "hi"))] ∧
    ((chat stAnn 2 "AAAAA" (.str "hi")).out.any Emit.isChatBroadcast) = true := by
  decide

/-- C4 as amended. A `chat` event for a room id that is neither a key of the
store nor the name of an inherited property returns without a message and
without a change. A `chat` event sent to a stored room by a connection that is
not a key of its `players` returns after exactly one message, a `chatMessage` to
that room carrying the name `Anon` and the message as sent, and without a
change of the state. -/
theorem chat_absent_room_or_non_member (s : State) (c : ConnId) (rid : RoomId)
    (msg : JsVal) :
    (getKey s.rooms rid = none → rid ∉ protoNames →
      chat s c rid msg = ⟨s, [], false⟩) ∧
    (∀ room : Room, getKey s.rooms rid = some room → c ∉ keysOf room.players →
      chat s c rid msg =
        ⟨s, [.toRoom rid (.chatMessage (.str "Anon") msg)], false⟩) := by
  refine ⟨fun hg hp => ?_, fun room hg hc => ?_⟩
  · unfold chat
    rw [roomsAt_undefined_iff.2 ⟨hg, hp⟩]
    rfl
  · unfold chat
    rw [roomsAt_room_iff.2 hg]
    simp only [playerName_of_not_mem hc]
    rfl

/-- Witness of C4 as amended: Carol (connection 3) is not in the room of Ann
and Bob and is heard there as `Anon`; a chat to the absent `ZZZZZ` is not
heard. -/
theorem chat_absent_room_or_non_member_witness :
    chat stAnnBob 3 "ZZZZZ" (.str "hi") = ⟨stAnnBob, [], false⟩ ∧
    chat stAnnBob 3 "AAAAA" (.str "hi") =
      ⟨stAnnBob, [.toRoom "AAAAA" (.chatMessage (.str "Anon") (.str "hi"))], false⟩ :=
  ⟨(chat_absent_room_or_non_member stAnnBob 3 "ZZZZZ" (.str "hi")).1 (by decide) (by decide),
   (chat_absent_room_or_non_member stAnnBob 3 "AAAAA" (.str "hi")).2 roomAnnBob
     (by decide) (by decide)⟩

/-! ## Disconnect -/

/-- C5. Disconnect clears all memberships: in every reachable state, after the
disconnect of connection `c` no stored room has `c` as a key of its `players`,
in however many rooms `c` was and whether or not its going deleted some of
them; the handler does not throw there. -/
theorem disconnect_clears_memberships (s : State) (h : Reachable s) (c : ConnId) :
    (∀ p ∈ (disconnect s c).state.rooms, c ∉ keysOf p.2.players) ∧
    (∀ (rid : RoomId) (room : Room), getKey (disconnect s c).state.rooms rid = some room →
      c ∉ keysOf room.players) ∧
    (disconnect s c).threw = false := by
  have hinv := inv_of_reachable h
  have h1 : ∀ p ∈ (disconnect s c).state.rooms, c ∉ keysOf p.2.players := by
    rw [disconnect_eq hinv c]
    exact disconnecting_removes hinv c
  refine ⟨h1, fun rid room hg => h1 (rid, room) (getKey_some_mem hg), ?_⟩
  rw [disconnect_eq hinv c]

/-- Witness of C5: Ann is alone in `AAAAA` and host of `AAAAB`, where Bob is
too; her disconnect deletes `AAAAA` and leaves `AAAAB` to Bob alone. -/
theorem disconnect_clears_memberships_witness :
    (disconnect stTwoRooms 1).state.rooms =
      [("AAAAB", { roomSecond with hostId := 2,
                                   players := [(2, { name := .str "Bob", ready := false })] })] ∧
    (1 : ConnId) ∉ keysOf [((2 : ConnId), ({ name := .str "Bob", ready := false } : Player))] :=
  ⟨by decide,
   (disconnect_clears_memberships stTwoRooms reachable_stTwoRooms 1).2.1 "AAAAB"
     { roomSecond with hostId := 2,
                       players := [(2, { name := .str "Bob", ready := false })] }
     (by decide)⟩

theorem run_leaveEvents (c : ConnId) (l : List RoomId) :
    ∀ (rooms : List (RoomId × Room)) (subs : List (ConnId × RoomId)),
      (∀ r ∈ l, r ∉ protoNames) →
      (run ⟨rooms, subs⟩ (leaveEvents c l)).map (fun x => (x.1.rooms, x.2)) =
        some ((disconnectingLoop c l rooms).1, (disconnectingLoop c l rooms).2.1) := by
  induction l with
  | nil => intro rooms subs _; rfl
  | cons r rest ih =>
    intro rooms subs hl
    have hrest : ∀ r ∈ rest, r ∉ protoNames := fun r hr => hl r (List.mem_cons_of_mem _ hr)
    have key : ∀ (res : Result) (loopRes : List (RoomId × Room) × List Emit × Bool),
        leaveRoom ⟨rooms, subs⟩ c r = res → res.threw = false →
        (disconnectingLoop c rest res.state.rooms).1 = loopRes.1 →
        res.out ++ (disconnectingLoop c rest res.state.rooms).2.1 = loopRes.2.1 →
        (run ⟨rooms, subs⟩ (leaveEvents c (r :: rest))).map (fun x => (x.1.rooms, x.2)) =
          some (loopRes.1, loopRes.2.1) := by
      intro res loopRes hres ht h1 h2
      have hih := ih res.state.rooms res.state.subs hrest
      simp only [leaveEvents, List.map_cons, run, step, hres, finish_of_not_threw ht]
      simp only [leaveEvents] at hih
      cases hrun : run res.state (List.map (fun rid => (c, Event.leaveRoom rid)) rest) with
      | none => rw [hrun] at hih; simp at hih
      | some so =>
        obtain ⟨s1, out1⟩ := so
        rw [hrun] at hih
        simp only [Option.map_some', Option.some.injEq, Prod.mk.injEq] at hih ⊢
        rw [← h1, ← h2, hih.1, hih.2]
        exact ⟨rfl, rfl⟩
    cases hf : roomsAt rooms r with
    | undefined =>
      refine key (Result.silent ⟨rooms, subs⟩) _ ?_ rfl ?_ ?_
      · simp only [leaveRoom, hf]
      · simp only [disconnectingLoop, hf, Result.silent]
      · simp only [disconnectingLoop, hf, Result.silent, List.nil_append]
    | inherited =>
      exact absurd (roomsAt_inherited_iff.1 hf).2 (hl r (List.mem_cons_self _ _))
    | room room =>
      cases hk : keysOf (delKey room.players c) with
      | nil =>
        refine key ⟨⟨delKey rooms r, socketLeave subs c r⟩, [], false⟩ _ ?_ rfl ?_ ?_
        · simp only [leaveRoom, hf, hk]
        · simp only [disconnectingLoop, hf, hk]
        · simp only [disconnectingLoop, hf, hk, List.nil_append]
      | cons first ks =>
        refine key ⟨⟨putKey rooms r { room with
              players := delKey room.players c,
              hostId := if room.hostId = c then first else room.hostId },
            socketLeave subs c r⟩,
          [.toRoom r (.roomUpdate { room with
              players := delKey room.players c,
              hostId := if room.hostId = c then first else room.hostId })], false⟩ _ ?_ rfl ?_ ?_
        · simp only [leaveRoom, hf, hk]
        · simp only [disconnectingLoop, hf, hk]
        · simp only [disconnectingLoop, hf, hk, List.singleton_append]

/-- C6. Disconnect applies the logic of `leaveRoom` room by room: in every
reachable state, for the groups `r1, ..., rn` that connection `c` is subscribed
to, in the order of `socket.rooms`, the events `leaveRoom(r1)`, ...,
`leaveRoom(rn)` raised by `c` one after the other all run to their end, and
the store after them and the list of all messages they emit are the store
after the disconnect of `c` and the list of messages the disconnect emits. -/
theorem disconnect_refines_leaveRoom (s : State) (h : Reachable s) (c : ConnId) :
    (run s (leaveEvents c (socketRooms s.subs c))).map (fun x => (x.1.rooms, x.2)) =
      some ((disconnect s c).state.rooms, (disconnect s c).out) := by
  have hinv := inv_of_reachable h
  rw [disconnect_eq hinv c]
  exact run_leaveEvents c _ s.rooms s.subs (socketRooms_not_proto hinv c)

/-- Witness of C6 at the state where Ann is alone in `AAAAA` and host of
`AAAAB`, which Bob has joined. -/
theorem disconnect_refines_leaveRoom_witness :
    socketRooms stTwoRooms.subs 1 = ["AAAAA", "AAAAB"] ∧
    (run stTwoRooms [(1, .leaveRoom "AAAAA"), (1, .leaveRoom "AAAAB")]).map
        (fun x => (x.1.rooms, x.2)) =
      some ((disconnect stTwoRooms 1).state.rooms, (disconnect stTwoRooms 1).out) ∧
    (disconnect stTwoRooms 1).out =
      [.toRoom "AAAAB" (.roomUpdate
        { roomSecond with hostId := 2,
                          players := [(2, { name := .str "Bob", ready := false })] })] :=
  ⟨by decide, disconnect_refines_leaveRoom stTwoRooms reachable_stTwoRooms 1, by decide⟩

/-! ## The last player going -/

theorem keysOf_delKey_of_single {κ α : Type} [DecidableEq κ] {l : List (κ × α)} {k : κ}
    (h : keysOf l = [k]) : keysOf (delKey l k) = [] := by
  match l, h with
  | [(k', v)], h =>
    have hk : k' = k := by simpa [keysOf] using h
    simp [delKey, keysOf, hk]

theorem disconnectingLoop_silent (c : ConnId) (rid : RoomId) (l : List RoomId) :
    ∀ rooms : List (RoomId × Room),
      (∀ room, getKey rooms rid = some room → keysOf (delKey room.players c) = []) →
      ∀ m, Emit.toRoom rid m ∉ (disconnectingLoop c l rooms).2.1 := by
  induction l with
  | nil => intro rooms _ m; simp [disconnectingLoop]
  | cons r rest ih =>
    intro rooms hgone m
    unfold disconnectingLoop
    cases hf : roomsAt rooms r with
    | undefined => exact ih rooms hgone m
    | inherited => simp
    | room room =>
      have hg := roomsAt_room_iff.1 hf
      simp only
      cases hk : keysOf (delKey room.players c) with
      | nil =>
        refine ih _ (fun room' hg' => ?_) m
        by_cases e : rid = r
        · subst e
          rw [getKey_delKey_same] at hg'
          exact absurd hg' (by simp)
        · rw [getKey_delKey_ne _ e] at hg'
          exact hgone room' hg'
      | cons first ks =>
        have hne : rid ≠ r := by
          intro e
          subst e
          rw [hgone room hg] at hk
          exact absurd hk (by simp)
        simp only [List.mem_cons, not_or]
        refine ⟨fun e => hne ?_, ih _ (fun room' hg' => ?_) m⟩
        · exact (Emit.toRoom.inj e).1
        · rw [getKey_putKey_ne _ _ hne] at hg'
          exact hgone room' hg'

theorem joinRoom_of_undefined {s : State} (c : ConnId) {rid : RoomId} (name : JsVal)
    (hg : getKey s.rooms rid = none) (hp : rid ∉ protoNames) :
    joinRoom s c rid name =
      ⟨s, [.toSocket c (.errorJoin "Room not found")], false⟩ := by
  unfold joinRoom
  rw [roomsAt_undefined_iff.2 ⟨hg, hp⟩]

/-- C7. The last player going deletes the room. In every reachable state every
stored room has at least one player. If `c` is the only player of the room
stored under `rid`, then after `leaveRoom` of `c` for `rid` the id is no key of
the store and nothing was emitted; after the disconnect of `c` the id is no key
of the store and no message was sent to the group `rid`; and, whichever way `c`
went, a `joinRoom` for `rid` by any connection under any name then sends
`errorJoin` with `Room not found` to that connection alone and changes nothing,
so the room is not created again. -/
theorem last_member_leaving_destroys_room (s : State) (h : Reachable s) :
    (∀ p ∈ s.rooms, 1 ≤ p.2.players.length) ∧
    (∀ (c : ConnId) (rid : RoomId) (room : Room),
      getKey s.rooms rid = some room → keysOf room.players = [c] →
      (rid ∉ keysOf (leaveRoom s c rid).state.rooms ∧ (leaveRoom s c rid).out = []) ∧
      (rid ∉ keysOf (disconnect s c).state.rooms ∧
        ∀ m, Emit.toRoom rid m ∉ (disconnect s c).out) ∧
      (∀ (b : Bool) (c' : ConnId) (name : JsVal),
        joinRoom (depart s c rid b) c' rid name =
          ⟨depart s c rid b, [.toSocket c' (.errorJoin "Room not found")], false⟩)) := by
  have hinv := inv_of_reachable h
  constructor
  · intro p hp
    have hm := (hinv.1 p hp).1
    cases hpl : p.2.players with
    | nil => rw [hpl] at hm; simp [keysOf] at hm
    | cons x xs => simp
  · intro c rid room hg hkeys
    have hgone := keysOf_delKey_of_single hkeys
    have hrm : removed room c = none := removed_none_iff.2 hgone
    have hc : c ∈ keysOf room.players := by rw [hkeys]; simp
    have hproto : rid ∉ protoNames := not_proto_of_length (roomsOk_getKey hinv.1 hg).2.2
    have hl := @leaveRoom_rooms s c rid room hg
    have hd := disconnect_getKey hinv hg hc
    rw [hrm] at hd
    refine ⟨⟨?_, ?_⟩, ⟨(getKey_eq_none_iff _ _).1 hd, ?_⟩, ?_⟩
    · rw [hl.1, hrm]
      exact not_mem_keysOf_delKey _ _
    · rw [hl.2.1, hrm]
    · rw [disconnect_eq hinv c]
      refine disconnectingLoop_silent c rid _ s.rooms (fun room' hg' => ?_)
      rw [hg] at hg'
      cases hg'
      exact hgone
    · intro b c' name
      have hdep := depart_getKey hinv hg hc b
      rw [hrm] at hdep
      exact joinRoom_of_undefined c' name hdep hproto

/-- Witness of C7: Ann is alone in `AAAAA`; once she has left, the `joinRoom` of
Bob for `AAAAA` is answered by `errorJoin` and the store stays empty. -/
theorem last_member_leaving_destroys_room_witness :
    (leaveRoom stAnn 1 "AAAAA").state = ⟨[], []⟩ ∧
    ("AAAAA" ∉ keysOf (leaveRoom stAnn 1 "AAAAA").state.rooms ∧
      (leaveRoom stAnn 1 "AAAAA").out = []) ∧
    joinRoom (depart stAnn 1 "AAAAA" false) 2 "AAAAA" (.str "Bob") =
      ⟨depart stAnn 1 "AAAAA" false, [.toSocket 2 (.errorJoin "Room not found")], false⟩ :=
  ⟨by decide,
   ((last_member_leaving_destroys_room stAnn reachable_stAnn).2 1 "AAAAA" roomAnn
      (by decide) (by decide)).1,
   ((last_member_leaving_destroys_room stAnn reachable_stAnn).2 1 "AAAAA" roomAnn
      (by decide) (by decide)).2.2 false 2 (.str "Bob")⟩

/-! ## Joining -/

/-- C8, the code at the failing input: on the empty store, `joinRoom` for the
room id `constructor` finds the inherited property `rooms.constructor`, passes
the guard of line 37 and throws at line 41; no `errorJoin` is sent. -/
theorem joinRoom_inherited_name_sends_no_errorJoin :
    getKey State.empty.rooms "constructor" = none ∧
    joinRoom State.empty 1 "constructor" (.str "Bob") = ⟨State.empty, [], true⟩ := by
  decide

/-- C9. `joinRoom` for a stored room by a connection `c` that is not yet a
player of it appends the player `c` with the given name and `ready = false`
after all existing players and changes nothing else of the room: the stored
room is the old record with that one player added, so the number of players
grows by one, the keys are the old keys followed by `c`, every other player is
read as before, and `hostId`, `language`, `layer` and `round` are the old ones;
the only message is one `roomUpdate` with the new room, sent to the room; the
caller is subscribed to the group. -/
theorem joinRoom_adds_new_member (s : State) (c : ConnId) (rid : RoomId) (name : JsVal)
    (room : Room) (hg : getKey s.rooms rid = some room) (hc : c ∉ keysOf room.players) :
    getKey (joinRoom s c rid name).state.rooms rid =
      some { room with players := room.players ++ [(c, { name := name, ready := false })] } ∧
    (joinRoom s c rid name).out =
      [.toRoom rid (.roomUpdate
        { room with players := room.players ++ [(c, { name := name, ready := false })] })] ∧
    (joinRoom s c rid name).threw = false ∧
    (room.players ++ [(c, ({ name := name, ready := false } : Player))]).length =
      room.players.length + 1 ∧
    keysOf (room.players ++ [(c, ({ name := name, ready := false } : Player))]) =
      keysOf room.players ++ [c] ∧
    (∀ c' : ConnId, c' ≠ c →
      getKey (room.players ++ [(c, ({ name := name, ready := false } : Player))]) c' =
        getKey room.players c') ∧
    getKey (room.players ++ [(c, ({ name := name, ready := false } : Player))]) c =
      some { name := name, ready := false } ∧
    (c, rid) ∈ (joinRoom s c rid name).state.subs := by
  have hput := putKey_of_not_mem ({ name := name, ready := false } : Player) hc
  refine ⟨?_, ?_, ?_, by simp, by simp [keysOf], ?_, ?_, ?_⟩
  · rw [joinRoom_getKey name hg, hput]
  · rw [joinRoom_of_room name hg, hput]
  · rw [joinRoom_of_room name hg]
  · intro c' hne
    exact getKey_append_ne _ _ _ _ hne
  · rw [← hput]
    exact getKey_putKey_same _ _ _
  · rw [joinRoom_of_room name hg]
    exact mem_socketJoin.2 (Or.inr rfl)

/-- Witness of C9: Bob joins the room Ann created. -/
theorem joinRoom_adds_new_member_witness :
    getKey (joinRoom stAnn 2 "AAAAA" (.str "Bob")).state.rooms "AAAAA" =
      some { roomAnn with players := roomAnn.players ++ [(2, { name := .str "Bob", ready := false })] } ∧
    (joinRoom stAnn 2 "AAAAA" (.str "Bob")).out =
      [.toRoom "AAAAA" (.roomUpdate
        { roomAnn with players := roomAnn.players ++ [(2, { name := .str "Bob", ready := false })] })] :=
  ⟨(joinRoom_adds_new_member stAnn 2 "AAAAA" (.str "Bob") roomAnn (by decide) (by decide)).1,
   (joinRoom_adds_new_member stAnn 2 "AAAAA" (.str "Bob") roomAnn (by decide) (by decide)).2.1⟩

/-! ## Starting a round -/

/-- C10. `startRound` from a connection that is not the host of the room stored
under the given id, be it another player or no player at all, and likewise for
an id under which no room is stored, returns without a change of the state
(so the round and the whole store are as before) and without a message. -/
theorem startRound_non_host_is_silent (s : State) (c : ConnId) (rid : RoomId)
    (seed : JsVal) (now : Nat)
    (hc : ∀ room : Room, getKey s.rooms rid = some room → room.hostId ≠ c) :
    startRound s c rid seed now = ⟨s, [], false⟩ := by
  unfold startRound
  cases hf : roomsAt s.rooms rid with
  | undefined => rfl
  | inherited => rfl
  | room room =>
    have := hc room (roomsAt_room_iff.1 hf)
    simp [this, Result.silent]

/-- Witness of C10: in the room of Ann and Bob, hosted by Ann, neither the
player Bob nor the outsider Carol (connection 3) starts a round. -/
theorem startRound_non_host_is_silent_witness :
    startRound stAnnBob 2 "AAAAA" (.num 7) 1000 = ⟨stAnnBob, [], false⟩ ∧
    startRound stAnnBob 3 "AAAAA" .undefined 1000 = ⟨stAnnBob, [], false⟩ :=
  ⟨startRound_non_host_is_silent stAnnBob 2 "AAAAA" (.num 7) 1000 (by decide),
   startRound_non_host_is_silent stAnnBob 3 "AAAAA" .undefined 1000 (by decide)⟩

/-! ## Keys occur once -/

theorem nodup_keysOf_putKey {κ α : Type} [DecidableEq κ] {l : List (κ × α)} (k : κ) (v : α)
    (h : (keysOf l).Nodup) : (keysOf (putKey l k v)).Nodup := by
  by_cases hk : k ∈ keysOf l
  · rw [keysOf_putKey_of_mem v hk]; exact h
  · rw [keysOf_putKey_of_not_mem v hk]
    exact List.nodup_append.2 ⟨h, List.nodup_singleton k, by
      intro a ha hb
      rw [List.mem_singleton] at hb
      exact hk (hb ▸ ha)⟩

theorem nodup_keysOf_delKey {κ α : Type} [DecidableEq κ] {l : List (κ × α)} (k : κ)
    (h : (keysOf l).Nodup) : (keysOf (delKey l k)).Nodup :=
  List.Nodup.sublist (List.Sublist.map Prod.fst (List.filter_sublist l)) h

theorem getKey_of_mem_nodup {κ α : Type} [DecidableEq κ] {l : List (κ × α)} {p : κ × α}
    (h : (keysOf l).Nodup) (hp : p ∈ l) : getKey l p.1 = some p.2 := by
  induction l with
  | nil => simp at hp
  | cons q rest ih =>
    obtain ⟨k1, v1⟩ := q
    simp only [keysOf, List.map_cons, List.nodup_cons] at h
    rcases List.mem_cons.1 hp with rfl | hp'
    · simp [getKey]
    · have hne : k1 ≠ p.1 := fun e => h.1 (e ▸ List.mem_map_of_mem Prod.fst hp')
      simp only [getKey, hne, if_false]
      exact ih h.2 hp'

theorem putKey_self {κ α : Type} [DecidableEq κ] {l : List (κ × α)} {k : κ} {v : α}
    (h : (keysOf l).Nodup) (hg : getKey l k = some v) : putKey l k v = l := by
  have hk : k ∈ keysOf l := mem_keysOf_of_mem (getKey_some_mem hg)
  unfold putKey
  rw [if_pos hk]
  conv_rhs => rw [← List.map_id l]
  apply List.map_congr_left
  intro p hp
  by_cases e : p.1 = k
  · have := getKey_of_mem_nodup h hp
    rw [e, hg] at this
    simp only [e, if_true, id]
    cases p
    simp only [Option.some.injEq] at this
    simp_all
  · simp [e]

theorem putKey_of_mem {κ α : Type} [DecidableEq κ] {l : List (κ × α)} {k : κ}
    (v : α) (h : k ∈ keysOf l) :
    putKey l k v = l.map (fun p => (p.1, if p.1 = k then v else p.2)) := by
  unfold putKey
  rw [if_pos h]

theorem putKey_putKey {κ α : Type} [DecidableEq κ] (l : List (κ × α)) (k : κ) (v w : α) :
    putKey (putKey l k v) k w = putKey l k w := by
  have hk' : k ∈ keysOf (putKey l k v) := mem_keysOf_putKey.2 (Or.inr rfl)
  rw [putKey_of_mem w hk']
  by_cases hk : k ∈ keysOf l
  · rw [putKey_of_mem v hk, putKey_of_mem w hk, List.map_map]
    apply List.map_congr_left
    intro p _
    by_cases e : p.1 = k <;> simp [e]
  · rw [putKey_of_not_mem v hk, putKey_of_not_mem w hk, List.map_append]
    have : List.map (fun p : κ × α => (p.1, if p.1 = k then w else p.2)) l = l := by
      conv_rhs => rw [← List.map_id l]
      apply List.map_congr_left
      intro p hp
      have e : ¬ p.1 = k := fun e => hk (e ▸ mem_keysOf_of_mem hp)
      simp [e]
    rw [this]
    simp

theorem mem_putKey_of_ne {κ α : Type} [DecidableEq κ] {l : List (κ × α)} {k : κ} {v : α}
    {p : κ × α} (hne : p.1 ≠ k) : p ∈ putKey l k v ↔ p ∈ l := by
  constructor
  · intro h
    rcases mem_putKey h with rfl | ⟨h', _⟩
    · exact absurd rfl hne
    · exact h'
  · intro h
    unfold putKey
    split
    · exact List.mem_map.2 ⟨p, h, by simp [hne]⟩
    · exact List.mem_append.2 (Or.inl h)

theorem distinct_putKey {rooms : List (RoomId × Room)} {rid : RoomId} {room' : Room}
    (h : Distinct rooms) (hp : (keysOf room'.players).Nodup) :
    Distinct (putKey rooms rid room') := by
  refine ⟨nodup_keysOf_putKey rid room' h.1, fun p hpm => ?_⟩
  rcases mem_putKey hpm with rfl | ⟨hp', _⟩
  · exact hp
  · exact h.2 p hp'

theorem distinct_delKey {rooms : List (RoomId × Room)} (rid : RoomId)
    (h : Distinct rooms) : Distinct (delKey rooms rid) :=
  ⟨nodup_keysOf_delKey rid h.1, fun p hp => h.2 p (mem_delKey.1 hp).1⟩

theorem distinct_getKey {rooms : List (RoomId × Room)} {rid : RoomId} {room : Room}
    (h : Distinct rooms) (hg : getKey rooms rid = some room) :
    (keysOf room.players).Nodup :=
  h.2 (rid, room) (getKey_some_mem hg)

theorem distinct_createRoom {s : State} {c : ConnId} {name language layer : JsVal}
    {draws : List Draw} {r : Result} (h : Distinct s.rooms)
    (hr : createRoom s c name language layer draws = some r) : Distinct r.state.rooms := by
  obtain ⟨rid, hpick, hr1⟩ := createRoom_some hr
  have hk := (pickRoomId_some hpick).2.1
  subst hr1
  simp only
  rw [← putKey_of_not_mem _ hk]
  exact distinct_putKey h (by simp [keysOf])

theorem distinct_joinRoom {s : State} (c : ConnId) (roomId : RoomId) (name : JsVal)
    (h : Distinct s.rooms) : Distinct (joinRoom s c roomId name).state.rooms := by
  unfold joinRoom
  cases hf : roomsAt s.rooms roomId with
  | undefined => exact h
  | inherited => exact h
  | room room =>
    exact distinct_putKey h
      (nodup_keysOf_putKey _ _ (distinct_getKey h (roomsAt_room_iff.1 hf)))

theorem distinct_leaveRoom {s : State} (c : ConnId) (roomId : RoomId)
    (h : Distinct s.rooms) : Distinct (leaveRoom s c roomId).state.rooms := by
  unfold leaveRoom
  cases hf : roomsAt s.rooms roomId with
  | undefined => exact h
  | inherited => exact h
  | room room =>
    simp only
    cases hk : keysOf (delKey room.players c) with
    | nil => exact distinct_delKey _ h
    | cons first ks =>
      exact distinct_putKey h
        (nodup_keysOf_delKey _ (distinct_getKey h (roomsAt_room_iff.1 hf)))

theorem distinct_toggleReady {s : State} (c : ConnId) (roomId : RoomId)
    (h : Distinct s.rooms) : Distinct (toggleReady s c roomId).state.rooms := by
  unfold toggleReady
  cases hf : roomsAt s.rooms roomId with
  | undefined => exact h
  | inherited => exact h
  | room room =>
    simp only
    cases hg : getKey room.players c with
    | none => exact h
    | some p =>
      exact distinct_putKey h
        (nodup_keysOf_putKey _ _ (distinct_getKey h (roomsAt_room_iff.1 hf)))

theorem distinct_startRound {s : State} (c : ConnId) (roomId : RoomId) (seed : JsVal)
    (now : Nat) (h : Distinct s.rooms) :
    Distinct (startRound s c roomId seed now).state.rooms := by
  unfold startRound
  cases hf : roomsAt s.rooms roomId with
  | undefined => exact h
  | inherited => exact h
  | room room =>
    have hn := distinct_getKey h (roomsAt_room_iff.1 hf)
    simp only
    split
    · exact h
    · exact distinct_putKey h hn

theorem distinct_disconnectingLoop (c : ConnId) (l : List RoomId) :
    ∀ rooms : List (RoomId × Room), Distinct rooms →
      Distinct (disconnectingLoop c l rooms).1 := by
  induction l with
  | nil => intro rooms h; exact h
  | cons rid rest ih =>
    intro rooms h
    unfold disconnectingLoop
    cases hf : roomsAt rooms rid with
    | undefined => exact ih rooms h
    | inherited => exact h
    | room room =>
      simp only
      cases hk : keysOf (delKey room.players c) with
      | nil => exact ih _ (distinct_delKey _ h)
      | cons first ks =>
        exact ih _ (distinct_putKey h
          (nodup_keysOf_delKey _ (distinct_getKey h (roomsAt_room_iff.1 hf))))

theorem disconnect_rooms (s : State) (c : ConnId) :
    (disconnect s c).state.rooms = (disconnectingLoop c (socketRooms s.subs c) s.rooms).1 := by
  unfold disconnect disconnecting
  simp only
  split <;> rfl

theorem distinct_step {s : State} {c : ConnId} {e : Event} {r : Result}
    (h : Distinct s.rooms) (hr : step s c e = some r) : Distinct r.state.rooms := by
  cases e with
  | createRoom name language layer draws => exact distinct_createRoom h hr
  | joinRoom roomId name =>
    have hr := (finish_eq_some.1 hr).1
    subst hr; exact distinct_joinRoom c roomId name h
  | leaveRoom roomId =>
    have hr := (finish_eq_some.1 hr).1
    subst hr; exact distinct_leaveRoom c roomId h
  | toggleReady roomId =>
    have hr := (finish_eq_some.1 hr).1
    subst hr; exact distinct_toggleReady c roomId h
  | startRound roomId seed now =>
    have hr := (finish_eq_some.1 hr).1
    subst hr; exact distinct_startRound c roomId seed now h
  | requestPrompt roomId type language layer =>
    have hr := (finish_eq_some.1 hr).1
    subst hr; rw [requestPrompt_eq]; exact h
  | selectedPrompt roomId promptObj =>
    have hr := (finish_eq_some.1 hr).1
    subst hr; rw [selectedPrompt_state]; exact h
  | chat roomId msg =>
    have hr := (finish_eq_some.1 hr).1
    subst hr; rw [chat_state]; exact h
  | disconnect =>
    have hr := (finish_eq_some.1 hr).1
    subst hr
    rw [disconnect_rooms]
    exact distinct_disconnectingLoop c _ _ h

theorem distinct_of_reachable {s : State} (h : Reachable s) : Distinct s.rooms := by
  induction h with
  | init => exact ⟨List.nodup_nil, fun p hp => absurd hp (List.not_mem_nil _)⟩
  | step c e _ hr ih => exact distinct_step ih hr

/-! ## Subscriptions are memberships -/

theorem subsOk_createRoom {s : State} {c : ConnId} {name language layer : JsVal}
    {draws : List Draw} {r : Result} (h : SubsOk s)
    (hr : createRoom s c name language layer draws = some r) : SubsOk r.state := by
  obtain ⟨rid, hpick, hr1⟩ := createRoom_some hr
  have hk := (pickRoomId_some hpick).2.1
  subst hr1
  intro q hq
  rcases mem_socketJoin.1 hq with hq | rfl
  · obtain ⟨room, hg, hm⟩ := h q hq
    exact ⟨room, getKey_append_of_some _ hg, hm⟩
  · refine ⟨{ hostId := c, players := [(c, ⟨name, false⟩)], language := language,
               layer := layer, round := 0 }, ?_, ?_⟩
    · simp only
      rw [← putKey_of_not_mem _ hk]
      exact getKey_putKey_same _ _ _
    · simp [keysOf]

theorem subsOk_joinRoom {s : State} (c : ConnId) (roomId : RoomId) (name : JsVal)
    (h : SubsOk s) : SubsOk (joinRoom s c roomId name).state := by
  cases hf : roomsAt s.rooms roomId with
  | undefined => simp only [joinRoom, hf]; exact h
  | inherited => simp only [joinRoom, hf]; exact h
  | room room =>
    have hg := roomsAt_room_iff.1 hf
    rw [joinRoom_of_room name hg]
    intro q hq
    by_cases e : q.2 = roomId
    · refine ⟨_, by rw [e]; exact getKey_putKey_same _ _ _, ?_⟩
      rcases mem_socketJoin.1 hq with hq | rfl
      · obtain ⟨room0, hg0, hm⟩ := h q hq
        rw [e, hg] at hg0
        cases hg0
        exact mem_keysOf_putKey.2 (Or.inl hm)
      · exact mem_keysOf_putKey.2 (Or.inr rfl)
    · rcases mem_socketJoin.1 hq with hq | rfl
      · obtain ⟨room0, hg0, hm⟩ := h q hq
        exact ⟨room0, by simp only; rw [getKey_putKey_ne _ _ e]; exact hg0, hm⟩
      · exact absurd rfl e

theorem subsOk_leaveRoom {s : State} (c : ConnId) (roomId : RoomId)
    (h : SubsOk s) : SubsOk (leaveRoom s c roomId).state := by
  cases hf : roomsAt s.rooms roomId with
  | undefined => simp only [leaveRoom, hf]; exact h
  | inherited => simp only [leaveRoom, hf]; exact h
  | room room =>
    have hg := roomsAt_room_iff.1 hf
    obtain ⟨hrooms, -, hsubs, -⟩ := @leaveRoom_rooms s c roomId room hg
    intro q hq
    rw [hsubs] at hq
    obtain ⟨hq1, hq2⟩ := mem_socketLeave.1 hq
    obtain ⟨room0, hg0, hm⟩ := h q hq1
    rw [hrooms]
    by_cases e : q.2 = roomId
    · rw [e, hg] at hg0
      cases hg0
      have hne : q.1 ≠ c := by
        intro e1
        apply hq2
        exact Prod.ext e1 e
      have hm' : q.1 ∈ keysOf (delKey room.players c) := mem_keysOf_delKey.2 ⟨hm, hne⟩
      unfold removed
      cases hk : keysOf (delKey room.players c) with
      | nil => rw [hk] at hm'; exact absurd hm' (List.not_mem_nil _)
      | cons first ks =>
        simp only
        exact ⟨_, by rw [e]; exact getKey_putKey_same _ _ _, hm'⟩
    · refine ⟨room0, ?_, hm⟩
      cases removed room c with
      | none => simp only; rw [getKey_delKey_ne _ e]; exact hg0
      | some room' => simp only; rw [getKey_putKey_ne _ _ e]; exact hg0

theorem subsOk_toggleReady {s : State} (c : ConnId) (roomId : RoomId)
    (h : SubsOk s) : SubsOk (toggleReady s c roomId).state := by
  unfold toggleReady
  cases hf : roomsAt s.rooms roomId with
  | undefined => exact h
  | inherited => exact h
  | room room =>
    have hg := roomsAt_room_iff.1 hf
    simp only
    cases hp : getKey room.players c with
    | none => exact h
    | some p =>
      have hc : c ∈ keysOf room.players := mem_keysOf_of_mem (getKey_some_mem hp)
      intro q hq
      obtain ⟨room0, hg0, hm⟩ := h q hq
      by_cases e : q.2 = roomId
      · rw [e, hg] at hg0
        cases hg0
        refine ⟨_, by rw [e]; exact getKey_putKey_same _ _ _, ?_⟩
        simp only [keysOf_putKey_of_mem _ hc]
        exact hm
      · exact ⟨room0, by simp only; rw [getKey_putKey_ne _ _ e]; exact hg0, hm⟩

theorem subsOk_startRound {s : State} (c : ConnId) (roomId : RoomId) (seed : JsVal)
    (now : Nat) (h : SubsOk s) : SubsOk (startRound s c roomId seed now).state := by
  unfold startRound
  cases hf : roomsAt s.rooms roomId with
  | undefined => exact h
  | inherited => exact h
  | room room =>
    have hg := roomsAt_room_iff.1 hf
    simp only
    split
    · exact h
    · intro q hq
      obtain ⟨room0, hg0, hm⟩ := h q hq
      by_cases e : q.2 = roomId
      · rw [e, hg] at hg0
        cases hg0
        exact ⟨{ room with round := doubleAddOne room.round },
          by rw [e]; exact getKey_putKey_same _ _ _, hm⟩
      · exact ⟨room0, by simp only; rw [getKey_putKey_ne _ _ e]; exact hg0, hm⟩

theorem subsOk_disconnect {s : State} (c : ConnId) (hinv : Inv s) (h : SubsOk s) :
    SubsOk (disconnect s c).state := by
  rw [disconnect_eq hinv c]
  intro q hq
  obtain ⟨hq1, hq2⟩ := mem_leaveAll.1 hq
  obtain ⟨room0, hg0, hm⟩ := h q hq1
  have hloop := disconnectingLoop_getKey c q.2 (socketRooms s.subs c) s.rooms
    (socketRooms_not_proto hinv c)
  have hm' : q.1 ∈ keysOf (delKey room0.players c) := mem_keysOf_delKey.2 ⟨hm, hq2⟩
  show ∃ room, getKey (disconnectingLoop c (socketRooms s.subs c) s.rooms).1 q.2 = some room ∧ _
  rw [hloop, hg0]
  split
  · simp only [Option.some_bind]
    unfold removed
    cases hk : keysOf (delKey room0.players c) with
    | nil => rw [hk] at hm'; exact absurd hm' (List.not_mem_nil _)
    | cons first ks => exact ⟨_, rfl, hm'⟩
  · exact ⟨room0, rfl, hm⟩

theorem subsOk_step {s : State} {c : ConnId} {e : Event} {r : Result}
    (hinv : Inv s) (h : SubsOk s) (hr : step s c e = some r) : SubsOk r.state := by
  cases e with
  | createRoom name language layer draws => exact subsOk_createRoom h hr
  | joinRoom roomId name =>
    have hr := (finish_eq_some.1 hr).1
    subst hr; exact subsOk_joinRoom c roomId name h
  | leaveRoom roomId =>
    have hr := (finish_eq_some.1 hr).1
    subst hr; exact subsOk_leaveRoom c roomId h
  | toggleReady roomId =>
    have hr := (finish_eq_some.1 hr).1
    subst hr; exact subsOk_toggleReady c roomId h
  | startRound roomId seed now =>
    have hr := (finish_eq_some.1 hr).1
    subst hr; exact subsOk_startRound c roomId seed now h
  | requestPrompt roomId type language layer =>
    have hr := (finish_eq_some.1 hr).1
    subst hr; rw [requestPrompt_eq]; exact h
  | selectedPrompt roomId promptObj =>
    have hr := (finish_eq_some.1 hr).1
    subst hr; rw [selectedPrompt_state]; exact h
  | chat roomId msg =>
    have hr := (finish_eq_some.1 hr).1
    subst hr; rw [chat_state]; exact h
  | disconnect =>
    have hr := (finish_eq_some.1 hr).1
    subst hr; exact subsOk_disconnect c hinv h

theorem subsOk_of_reachable {s : State} (h : Reachable s) : SubsOk s := by
  induction h with
  | init => intro q hq; simp [State.empty] at hq
  | step c e hs hr ih => exact subsOk_step (inv_of_reachable hs) ih hr

/-! ## Rounds -/

theorem disconnectingLoop_round (c : ConnId) (rid : RoomId) (l : List RoomId) :
    ∀ (rooms : List (RoomId × Room)) (room' : Room),
      getKey (disconnectingLoop c l rooms).1 rid = some room' →
      ∃ room, getKey rooms rid = some room ∧ room'.round = room.round := by
  induction l with
  | nil => intro rooms room' h; exact ⟨room', h, rfl⟩
  | cons r rest ih =>
    intro rooms room' h
    unfold disconnectingLoop at h
    cases hf : roomsAt rooms r with
    | undefined => rw [hf] at h; exact ih rooms room' h
    | inherited => rw [hf] at h; exact ⟨room', h, rfl⟩
    | room room =>
      have hg := roomsAt_room_iff.1 hf
      rw [hf] at h
      simp only at h
      cases hk : keysOf (delKey room.players c) with
      | nil =>
        rw [hk] at h
        obtain ⟨room1, hg1, hr1⟩ := ih _ room' h
        by_cases e : rid = r
        · subst e
          rw [getKey_delKey_same] at hg1
          exact absurd hg1 (by simp)
        · rw [getKey_delKey_ne _ e] at hg1
          exact ⟨room1, hg1, hr1⟩
      | cons first ks =>
        rw [hk] at h
        obtain ⟨room1, hg1, hr1⟩ := ih _ room' h
        by_cases e : rid = r
        · subst e
          rw [getKey_putKey_same] at hg1
          cases hg1
          exact ⟨room, hg, hr1⟩
        · rw [getKey_putKey_ne _ _ e] at hg1
          exact ⟨room1, hg1, hr1⟩

theorem le_doubleAddOne (n : Nat) : n ≤ doubleAddOne n := by
  unfold doubleAddOne
  split_ifs <;> omega

theorem doubleAddOne_of_lt {n : Nat} (h : n < 2 ^ 53) : doubleAddOne n = n + 1 := by
  unfold doubleAddOne
  rw [if_pos h]

theorem startRound_of_host {s : State} {c : ConnId} {rid : RoomId} {room : Room}
    (seed : JsVal) (now : Nat) (hg : getKey s.rooms rid = some room) (hh : room.hostId = c) :
    startRound s c rid seed now =
      ⟨⟨putKey s.rooms rid { room with round := doubleAddOne room.round }, s.subs⟩,
       [.toRoom rid (.roundStarted (doubleAddOne room.round)
          (seed.orElse (.num (Int.ofNat now))))],
       false⟩ := by
  unfold startRound
  rw [roomsAt_room_iff.2 hg]
  simp [hh]

theorem startRound_non_host_silent_aux {s : State} {c : ConnId} {rid : RoomId} {room : Room}
    {seed : JsVal} {now : Nat} (hg : getKey s.rooms rid = some room) (hh : ¬ room.hostId = c) :
    startRound s c rid seed now = ⟨s, [], false⟩ := by
  unfold startRound
  rw [roomsAt_room_iff.2 hg]
  simp [hh, Result.silent]

theorem step_round {s : State} {c : ConnId} {e : Event} {r : Result} {rid : RoomId}
    {room room' : Room} (hr : step s c e = some r) (hg : getKey s.rooms rid = some room)
    (hg' : getKey r.state.rooms rid = some room') :
    room'.round = room.round ∨
      (room'.round = doubleAddOne room.round ∧ room.hostId = c ∧
        ∃ seed now, e = .startRound rid seed now) := by
  cases e with
  | createRoom name language layer draws =>
    obtain ⟨rid0, -, hr1⟩ := createRoom_some hr
    subst hr1
    simp only at hg'
    rw [getKey_append_of_some _ hg] at hg'
    cases hg'
    exact Or.inl rfl
  | joinRoom roomId name =>
    have hr := (finish_eq_some.1 hr).1
    subst hr
    left
    cases hf : roomsAt s.rooms roomId with
    | undefined =>
      simp only [joinRoom, hf] at hg'
      rw [hg] at hg'; cases hg'; rfl
    | inherited =>
      simp only [joinRoom, hf, Result.typeError] at hg'
      rw [hg] at hg'; cases hg'; rfl
    | room room0 =>
      have hg0 := roomsAt_room_iff.1 hf
      rw [joinRoom_of_room name hg0] at hg'
      simp only at hg'
      by_cases e : rid = roomId
      · subst e
        rw [getKey_putKey_same] at hg'
        rw [hg] at hg0
        cases hg'; cases hg0; rfl
      · rw [getKey_putKey_ne _ _ e, hg] at hg'
        cases hg'; rfl
  | leaveRoom roomId =>
    have hr := (finish_eq_some.1 hr).1
    subst hr
    left
    cases hf : roomsAt s.rooms roomId with
    | undefined =>
      simp only [leaveRoom, hf, Result.silent] at hg'
      rw [hg] at hg'; cases hg'; rfl
    | inherited =>
      simp only [leaveRoom, hf, Result.typeError] at hg'
      rw [hg] at hg'; cases hg'; rfl
    | room room0 =>
      have hg0 := roomsAt_room_iff.1 hf
      by_cases e : rid = roomId
      · subst e
        rw [leaveRoom_getKey hg0] at hg'
        rw [hg] at hg0
        cases hg0
        unfold removed at hg'
        cases hk : keysOf (delKey room.players c) with
        | nil => rw [hk] at hg'; simp at hg'
        | cons first ks =>
          rw [hk] at hg'
          simp only [Option.some.injEq] at hg'
          subst hg'
          rfl
      · rw [(leaveRoom_rooms hg0).1] at hg'
        cases hrm : removed room0 c with
        | none =>
          rw [hrm] at hg'
          simp only at hg'
          rw [getKey_delKey_ne _ e, hg] at hg'
          cases hg'; rfl
        | some room1 =>
          rw [hrm] at hg'
          simp only at hg'
          rw [getKey_putKey_ne _ _ e, hg] at hg'
          cases hg'; rfl
  | toggleReady roomId =>
    have hr := (finish_eq_some.1 hr).1
    subst hr
    left
    unfold toggleReady at hg'
    cases hf : roomsAt s.rooms roomId with
    | undefined => rw [hf] at hg'; simp only [Result.silent] at hg'; rw [hg] at hg'; cases hg'; rfl
    | inherited => rw [hf] at hg'; simp only [Result.typeError] at hg'; rw [hg] at hg'; cases hg'; rfl
    | room room0 =>
      have hg0 := roomsAt_room_iff.1 hf
      rw [hf] at hg'
      simp only at hg'
      cases hp : getKey room0.players c with
      | none => rw [hp] at hg'; simp only [Result.silent] at hg'; rw [hg] at hg'; cases hg'; rfl
      | some p =>
        rw [hp] at hg'
        simp only at hg'
        by_cases e : rid = roomId
        · subst e
          rw [getKey_putKey_same] at hg'
          rw [hg] at hg0
          cases hg'; cases hg0; rfl
        · rw [getKey_putKey_ne _ _ e, hg] at hg'
          cases hg'; rfl
  | startRound roomId seed now =>
    have hr := (finish_eq_some.1 hr).1
    subst hr
    cases hf : roomsAt s.rooms roomId with
    | undefined =>
      simp only [startRound, hf, Result.silent] at hg'
      rw [hg] at hg'; cases hg'; exact Or.inl rfl
    | inherited =>
      simp only [startRound, hf, Result.silent] at hg'
      rw [hg] at hg'; cases hg'; exact Or.inl rfl
    | room room0 =>
      have hg0 := roomsAt_room_iff.1 hf
      by_cases hh : room0.hostId = c
      · rw [startRound_of_host seed now hg0 hh] at hg'
        simp only at hg'
        by_cases e : rid = roomId
        · subst e
          rw [getKey_putKey_same] at hg'
          rw [hg] at hg0
          cases hg'; cases hg0
          exact Or.inr ⟨rfl, hh, seed, now, rfl⟩
        · rw [getKey_putKey_ne _ _ e, hg] at hg'
          cases hg'; exact Or.inl rfl
      · have : startRound s c roomId seed now = ⟨s, [], false⟩ :=
          startRound_non_host_silent_aux hg0 hh
        rw [this] at hg'
        simp only at hg'
        rw [hg] at hg'; cases hg'; exact Or.inl rfl
  | requestPrompt roomId type language layer =>
    have hr := (finish_eq_some.1 hr).1
    subst hr
    rw [requestPrompt_eq] at hg'
    simp only [Result.silent] at hg'
    rw [hg] at hg'; cases hg'; exact Or.inl rfl
  | selectedPrompt roomId promptObj =>
    have hr := (finish_eq_some.1 hr).1
    subst hr
    rw [selectedPrompt_state, hg] at hg'
    cases hg'; exact Or.inl rfl
  | chat roomId msg =>
    have hr := (finish_eq_some.1 hr).1
    subst hr
    rw [chat_state, hg] at hg'
    cases hg'; exact Or.inl rfl
  | disconnect =>
    have hr := (finish_eq_some.1 hr).1
    subst hr
    rw [disconnect_rooms] at hg'
    obtain ⟨room1, hg1, hr1⟩ := disconnectingLoop_round c rid _ _ _ hg'
    rw [hg] at hg1
    cases hg1
    exact Or.inl hr1

theorem trace_rounds (rid : RoomId) (evs : List (ConnId × Event)) :
    ∀ (s : State) (tr : List State), trace s evs = some tr →
      (∀ t ∈ tr, rid ∈ keysOf t.rooms) →
      List.Pairwise
        (fun a b : State => ∀ ra rb : Room, getKey a.rooms rid = some ra →
          getKey b.rooms rid = some rb → ra.round ≤ rb.round) (s :: tr) := by
  induction evs with
  | nil =>
    intro s tr htr _
    simp only [trace, Option.some.injEq] at htr
    subst htr
    exact List.pairwise_singleton _ _
  | cons ce rest ih =>
    intro s tr htr hex
    obtain ⟨c, e⟩ := ce
    simp only [trace] at htr
    cases hs : step s c e with
    | none => simp [hs] at htr
    | some r =>
      simp only [hs] at htr
      cases hrest : trace r.state rest with
      | none => simp [hrest] at htr
      | some tr1 =>
        simp only [hrest, Option.map_some', Option.some.injEq] at htr
        subst htr
        have hih := ih r.state tr1 hrest (fun t ht => hex t (List.mem_cons_of_mem _ ht))
        refine List.pairwise_cons.2 ⟨?_, hih⟩
        intro t ht ra rb hga hgb
        obtain ⟨r1, hg1⟩ := getKey_isSome_of_mem_keys (hex r.state (List.mem_cons_self _ _))
        have h01 : ra.round ≤ r1.round := by
          rcases step_round hs hga hg1 with h | ⟨h, -⟩
          · exact Nat.le_of_eq h.symm
          · rw [h]; exact le_doubleAddOne _
        rcases List.mem_cons.1 ht with rfl | ht'
        · rw [hg1] at hgb
          cases hgb
          exact h01
        · exact Nat.le_trans h01 ((List.pairwise_cons.1 hih).1 t ht' r1 rb hg1 hgb)

theorem reachable_stRound : ∀ n : Nat, n ≤ 2 ^ 53 → Reachable (stRound n) := by
  intro n
  induction n with
  | zero => intro _; exact reachable_stAnn
  | succ n ih =>
    intro h
    have hlt : n < 2 ^ 53 := h
    have hg : getKey (stRound n).rooms "AAAAA" = some { roomAnn with round := n } := by
      simp [stRound, getKey]
    have hstart := @startRound_of_host (stRound n) 1 "AAAAA" { roomAnn with round := n }
      .undefined 0 hg rfl
    have hstep : step (stRound n) 1 (.startRound "AAAAA" .undefined 0) =
        some (startRound (stRound n) 1 "AAAAA" .undefined 0) := by
      apply finish_of_not_threw
      rw [hstart]
    have hr := Reachable.step 1 (.startRound "AAAAA" .undefined 0) (ih (Nat.le_of_lt hlt)) hstep
    have hst : (startRound (stRound n) 1 "AAAAA" .undefined 0).state = stRound (n + 1) := by
      rw [hstart]
      simp [stRound, putKey, keysOf, doubleAddOne_of_lt hlt]
    rw [hst] at hr
    exact hr

/-- C11, the claim as stated fails: the state in which the room of Ann has
round `2 ^ 53` is reachable, by that many `startRound` events of the host; there
a further `startRound` of the host leaves the round at `2 ^ 53` and announces
that same round. -/
theorem startRound_at_two_pow_53_keeps_round :
    Reachable (stRound 9007199254740992) ∧
    getKey (stRound 9007199254740992).rooms "AAAAA" =
      some { roomAnn with round := 9007199254740992 } ∧
    roomAnn.hostId = 1 ∧
    getKey (startRound (stRound 9007199254740992) 1 "AAAAA" .undefined 1000).state.rooms
        "AAAAA" =
      some { roomAnn with round := 9007199254740992 } ∧
    (startRound (stRound 9007199254740992) 1 "AAAAA" .undefined 1000).out =
      [.toRoom "AAAAA" (.roundStarted 9007199254740992 (.num 1000))] :=
  ⟨reachable_stRound _ (by decide), by decide, by decide, by decide, by decide⟩

/-- C11 as amended. `startRound` from the host of a stored room stores the room
with `round` replaced by the double `round + 1` and everything else as it was
(players with their names and ready flags, `hostId`, `language`, `layer`),
leaves every other part of the state as it was, and emits one message, a
`roundStarted` to the room whose `round` is the new stored value. That new value
is `round + 1` exactly as long as `round` is below `2 ^ 53`, and it is never
below `round`. Any event leaves the round of a room that is stored before and
after it as it was, unless it is a `startRound` for that room from its host.
Hence along any sequence of events during which the room stays stored, its round
never decreases. -/
theorem startRound_increments_round :
    (∀ (s : State) (c : ConnId) (rid : RoomId) (seed : JsVal) (now : Nat) (room : Room),
      getKey s.rooms rid = some room → room.hostId = c →
      getKey (startRound s c rid seed now).state.rooms rid =
        some { room with round := doubleAddOne room.round } ∧
      (startRound s c rid seed now).state.rooms =
        putKey s.rooms rid { room with round := doubleAddOne room.round } ∧
      (startRound s c rid seed now).state.subs = s.subs ∧
      (startRound s c rid seed now).out =
        [.toRoom rid (.roundStarted (doubleAddOne room.round)
          (seed.orElse (.num (Int.ofNat now))))] ∧
      (startRound s c rid seed now).threw = false ∧
      (room.round < 2 ^ 53 → doubleAddOne room.round = room.round + 1) ∧
      room.round ≤ doubleAddOne room.round) ∧
    (∀ (s : State) (c : ConnId) (e : Event) (r : Result) (rid : RoomId) (room room' : Room),
      step s c e = some r → getKey s.rooms rid = some room →
      getKey r.state.rooms rid = some room' →
      room'.round = room.round ∨
        (room'.round = doubleAddOne room.round ∧ room.hostId = c ∧
          ∃ seed now, e = .startRound rid seed now)) ∧
    (∀ (s : State) (evs : List (ConnId × Event)) (tr : List State) (rid : RoomId),
      trace s evs = some tr → (∀ t ∈ tr, rid ∈ keysOf t.rooms) →
      List.Pairwise
        (fun a b : State => ∀ ra rb : Room, getKey a.rooms rid = some ra →
          getKey b.rooms rid = some rb → ra.round ≤ rb.round) (s :: tr)) := by
  refine ⟨?_, ?_, ?_⟩
  · intro s c rid seed now room hg hh
    rw [startRound_of_host seed now hg hh]
    exact ⟨getKey_putKey_same _ _ _, rfl, rfl, rfl, rfl,
      fun h => doubleAddOne_of_lt h, le_doubleAddOne _⟩
  · intro s c e r rid room room' hr hg hg'
    exact step_round hr hg hg'
  · intro s evs tr rid htr hex
    exact trace_rounds rid evs s tr htr hex

/-- Witness of C11 as amended: Ann, host of the room she shares with Bob, starts
a round; the round goes from 0 to 1. -/
theorem startRound_increments_round_witness :
    getKey (startRound stAnnBob 1 "AAAAA" (.num 7) 1000).state.rooms "AAAAA" =
      some { roomAnnBob with round := doubleAddOne roomAnnBob.round } ∧
    doubleAddOne roomAnnBob.round = 1 ∧
    (startRound stAnnBob 1 "AAAAA" (.num 7) 1000).out =
      [.toRoom "AAAAA" (.roundStarted 1 (.num 7))] :=
  ⟨(startRound_increments_round.1 stAnnBob 1 "AAAAA" (.num 7) 1000 roomAnnBob
      (by decide) (by decide)).1,
   by decide, by decide⟩

/-! ## Seed -/

/-- C12, the claim as stated fails: Ann, host of `AAAAA`, starts a round with
the supplied seed 0, and the `roundStarted` message carries the server time
1000 instead; likewise for the empty string and for `false`. -/
theorem startRound_falsy_seed_is_replaced :
    getKey stAnn.rooms "AAAAA" = some roomAnn ∧ roomAnn.hostId = 1 ∧
    (startRound stAnn 1 "AAAAA" (.num 0) 1000).out =
      [.toRoom "AAAAA" (.roundStarted 1 (.num 1000))] ∧
    (startRound stAnn 1 "AAAAA" (.str "") 1000).out =
      [.toRoom "AAAAA" (.roundStarted 1 (.num 1000))] ∧
    (startRound stAnn 1 "AAAAA" (.bool false) 1000).out =
      [.toRoom "AAAAA" (.roundStarted 1 (.num 1000))] := by
  decide

/-- C12 as amended. For every `startRound` from the host of a stored room, the
`roundStarted` message carries the supplied seed when that seed is truthy, and
the server time when the seed is absent (`undefined`) or any other falsy value
(`null`, `false`, 0, the empty string). -/
theorem startRound_seed (s : State) (c : ConnId) (rid : RoomId) (seed : JsVal) (now : Nat)
    (room : Room) (hg : getKey s.rooms rid = some room) (hh : room.hostId = c) :
    (seed.truthy = true →
      (startRound s c rid seed now).out =
        [.toRoom rid (.roundStarted (doubleAddOne room.round) seed)]) ∧
    (seed.truthy = false →
      (startRound s c rid seed now).out =
        [.toRoom rid (.roundStarted (doubleAddOne room.round) (.num (Int.ofNat now)))]) ∧
    JsVal.undefined.truthy = false ∧ JsVal.null.truthy = false ∧
    (JsVal.bool false).truthy = false ∧ (JsVal.num 0).truthy = false ∧
    (JsVal.str "").truthy = false := by
  rw [startRound_of_host seed now hg hh]
  refine ⟨fun ht => ?_, fun hf => ?_, rfl, rfl, rfl, by decide, by decide⟩
  · simp [JsVal.orElse, ht]
  · simp [JsVal.orElse, hf]

/-- Witness of C12 as amended: the truthy seed 7 is passed through, the absent
seed is replaced by the server time. -/
theorem startRound_seed_witness :
    (startRound stAnn 1 "AAAAA" (.num 7) 1000).out =
      [.toRoom "AAAAA" (.roundStarted 1 (.num 7))] ∧
    (startRound stAnn 1 "AAAAA" .undefined 1000).out =
      [.toRoom "AAAAA" (.roundStarted 1 (.num 1000))] :=
  ⟨(startRound_seed stAnn 1 "AAAAA" (.num 7) 1000 roomAnn (by decide) (by decide)).1
     (by decide),
   (startRound_seed stAnn 1 "AAAAA" .undefined 1000 roomAnn (by decide) (by decide)).2.1
     (by decide)⟩

/-! ## Rooms of a connection -/

theorem mem_roomsOf {s : State} {c : ConnId} {rid : RoomId} :
    rid ∈ roomsOf s c ↔ ∃ room, (rid, room) ∈ s.rooms ∧ c ∈ keysOf room.players := by
  simp [roomsOf]

/-- C13, the claim as stated fails: after Ann has created `AAAAA` and then
`AAAAB`, a reachable state, connection 1 is a key of the players of both
rooms. -/
theorem connection_in_two_rooms :
    run State.empty evTwoRooms = some (stTwoRooms, outTwoRooms) ∧
    getKey stTwoRooms.rooms "AAAAA" = some roomAnn ∧
    getKey stTwoRooms.rooms "AAAAB" = some roomSecond ∧
    (1 : ConnId) ∈ keysOf roomAnn.players ∧ (1 : ConnId) ∈ keysOf roomSecond.players ∧
    roomsOf stTwoRooms 1 = ["AAAAA", "AAAAB"] := by
  decide

theorem roomsOf_length_le_one {s : State} {c : ConnId} (hd : (keysOf s.rooms).Nodup)
    (h : ∀ p ∈ s.rooms, ∀ q ∈ s.rooms, c ∈ keysOf p.2.players → c ∈ keysOf q.2.players →
      p.1 = q.1) : (roomsOf s c).length ≤ 1 := by
  have hnd : (roomsOf s c).Nodup :=
    List.Nodup.sublist (List.Sublist.map Prod.fst (List.filter_sublist s.rooms)) hd
  have hall : ∀ a ∈ roomsOf s c, ∀ b ∈ roomsOf s c, a = b := by
    intro a ha b hb
    obtain ⟨ra, hra, hca⟩ := mem_roomsOf.1 ha
    obtain ⟨rb, hrb, hcb⟩ := mem_roomsOf.1 hb
    exact h (a, ra) hra (b, rb) hrb hca hcb
  match hl : roomsOf s c, hnd, hall with
  | [], _, _ => simp
  | [_], _, _ => simp
  | a :: b :: rest, hnd, hall =>
    have : a = b := hall a (by simp) b (by simp)
    subst this
    simp at hnd


theorem alone_of_dominated {rooms' rooms : List (RoomId × Room)} (h : Alone rooms)
    (hd : Dominated rooms' rooms) : Alone rooms' := by
  intro c p hp q hq hcp hcq
  obtain ⟨p0, hp0, ep, hsp⟩ := hd p hp
  obtain ⟨q0, hq0, eq, hsq⟩ := hd q hq
  rw [← ep, ← eq]
  exact h c p0 hp0 q0 hq0 (hsp c hcp) (hsq c hcq)

theorem dominated_refl (rooms : List (RoomId × Room)) : Dominated rooms rooms :=
  fun p hp => ⟨p, hp, rfl, fun _ h => h⟩

theorem dominated_trans {a b d : List (RoomId × Room)} (h1 : Dominated a b)
    (h2 : Dominated b d) : Dominated a d := by
  intro p hp
  obtain ⟨q, hq, e1, hs1⟩ := h1 p hp
  obtain ⟨r, hr, e2, hs2⟩ := h2 q hq
  exact ⟨r, hr, e2.trans e1, fun c hc => hs2 c (hs1 c hc)⟩

theorem dominated_putKey {rooms : List (RoomId × Room)} {rid : RoomId} {room room' : Room}
    (hg : getKey rooms rid = some room)
    (hs : ∀ c ∈ keysOf room'.players, c ∈ keysOf room.players) :
    Dominated (putKey rooms rid room') rooms := by
  intro p hp
  rcases mem_putKey hp with rfl | ⟨hp', _⟩
  · exact ⟨(rid, room), getKey_some_mem hg, rfl, hs⟩
  · exact ⟨p, hp', rfl, fun _ h => h⟩

theorem dominated_delKey (rooms : List (RoomId × Room)) (rid : RoomId) :
    Dominated (delKey rooms rid) rooms :=
  fun p hp => ⟨p, (mem_delKey.1 hp).1, rfl, fun _ h => h⟩

theorem dominated_disconnectingLoop (c : ConnId) (l : List RoomId) :
    ∀ rooms : List (RoomId × Room), Dominated (disconnectingLoop c l rooms).1 rooms := by
  induction l with
  | nil => intro rooms; exact dominated_refl rooms
  | cons rid rest ih =>
    intro rooms
    unfold disconnectingLoop
    cases hf : roomsAt rooms rid with
    | undefined => exact ih rooms
    | inherited => exact dominated_refl rooms
    | room room =>
      have hg := roomsAt_room_iff.1 hf
      simp only
      cases hk : keysOf (delKey room.players c) with
      | nil => exact dominated_trans (ih _) (dominated_delKey rooms rid)
      | cons first ks =>
        exact dominated_trans (ih _)
          (dominated_putKey hg (fun c' hc' => (mem_keysOf_delKey.1 hc').1))

theorem dominated_leaveRoom (s : State) (c : ConnId) (rid : RoomId) :
    Dominated (leaveRoom s c rid).state.rooms s.rooms := by
  unfold leaveRoom
  cases hf : roomsAt s.rooms rid with
  | undefined => exact dominated_refl _
  | inherited => exact dominated_refl _
  | room room =>
    have hg := roomsAt_room_iff.1 hf
    simp only
    cases hk : keysOf (delKey room.players c) with
    | nil => exact dominated_delKey _ _
    | cons first ks =>
      exact dominated_putKey hg (fun c' hc' => (mem_keysOf_delKey.1 hc').1)

theorem dominated_toggleReady (s : State) (c : ConnId) (rid : RoomId) :
    Dominated (toggleReady s c rid).state.rooms s.rooms := by
  unfold toggleReady
  cases hf : roomsAt s.rooms rid with
  | undefined => exact dominated_refl _
  | inherited => exact dominated_refl _
  | room room =>
    have hg := roomsAt_room_iff.1 hf
    simp only
    cases hp : getKey room.players c with
    | none => exact dominated_refl _
    | some p =>
      have hc : c ∈ keysOf room.players := mem_keysOf_of_mem (getKey_some_mem hp)
      refine dominated_putKey hg (fun c' hc' => ?_)
      simpa only [keysOf_putKey_of_mem _ hc] using hc'

theorem dominated_startRound (s : State) (c : ConnId) (rid : RoomId) (seed : JsVal)
    (now : Nat) : Dominated (startRound s c rid seed now).state.rooms s.rooms := by
  unfold startRound
  cases hf : roomsAt s.rooms rid with
  | undefined => exact dominated_refl _
  | inherited => exact dominated_refl _
  | room room =>
    have hg := roomsAt_room_iff.1 hf
    simp only
    split
    · exact dominated_refl _
    · exact dominated_putKey hg (fun c' hc' => hc')

theorem alone_step {s : State} {c : ConnId} {e : Event} {r : Result}
    (h : Alone s.rooms) (hguard : entersAlone s c e = true) (hr : step s c e = some r) :
    Alone r.state.rooms := by
  cases e with
  | createRoom name language layer draws =>
    obtain ⟨rid, -, hr1⟩ := createRoom_some hr
    subst hr1
    have hnone : ∀ p ∈ s.rooms, c ∉ keysOf p.2.players := by
      intro p hp hc
      have hmem : p.1 ∈ roomsOf s c := mem_roomsOf.2 ⟨p.2, hp, hc⟩
      simp only [entersAlone, List.isEmpty_iff] at hguard
      rw [hguard] at hmem
      exact absurd hmem (List.not_mem_nil _)
    intro x p hp q hq hxp hxq
    simp only [List.mem_append, List.mem_singleton] at hp hq
    rcases hp with hp | rfl <;> rcases hq with hq | rfl
    · exact h x p hp q hq hxp hxq
    · have : x = c := by simpa [keysOf] using hxq
      exact absurd (this ▸ hxp) (hnone p hp)
    · have : x = c := by simpa [keysOf] using hxp
      exact absurd (this ▸ hxq) (hnone q hq)
    · rfl
  | joinRoom roomId name =>
    have hr := (finish_eq_some.1 hr).1
    subst hr
    cases hf : roomsAt s.rooms roomId with
    | undefined => simp only [joinRoom, hf]; exact h
    | inherited => simp only [joinRoom, hf]; exact h
    | room room =>
      have hg := roomsAt_room_iff.1 hf
      rw [joinRoom_of_room name hg]
      have honly : ∀ p ∈ s.rooms, c ∈ keysOf p.2.players → p.1 = roomId := by
        intro p hp hc
        have hmem : p.1 ∈ roomsOf s c := mem_roomsOf.2 ⟨p.2, hp, hc⟩
        simp only [entersAlone, List.all_eq_true, decide_eq_true_eq] at hguard
        exact hguard p.1 hmem
      have key : ∀ x : ConnId, ∀ q ∈ s.rooms, q.1 ≠ roomId →
          x ∈ keysOf (putKey room.players c ⟨name, false⟩) →
          x ∈ keysOf q.2.players → False := by
        intro x q hq hne hx hxq
        rcases mem_keysOf_putKey.1 hx with hx | rfl
        · exact hne (h x q hq (roomId, room) (getKey_some_mem hg) hxq hx)
        · exact hne (honly q hq hxq)
      intro x p hp q hq hxp hxq
      rcases mem_putKey hp with rfl | ⟨hp', hpne⟩ <;>
        rcases mem_putKey hq with rfl | ⟨hq', hqne⟩
      · rfl
      · exact absurd (key x q hq' hqne hxp hxq) id
      · exact absurd (key x p hp' hpne hxq hxp) id
      · exact h x p hp' q hq' hxp hxq
  | leaveRoom roomId =>
    have hr := (finish_eq_some.1 hr).1
    subst hr; exact alone_of_dominated h (dominated_leaveRoom s c roomId)
  | toggleReady roomId =>
    have hr := (finish_eq_some.1 hr).1
    subst hr; exact alone_of_dominated h (dominated_toggleReady s c roomId)
  | startRound roomId seed now =>
    have hr := (finish_eq_some.1 hr).1
    subst hr; exact alone_of_dominated h (dominated_startRound s c roomId seed now)
  | requestPrompt roomId type language layer =>
    have hr := (finish_eq_some.1 hr).1
    subst hr; rw [requestPrompt_eq]; exact h
  | selectedPrompt roomId promptObj =>
    have hr := (finish_eq_some.1 hr).1
    subst hr; rw [selectedPrompt_state]; exact h
  | chat roomId msg =>
    have hr := (finish_eq_some.1 hr).1
    subst hr; rw [chat_state]; exact h
  | disconnect =>
    have hr := (finish_eq_some.1 hr).1
    subst hr
    rw [disconnect_rooms]
    exact alone_of_dominated h (dominated_disconnectingLoop c _ _)

theorem reachable_of_reachableAlone {s : State} (h : ReachableAlone s) : Reachable s := by
  induction h with
  | init => exact Reachable.init
  | step c e _ _ hr ih => exact Reachable.step c e ih hr

theorem alone_of_reachableAlone {s : State} (h : ReachableAlone s) : Alone s.rooms := by
  induction h with
  | init => intro c p hp; simp [State.empty] at hp
  | step c e _ hguard hr ih => exact alone_step ih hguard hr

/-- C13 as amended. The server does not bound the number of rooms of a
connection; the bound comes from the callers. In every state reachable from the
empty store by events in which `createRoom` is raised only by connections that
are in no room and `joinRoom` only by connections that are in no room other than
the one named, each connection is a key of the players of at most one stored
room. -/
theorem at_most_one_room_when_entering_alone (s : State) (h : ReachableAlone s)
    (c : ConnId) :
    (roomsOf s c).length ≤ 1 ∧
    (∀ (rid1 rid2 : RoomId) (room1 room2 : Room),
      getKey s.rooms rid1 = some room1 → getKey s.rooms rid2 = some room2 →
      c ∈ keysOf room1.players → c ∈ keysOf room2.players → rid1 = rid2) := by
  have ha := alone_of_reachableAlone h
  have hd := distinct_of_reachable (reachable_of_reachableAlone h)
  refine ⟨roomsOf_length_le_one hd.1 (ha c), ?_⟩
  intro rid1 rid2 room1 room2 hg1 hg2 hc1 hc2
  exact ha c (rid1, room1) (getKey_some_mem hg1) (rid2, room2) (getKey_some_mem hg2) hc1 hc2

/-- Witness of C13 as amended: Ann creates a room while in none, Bob joins it
while in none; each of them is in one room. -/
theorem at_most_one_room_when_entering_alone_witness :
    roomsOf stAnnBob 1 = ["AAAAA"] ∧ (roomsOf stAnnBob 1).length ≤ 1 :=
  ⟨by decide,
   (at_most_one_room_when_entering_alone stAnnBob
     (@ReachableAlone.step stAnn 2 (.joinRoom "AAAAA" (.str "Bob"))
       ⟨stAnnBob, [.toRoom "AAAAA" (.roomUpdate roomAnnBob)], false⟩
       (@ReachableAlone.step State.empty 1
         (.createRoom (.str "Ann") (.str "en") (.num 1) drawsA)
         ⟨stAnn, [.toSocket 1 (.roomCreated "AAAAA"),
                  .toRoom "AAAAA" (.roomUpdate roomAnn)], false⟩
         ReachableAlone.init (by decide) (by decide))
       (by decide) (by decide)) 1).1⟩

/-! ## Prompts -/

/-- C14, the claim as stated fails: on the empty store a `selectedPrompt` for
the room id `ZZZZZ`, which is no key, is broadcast to the group `ZZZZZ` as
`newPrompt` from `Host`; and in the room of Ann the outsider connection 2 has
its prompt broadcast as well. -/
theorem selectedPrompt_from_outsider_is_broadcast :
    getKey State.empty.rooms "ZZZZZ" = none ∧
    (selectedPrompt State.empty 1 "ZZZZZ" (.str "dare")).out =
      [.toRoom "ZZZZZ" (.newPrompt (.str "dare") (.str "Host"))] ∧
    getKey stAnn.rooms "AAAAA" = some roomAnn ∧ (2 : ConnId) ∉ keysOf roomAnn.players ∧
    (selectedPrompt stAnn 2 "AAAAA" (.str "dare")).out =
      [.toRoom "AAAAA" (.newPrompt (.str "dare") (.str "Host"))] ∧
    ((selectedPrompt stAnn 2 "AAAAA" (.str "dare")).out.any Emit.isPromptBroadcast) = true := by
  decide

/-- C14 as amended. When the room id of a `selectedPrompt` is neither a key of
the store nor the name of an inherited property, or when a room is stored under
it and the caller is not a player of that room, the handler returns after exactly
one message, a `newPrompt` to the group of that id carrying the prompt as sent
and the sender name `Host`, and without a change of the state. -/
theorem selectedPrompt_outsider (s : State) (c : ConnId) (rid : RoomId) (promptObj : JsVal) :
    (getKey s.rooms rid = none → rid ∉ protoNames →
      selectedPrompt s c rid promptObj =
        ⟨s, [.toRoom rid (.newPrompt promptObj (.str "Host"))], false⟩) ∧
    (∀ room : Room, getKey s.rooms rid = some room → c ∉ keysOf room.players →
      selectedPrompt s c rid promptObj =
        ⟨s, [.toRoom rid (.newPrompt promptObj (.str "Host"))], false⟩) := by
  refine ⟨fun hg hp => ?_, fun room hg hc => ?_⟩
  · unfold selectedPrompt
    rw [roomsAt_undefined_iff.2 ⟨hg, hp⟩]
    rfl
  · unfold selectedPrompt
    rw [roomsAt_room_iff.2 hg]
    simp only [playerName_of_not_mem hc]
    rfl

/-- Witness of C14 as amended: Carol (connection 3) sends a prompt to the room
of Ann and Bob, and to the absent `ZZZZZ`. -/
theorem selectedPrompt_outsider_witness :
    selectedPrompt stAnnBob 3 "ZZZZZ" (.str "truth") =
      ⟨stAnnBob, [.toRoom "ZZZZZ" (.newPrompt (.str "truth") (.str "Host"))], false⟩ ∧
    selectedPrompt stAnnBob 3 "AAAAA" (.str "truth") =
      ⟨stAnnBob, [.toRoom "AAAAA" (.newPrompt (.str "truth") (.str "Host"))], false⟩ :=
  ⟨(selectedPrompt_outsider stAnnBob 3 "ZZZZZ" (.str "truth")).1 (by decide) (by decide),
   (selectedPrompt_outsider stAnnBob 3 "AAAAA" (.str "truth")).2 roomAnnBob
     (by decide) (by decide)⟩

/-! ## Leaving without being a player -/

/-- C15, the claim as stated fails: Carol (connection 3), who is not a player
of the room of Ann and Bob, sends `leaveRoom` for it, and the room receives a
`roomUpdate`. -/
theorem leaveRoom_from_non_member_is_broadcast :
    run State.empty evAnnBob =
      some (stAnnBob, [.toSocket 1 (.roomCreated "AAAAA"),
                       .toRoom "AAAAA" (.roomUpdate roomAnn),
                       .toRoom "AAAAA" (.roomUpdate roomAnnBob)]) ∧
    getKey stAnnBob.rooms "AAAAA" = some roomAnnBob ∧
    (3 : ConnId) ∉ keysOf roomAnnBob.players ∧
    (leaveRoom stAnnBob 3 "AAAAA").out = [.toRoom "AAAAA" (.roomUpdate roomAnnBob)] ∧
    ((leaveRoom stAnnBob 3 "AAAAA").out.any Emit.isRoomUpdate) = true := by
  decide

theorem socketLeave_of_not_mem {subs : List (ConnId × RoomId)} {c : ConnId} {rid : RoomId}
    (h : (c, rid) ∉ subs) : socketLeave subs c rid = subs := by
  unfold socketLeave
  rw [List.filter_eq_self]
  intro q hq
  have : q ≠ (c, rid) := fun e => h (e ▸ hq)
  simpa using this

/-- C15 as amended. In every reachable state, `leaveRoom` for a stored room
from a connection that is not a key of its players leaves the whole state, store
and subscriptions, unchanged and emits exactly one message: a `roomUpdate` to
that room carrying the unchanged room. -/
theorem leaveRoom_non_member (s : State) (h : Reachable s) (c : ConnId) (rid : RoomId)
    (room : Room) (hg : getKey s.rooms rid = some room) (hc : c ∉ keysOf room.players) :
    leaveRoom s c rid = ⟨s, [.toRoom rid (.roomUpdate room)], false⟩ := by
  have hinv := inv_of_reachable h
  have hd := distinct_of_reachable h
  have hso := subsOk_of_reachable h
  obtain ⟨hhost, -, -⟩ := roomsOk_getKey hinv.1 hg
  have hdel : delKey room.players c = room.players := delKey_of_not_mem hc
  have hne : room.hostId ≠ c := fun e => hc (e ▸ hhost)
  have hsub : (c, rid) ∉ s.subs := by
    intro hm
    obtain ⟨room0, hg0, hm0⟩ := hso (c, rid) hm
    rw [hg] at hg0
    cases hg0
    exact hc hm0
  obtain ⟨first, ks, hk⟩ : ∃ first ks, keysOf room.players = first :: ks := by
    cases hks : keysOf room.players with
    | nil => rw [hks] at hhost; exact absurd hhost (List.not_mem_nil _)
    | cons a b => exact ⟨a, b, rfl⟩
  have hrm : removed room c = some room := by
    unfold removed
    rw [hdel, hk]
    simp [hne]
  obtain ⟨h1, h2, h3, h4⟩ := @leaveRoom_rooms s c rid room hg
  rw [hrm] at h1 h2
  simp only at h1 h2
  rw [putKey_self hd.1 hg] at h1
  rw [socketLeave_of_not_mem hsub] at h3
  cases hres : leaveRoom s c rid with
  | mk st out threw =>
    rw [hres] at h1 h2 h3 h4
    cases st
    simp only at h1 h2 h3 h4
    subst h1 h2 h3 h4
    rfl

/-- Witness of C15 as amended: Carol and the room of Ann and Bob. -/
theorem leaveRoom_non_member_witness :
    leaveRoom stAnnBob 3 "AAAAA" =
      ⟨stAnnBob, [.toRoom "AAAAA" (.roomUpdate roomAnnBob)], false⟩ :=
  leaveRoom_non_member stAnnBob reachable_stAnnBob 3 "AAAAA" roomAnnBob
    (by decide) (by decide)

/-! ## Ready flag -/

theorem toggleReady_of_member {s : State} {c : ConnId} {rid : RoomId} {room : Room}
    {p : Player} (hg : getKey s.rooms rid = some room) (hp : getKey room.players c = some p) :
    toggleReady s c rid =
      ⟨⟨putKey s.rooms rid
          { room with players := putKey room.players c { p with ready := !p.ready } },
        s.subs⟩,
       [.toRoom rid (.roomUpdate
          { room with players := putKey room.players c { p with ready := !p.ready } })],
       false⟩ := by
  unfold toggleReady
  rw [roomsAt_room_iff.2 hg]
  simp only [hp]

theorem toggleReady_twice {s : State} (h : Reachable s) {c : ConnId} {rid : RoomId}
    {room : Room} {p : Player} (hg : getKey s.rooms rid = some room)
    (hp : getKey room.players c = some p) :
    (toggleReady (toggleReady s c rid).state c rid).state = s := by
  have hd := distinct_of_reachable h
  have hn := distinct_getKey hd hg
  have h1 := toggleReady_of_member hg hp
  have h2 := @toggleReady_of_member
    ⟨putKey s.rooms rid
        { room with players := putKey room.players c { p with ready := !p.ready } },
      s.subs⟩ c rid
    { room with players := putKey room.players c { p with ready := !p.ready } }
    { p with ready := !p.ready }
    (getKey_putKey_same _ _ _) (getKey_putKey_same _ _ _)
  rw [h1]
  simp only
  rw [h2]
  simp only [putKey_putKey, Bool.not_not]
  have e1 : putKey room.players c { name := p.name, ready := p.ready } = room.players :=
    putKey_self hn hp
  rw [e1]
  have e2 : putKey s.rooms rid room = s.rooms := putKey_self hd.1 hg
  exact congrArg (fun rs => (⟨rs, s.subs⟩ : State)) e2

/-- What `toggleReady` does where it returns. From a player `c` of a stored
room it stores the room with the ready flag of `c` negated and nothing else
changed: the name of `c`, the keys of the players and their order, every other
player, `hostId`, `language`, `layer` and `round` are as before, as are the keys
of the store, every other room and the subscriptions; it emits one `roomUpdate`
with the new room to the room. In a reachable state two `toggleReady` events of
`c` in a row give back the state they started from. From a connection that is
not a player of the stored room, or for an id that is neither a key of the store
nor the name of an inherited property, it returns without a change and without a
message. -/
theorem toggleReady_where_it_returns :
    (∀ (s : State) (c : ConnId) (rid : RoomId) (room : Room) (p : Player),
      getKey s.rooms rid = some room → getKey room.players c = some p →
      getKey (toggleReady s c rid).state.rooms rid =
        some { room with players := putKey room.players c { p with ready := !p.ready } } ∧
      getKey (putKey room.players c { p with ready := !p.ready }) c =
        some { name := p.name, ready := !p.ready } ∧
      (∀ c' : ConnId, c' ≠ c →
        getKey (putKey room.players c { p with ready := !p.ready }) c' =
          getKey room.players c') ∧
      keysOf (putKey room.players c { p with ready := !p.ready }) = keysOf room.players ∧
      (∀ rid' : RoomId, rid' ≠ rid →
        getKey (toggleReady s c rid).state.rooms rid' = getKey s.rooms rid') ∧
      keysOf (toggleReady s c rid).state.rooms = keysOf s.rooms ∧
      (toggleReady s c rid).state.subs = s.subs ∧
      (toggleReady s c rid).out =
        [.toRoom rid (.roomUpdate
          { room with players := putKey room.players c { p with ready := !p.ready } })] ∧
      (toggleReady s c rid).threw = false) ∧
    (∀ (s : State) (c : ConnId) (rid : RoomId) (room : Room) (p : Player),
      Reachable s → getKey s.rooms rid = some room → getKey room.players c = some p →
      (toggleReady (toggleReady s c rid).state c rid).state = s) ∧
    (∀ (s : State) (c : ConnId) (rid : RoomId),
      (∀ room : Room, getKey s.rooms rid = some room → c ∉ keysOf room.players) →
      (getKey s.rooms rid = none → rid ∉ protoNames) →
      toggleReady s c rid = ⟨s, [], false⟩) := by
  refine ⟨?_, ?_, ?_⟩
  · intro s c rid room p hg hp
    have hc : c ∈ keysOf room.players := mem_keysOf_of_mem (getKey_some_mem hp)
    have hr : rid ∈ keysOf s.rooms := mem_keysOf_of_mem (getKey_some_mem hg)
    rw [toggleReady_of_member hg hp]
    refine ⟨?_, ?_, ?_, ?_, ?_, ?_, rfl, rfl, rfl⟩
    · exact getKey_putKey_same _ _ _
    · exact getKey_putKey_same _ _ _
    · intro c' hne
      exact getKey_putKey_ne _ _ hne
    · exact keysOf_putKey_of_mem _ hc
    · intro rid' hne
      exact getKey_putKey_ne _ _ hne
    · exact keysOf_putKey_of_mem _ hr
  · intro s c rid room p h hg hp
    exact toggleReady_twice h hg hp
  · intro s c rid hc hp
    unfold toggleReady
    cases hf : roomsAt s.rooms rid with
    | undefined => rfl
    | inherited =>
      obtain ⟨hg, hin⟩ := roomsAt_inherited_iff.1 hf
      exact absurd hin (hp hg)
    | room room =>
      have hn := hc room (roomsAt_room_iff.1 hf)
      simp only [(getKey_eq_none_iff _ _).2 hn]
      rfl

/-- C16, the code at the failing input: in the room of Ann and Bob, a
`toggleReady` of Carol (connection 3) for the room id `toString`, under which no
room is stored, finds the inherited property `rooms.toString`, passes the guard
of line 65 and throws at line 66 on reading `room.players[socket.id]`; the event
does not run to its end and no event is served after it. -/
theorem toggleReady_inherited_name_throws :
    getKey stAnnBob.rooms "toString" = none ∧
    toggleReady stAnnBob 3 "toString" = ⟨stAnnBob, [], true⟩ ∧
    step stAnnBob 3 (.toggleReady "toString") = none ∧
    run stAnnBob [(3, .toggleReady "toString"), (2, .toggleReady "AAAAA")] = none := by
  decide

/-! ## Rooms are independent -/

theorem frame_of_cases {rooms rooms' : List (RoomId × Room)} {rid : RoomId}
    (h : rooms' = rooms ∨ (∃ x, rooms' = putKey rooms rid x) ∨ rooms' = delKey rooms rid) :
    (∀ rid' : RoomId, rid' ≠ rid → getKey rooms' rid' = getKey rooms rid') ∧
    (∀ p : RoomId × Room, p.1 ≠ rid → (p ∈ rooms' ↔ p ∈ rooms)) := by
  rcases h with rfl | ⟨x, rfl⟩ | rfl
  · exact ⟨fun _ _ => rfl, fun _ _ => Iff.rfl⟩
  · exact ⟨fun rid' hne => getKey_putKey_ne _ _ hne, fun p hne => mem_putKey_of_ne hne⟩
  · refine ⟨fun rid' hne => getKey_delKey_ne _ hne, fun p hne => ?_⟩
    rw [mem_delKey]
    exact ⟨fun h => h.1, fun h => ⟨h, hne⟩⟩

theorem step_frame {s : State} {c : ConnId} {e : Event} {r : Result} {rid : RoomId}
    (he : e.roomId = some rid) (hr : step s c e = some r) :
    (r.state.rooms = s.rooms ∨ (∃ x, r.state.rooms = putKey s.rooms rid x) ∨
      r.state.rooms = delKey s.rooms rid) ∧
    (∀ (rid' : RoomId) (m : Msg), Emit.toRoom rid' m ∈ r.out → rid' = rid) := by
  cases e with
  | createRoom name language layer draws => simp [Event.roomId] at he
  | disconnect => simp [Event.roomId] at he
  | joinRoom roomId name =>
    simp only [Event.roomId, Option.some.injEq] at he
    subst he
    have hr := (finish_eq_some.1 hr).1
    subst hr
    unfold joinRoom
    cases hf : roomsAt s.rooms roomId with
    | undefined => exact ⟨Or.inl rfl, by simp⟩
    | inherited => exact ⟨Or.inl rfl, by simp [Result.typeError]⟩
    | room room =>
      refine ⟨Or.inr (Or.inl ⟨_, rfl⟩), ?_⟩
      intro rid' m hm
      simp only [List.mem_singleton, Emit.toRoom.injEq] at hm
      exact hm.1
  | leaveRoom roomId =>
    simp only [Event.roomId, Option.some.injEq] at he
    subst he
    have hr := (finish_eq_some.1 hr).1
    subst hr
    unfold leaveRoom
    cases hf : roomsAt s.rooms roomId with
    | undefined => exact ⟨Or.inl rfl, by simp [Result.silent]⟩
    | inherited => exact ⟨Or.inl rfl, by simp [Result.typeError]⟩
    | room room =>
      simp only
      cases hk : keysOf (delKey room.players c) with
      | nil => exact ⟨Or.inr (Or.inr rfl), by simp⟩
      | cons first ks =>
        refine ⟨Or.inr (Or.inl ⟨_, rfl⟩), ?_⟩
        intro rid' m hm
        simp only [List.mem_singleton, Emit.toRoom.injEq] at hm
        exact hm.1
  | toggleReady roomId =>
    simp only [Event.roomId, Option.some.injEq] at he
    subst he
    have hr := (finish_eq_some.1 hr).1
    subst hr
    unfold toggleReady
    cases hf : roomsAt s.rooms roomId with
    | undefined => exact ⟨Or.inl rfl, by simp [Result.silent]⟩
    | inherited => exact ⟨Or.inl rfl, by simp [Result.typeError]⟩
    | room room =>
      simp only
      cases hp : getKey room.players c with
      | none => exact ⟨Or.inl rfl, by simp [Result.silent]⟩
      | some p =>
        refine ⟨Or.inr (Or.inl ⟨_, rfl⟩), ?_⟩
        intro rid' m hm
        simp only [List.mem_singleton, Emit.toRoom.injEq] at hm
        exact hm.1
  | startRound roomId seed now =>
    simp only [Event.roomId, Option.some.injEq] at he
    subst he
    have hr := (finish_eq_some.1 hr).1
    subst hr
    unfold startRound
    cases hf : roomsAt s.rooms roomId with
    | undefined => exact ⟨Or.inl rfl, by simp [Result.silent]⟩
    | inherited => exact ⟨Or.inl rfl, by simp [Result.silent]⟩
    | room room =>
      simp only
      split
      · exact ⟨Or.inl rfl, by simp [Result.silent]⟩
      · refine ⟨Or.inr (Or.inl ⟨_, rfl⟩), ?_⟩
        intro rid' m hm
        simp only [List.mem_singleton, Emit.toRoom.injEq] at hm
        exact hm.1
  | requestPrompt roomId type language layer =>
    have hr := (finish_eq_some.1 hr).1
    subst hr
    rw [requestPrompt_eq]
    exact ⟨Or.inl rfl, by simp [Result.silent]⟩
  | selectedPrompt roomId promptObj =>
    simp only [Event.roomId, Option.some.injEq] at he
    subst he
    have hr := (finish_eq_some.1 hr).1
    subst hr
    refine ⟨Or.inl (by rw [selectedPrompt_state]), ?_⟩
    unfold selectedPrompt
    cases hf : roomsAt s.rooms roomId with
    | undefined =>
      intro rid' m hm
      simp only [List.mem_singleton, Emit.toRoom.injEq] at hm
      exact hm.1
    | inherited => simp [Result.typeError]
    | room room =>
      intro rid' m hm
      simp only [List.mem_singleton, Emit.toRoom.injEq] at hm
      exact hm.1
  | chat roomId msg =>
    simp only [Event.roomId, Option.some.injEq] at he
    subst he
    have hr := (finish_eq_some.1 hr).1
    subst hr
    refine ⟨Or.inl (by rw [chat_state]), ?_⟩
    unfold chat
    cases hf : roomsAt s.rooms roomId with
    | undefined => simp [Result.silent]
    | inherited => simp [Result.typeError]
    | room room =>
      intro rid' m hm
      simp only [List.mem_singleton, Emit.toRoom.injEq] at hm
      exact hm.1

/-- Independence of the rooms for the events that run to their end: for every
state and every event that carries a room id `rid` (`joinRoom`, `leaveRoom`,
`toggleReady`, `startRound`, `requestPrompt`, `selectedPrompt`, `chat`), from
any connection and with any payload, if the handler returns then every id other
than `rid` reads the same room, or none, after the event as before, the entries
of the store under keys other than `rid` are the same, and every message sent to
a group is sent to the group `rid`. -/
theorem rooms_are_independent_when_served (s : State) (c : ConnId) (e : Event) (r : Result)
    (rid : RoomId) (he : e.roomId = some rid) (hr : step s c e = some r) :
    (∀ rid' : RoomId, rid' ≠ rid → getKey r.state.rooms rid' = getKey s.rooms rid') ∧
    (∀ p : RoomId × Room, p.1 ≠ rid → (p ∈ r.state.rooms ↔ p ∈ s.rooms)) ∧
    (∀ (rid' : RoomId) (m : Msg), Emit.toRoom rid' m ∈ r.out → rid' = rid) :=
  ⟨(frame_of_cases (step_frame he hr).1).1, (frame_of_cases (step_frame he hr).1).2,
   (step_frame he hr).2⟩

/-- C17, the code at the failing input: with the rooms `AAAAA` and `AAAAB`
stored, a `chat` of Carol (connection 3) for the room id `constructor`, under
which no room is stored, finds the inherited property `rooms.constructor`,
passes the guard of line 104 and throws at line 105; nothing catches the
exception, the event does not run to its end, and the `toggleReady` of Bob for
his room `AAAAB` that follows is not served. The same holds for `joinRoom`,
`leaveRoom`, `toggleReady` and `selectedPrompt` with that room id. -/
theorem inherited_room_id_ends_the_process :
    getKey stTwoRooms.rooms "AAAAA" = some roomAnn ∧
    getKey stTwoRooms.rooms "AAAAB" = some roomSecond ∧
    getKey stTwoRooms.rooms "constructor" = none ∧
    chat stTwoRooms 3 "constructor" (.str "hi") = ⟨stTwoRooms, [], true⟩ ∧
    step stTwoRooms 3 (.chat "constructor" (.str "hi")) = none ∧
    run stTwoRooms [(3, .chat "constructor" (.str "hi")), (2, .toggleReady "AAAAB")] = none ∧
    step stTwoRooms 3 (.joinRoom "constructor" (.str "Carol")) = none ∧
    step stTwoRooms 3 (.leaveRoom "constructor") = none ∧
    step stTwoRooms 3 (.toggleReady "constructor") = none ∧
    step stTwoRooms 3 (.selectedPrompt "constructor" (.str "dare")) = none := by
  decide

/-! ## Membership and subscription -/

/-- C18 refuted as stated. Ann and Bob share the room `AAAAA` and Ann leaves
it: the state is reachable and Ann is a player of no room. Her connection is
still in the group named by its own socket id, which is not a key of the store;
and a `selectedPrompt` of Bob that names that socket id as `roomId` is sent to
that group, so that Ann receives a `newPrompt` although she is in no room. -/
theorem private_group_is_no_room :
    run State.empty (evAnnBob ++ [(1, .leaveRoom "AAAAA")]) =
      some (stBob, [.toSocket 1 (.roomCreated "AAAAA"), .toRoom "AAAAA" (.roomUpdate roomAnn),
        .toRoom "AAAAA" (.roomUpdate roomAnnBob),
        .toRoom "AAAAA" (.roomUpdate { roomAnn with
          hostId := 2, players := [(2, { name := .str "Bob", ready := false })] })]) ∧
    roomsOf stBob 1 = [] ∧
    socketId 1 ∈ socketGroups stBob.subs 1 ∧
    getKey stBob.rooms (socketId 1) = none ∧
    selectedPrompt stBob 2 (socketId 1) (.str "dare") =
      ⟨stBob, [.toRoom (socketId 1) (.newPrompt (.str "dare") (.str "Host"))], false⟩ ∧
    receives stBob 1 (.toRoom (socketId 1) (.newPrompt (.str "dare") (.str "Host"))) = true := by
  decide

/-- C18 as amended. In every state reachable from the empty store without
subscriptions, by events of all kinds, a connection `c` is in the group `rid`
if and only if `rid` is the socket id of `c` or a room is stored under `rid` and
`c` is a key of its players; the groups that `c` has entered through
`socket.join`, and the groups that remain when its own socket id is filtered
out, are exactly the ids of the stored rooms that have `c` among their players;
and for a room stored under `rid`, the connections in the group `rid`, which are
those that receive what is sent to that group, are exactly the players of the
room. -/
theorem membership_matches_subscription (s : State) (h : Reachable s) (c : ConnId)
    (rid : RoomId) :
    (rid ∈ socketGroups s.subs c ↔
      rid = socketId c ∨
        ∃ room, getKey s.rooms rid = some room ∧ c ∈ keysOf room.players) ∧
    ((c, rid) ∈ s.subs ↔
      ∃ room, getKey s.rooms rid = some room ∧ c ∈ keysOf room.players) ∧
    (rid ∈ socketRooms s.subs c ↔
      ∃ room, getKey s.rooms rid = some room ∧ c ∈ keysOf room.players) ∧
    (∀ room : Room, getKey s.rooms rid = some room →
      (rid ∈ socketGroups s.subs c ↔ c ∈ keysOf room.players) ∧
      ∀ m : Msg, (receives s c (.toRoom rid m) = true ↔ c ∈ keysOf room.players)) := by
  have key : (c, rid) ∈ s.subs ↔
      ∃ room, getKey s.rooms rid = some room ∧ c ∈ keysOf room.players := by
    constructor
    · intro hm
      exact subsOk_of_reachable h (c, rid) hm
    · rintro ⟨room, hg, hc⟩
      exact (roomsOk_getKey (inv_of_reachable h).1 hg).2.1 c hc
  have stored : ∀ room : Room, getKey s.rooms rid = some room →
      (rid ∈ socketGroups s.subs c ↔ c ∈ keysOf room.players) := by
    intro room hg
    have hne : rid ≠ socketId c :=
      ne_socketId_of_length (roomsOk_getKey (inv_of_reachable h).1 hg).2.2 c
    rw [mem_socketGroups, key]
    constructor
    · rintro (e | ⟨room', hg', hc⟩)
      · exact absurd e hne
      · rw [hg] at hg'
        cases hg'
        exact hc
    · intro hc
      exact Or.inr ⟨room, hg, hc⟩
  refine ⟨?_, key, ?_, fun room hg => ⟨stored room hg, fun m => ?_⟩⟩
  · rw [mem_socketGroups, key]
  · constructor
    · intro hm
      exact key.1 (mem_socketRooms.1 hm).1
    · intro hk
      exact mem_socketRooms_of_inv (inv_of_reachable h) (key.2 hk)
  · simp only [receives, decide_eq_true_eq]
    exact stored room hg

/-- Witness of C18 as amended at the state where Ann has left the room she
shared with Bob: Bob is in the group of the room and a player, Ann is neither,
and what is sent to the room reaches Bob and not Ann. -/
theorem membership_matches_subscription_witness :
    socketGroups stBob.subs 2 = [socketId 2, "AAAAA"] ∧
    socketGroups stBob.subs 1 = [socketId 1] ∧
    (("AAAAA" : RoomId) ∈ socketGroups stBob.subs 2 ↔
      ("AAAAA" : RoomId) = socketId 2 ∨
        ∃ room, getKey stBob.rooms "AAAAA" = some room ∧ 2 ∈ keysOf room.players) ∧
    (("AAAAA" : RoomId) ∈ socketGroups stBob.subs 1 ↔
      ("AAAAA" : RoomId) = socketId 1 ∨
        ∃ room, getKey stBob.rooms "AAAAA" = some room ∧ 1 ∈ keysOf room.players) ∧
    receives stBob 2 (.toRoom "AAAAA" (.chatMessage (.str "Bob") (.str "hi"))) = true ∧
    receives stBob 1 (.toRoom "AAAAA" (.chatMessage (.str "Bob") (.str "hi"))) = false :=
  ⟨by decide, by decide,
   (membership_matches_subscription stBob reachable_stBob 2 "AAAAA").1,
   (membership_matches_subscription stBob reachable_stBob 1 "AAAAA").1,
   by decide, by decide⟩

/-! ## Format of room ids -/

theorem createRoom_id_mem_candidates {s : State} {c : ConnId} {name language layer : JsVal}
    {draws : List Draw} {r : Result} {c' : ConnId} {rid : RoomId}
    (hr : createRoom s c name language layer draws = some r)
    (hm : Emit.toSocket c' (.roomCreated rid) ∈ r.out) : rid ∈ candidates draws := by
  obtain ⟨rid0, hpick, hr1⟩ := createRoom_some hr
  subst hr1
  simp only [List.mem_cons, Emit.toSocket.injEq, Msg.roomCreated.injEq, List.mem_singleton,
    reduceCtorEq, or_false, List.not_mem_nil] at hm
  rw [hm.2]
  exact (pickRoomId_some hpick).1

theorem candidates_form :
    ∀ (n : Nat) (draws : List Draw), draws.length ≤ n →
      ∀ rid ∈ candidates draws, ∃ r0 r1 r2 r3 r4, rid = makeRoomId r0 r1 r2 r3 r4 := by
  intro n
  induction n using Nat.strong_induction_on with
  | _ n ih =>
    intro draws hlen rid hrid
    match draws, hlen, hrid with
    | r0 :: r1 :: r2 :: r3 :: r4 :: rest, hlen, hrid =>
      simp only [candidates, List.mem_cons] at hrid
      rcases hrid with rfl | hrid
      · exact ⟨r0, r1, r2, r3, r4, rfl⟩
      · refine ih rest.length ?_ rest (Nat.le_refl _) rid hrid
        simp only [List.length_cons] at hlen
        omega
    | [], _, hrid => simp [candidates] at hrid
    | [_], _, hrid => simp [candidates] at hrid
    | [_, _], _, hrid => simp [candidates] at hrid
    | [_, _, _], _, hrid => simp [candidates] at hrid
    | [_, _, _, _], _, hrid => simp [candidates] at hrid

theorem makeRoomId_form (r0 r1 r2 r3 r4 : Draw) :
    (makeRoomId r0 r1 r2 r3 r4).length = 5 ∧
    ∀ ch ∈ (makeRoomId r0 r1 r2 r3 r4).toList, ch ∈ chars := by
  obtain ⟨c0, h0, c1, h1, c2, h2, c3, h3, c4, h4, e⟩ := makeRoomId_eq r0 r1 r2 r3 r4
  rw [e]
  refine ⟨rfl, ?_⟩
  intro ch hch
  simp only [String.toList, List.mem_cons, List.mem_singleton, List.not_mem_nil,
    or_false] at hch
  rcases hch with rfl | rfl | rfl | rfl | rfl <;> assumption

/-- C19. Format of room ids: whatever the five values of `Math.random()`, each
a double at least 0 and below 1, the index `Math.floor(r * 31)`, taken of the
product as the double multiplication rounds it, is at most 30, so that
`chars[index]` is a character of the alphabet
`ABCDEFGHJKMNPQRSTUVWXYZ23456789` of 31 characters and never `undefined`;
`makeRoomId` returns a string of exactly 5 characters, all of that alphabet; and
every id that `createRoom` announces in `roomCreated` has this form. -/
theorem makeRoomId_format :
    chars = "ABCDEFGHJKMNPQRSTUVWXYZ23456789".toList ∧ chars.length = 31 ∧
    (∀ r : Draw, r.floorMul chars.length ≤ 30 ∧
      ∃ ch ∈ chars, charAt (r.floorMul chars.length) = ch.toString) ∧
    (∀ r0 r1 r2 r3 r4 : Draw,
      (makeRoomId r0 r1 r2 r3 r4).length = 5 ∧
      ∀ ch ∈ (makeRoomId r0 r1 r2 r3 r4).toList, ch ∈ chars) ∧
    (∀ (s : State) (c : ConnId) (name language layer : JsVal) (draws : List Draw)
       (r : Result) (c' : ConnId) (rid : RoomId),
      createRoom s c name language layer draws = some r →
      Emit.toSocket c' (.roomCreated rid) ∈ r.out →
      rid.length = 5 ∧ ∀ ch ∈ rid.toList, ch ∈ chars) := by
  refine ⟨rfl, chars_length, fun r => ?_, makeRoomId_form, ?_⟩
  · have hlt := floorMul_lt r
    refine ⟨?_, charAt_mem_chars hlt⟩
    have h31 : r.floorMul chars.length < 31 := chars_length ▸ hlt
    omega
  · intro s c name language layer draws r c' rid hr hm
    obtain ⟨r0, r1, r2, r3, r4, e⟩ :=
      candidates_form _ draws (Nat.le_refl _) rid (createRoom_id_mem_candidates hr hm)
    rw [e]
    exact makeRoomId_form r0 r1 r2 r3 r4

/-- Witness of C19: the id announced to Ann on the empty store when the draws
are 0.25806451612903225, whose product with 31 is rounded up to 8, the largest
double below 1, the double 2^-200, 1/16 and 0. -/
theorem makeRoomId_format_witness :
    drawJ.floorMul chars.length = 8 ∧ drawJ.mant * 31 / 2 ^ drawJ.exp = 7 ∧
    drawTop.floorMul chars.length = 30 ∧ drawTiny.floorMul chars.length = 0 ∧
    makeRoomId drawJ drawTop drawTiny drawB drawA = "J9ABA" ∧
    (createRoom State.empty 1 (.str "Ann") (.str "en") (.num 1) drawsJ).map Result.out =
      some [Emit.toSocket 1 (.roomCreated "J9ABA"), .toRoom "J9ABA" (.roomUpdate roomAnn)] ∧
    ("J9ABA" : String).length = 5 ∧ ∀ ch ∈ ("J9ABA" : String).toList, ch ∈ chars :=
  ⟨by decide, by decide, by decide, by decide, by decide, by decide,
   makeRoomId_format.2.2.2.2 State.empty 1 (.str "Ann") (.str "en") (.num 1) drawsJ
     ⟨⟨[("J9ABA", roomAnn)], [(1, "J9ABA")]⟩,
      [.toSocket 1 (.roomCreated "J9ABA"), .toRoom "J9ABA" (.roomUpdate roomAnn)], false⟩
     1 "J9ABA" (by decide) (by decide)⟩

/-! ## Joining again -/

theorem socketJoin_of_mem {subs : List (ConnId × RoomId)} {c : ConnId} {rid : RoomId}
    (h : (c, rid) ∈ subs) : socketJoin subs c rid = subs := by
  unfold socketJoin
  rw [if_pos h]

theorem socketJoin_socketJoin (subs : List (ConnId × RoomId)) (c : ConnId) (rid : RoomId) :
    socketJoin (socketJoin subs c rid) c rid = socketJoin subs c rid :=
  socketJoin_of_mem (mem_socketJoin.2 (Or.inr rfl))

/-- C20. Joining again resets the record but not the position: `joinRoom` for
a stored room from a connection `c` that is already a key of its players, under
any name and whatever the old record, stores the room with the record of `c`
replaced by the new name and `ready = false`; the keys of the players and their
order, hence their number and the position of `c`, every other player,
`hostId`, `language`, `layer` and `round` are as before; it emits one
`roomUpdate` with the new room. For every state, room id, connection and name,
`joinRoom` applied twice in a row yields the state that one application
yields. -/
theorem joinRoom_again_resets_record :
    (∀ (s : State) (c : ConnId) (rid : RoomId) (name : JsVal) (room : Room),
      getKey s.rooms rid = some room → c ∈ keysOf room.players →
      getKey (joinRoom s c rid name).state.rooms rid =
        some { room with players := putKey room.players c { name := name, ready := false } } ∧
      getKey (putKey room.players c { name := name, ready := false }) c =
        some { name := name, ready := false } ∧
      keysOf (putKey room.players c ({ name := name, ready := false } : Player)) =
        keysOf room.players ∧
      (putKey room.players c ({ name := name, ready := false } : Player)).length =
        room.players.length ∧
      (∀ c' : ConnId, c' ≠ c →
        getKey (putKey room.players c { name := name, ready := false }) c' =
          getKey room.players c') ∧
      (joinRoom s c rid name).out =
        [.toRoom rid (.roomUpdate
          { room with players := putKey room.players c { name := name, ready := false } })]) ∧
    (∀ (s : State) (c : ConnId) (rid : RoomId) (name : JsVal),
      (joinRoom (joinRoom s c rid name).state c rid name).state =
        (joinRoom s c rid name).state) := by
  constructor
  · intro s c rid name room hg hc
    refine ⟨joinRoom_getKey name hg, getKey_putKey_same _ _ _, keysOf_putKey_of_mem _ hc,
      ?_, ?_, ?_⟩
    · have := congrArg List.length (keysOf_putKey_of_mem ({ name := name, ready := false } : Player) hc)
      simpa [keysOf] using this
    · intro c' hne
      exact getKey_putKey_ne _ _ hne
    · rw [joinRoom_of_room name hg]
  · intro s c rid name
    cases hf : roomsAt s.rooms rid with
    | undefined =>
      have e : joinRoom s c rid name =
          ⟨s, [.toSocket c (.errorJoin "Room not found")], false⟩ := by
        simp only [joinRoom, hf]
      rw [e]
      simp only
      rw [e]
    | inherited =>
      have e : joinRoom s c rid name = Result.typeError s := by
        simp only [joinRoom, hf]
      rw [e]
      simp only [Result.typeError]
      rw [e]
      rfl
    | room room =>
      have hg := roomsAt_room_iff.1 hf
      have h1 := @joinRoom_of_room s c rid room name hg
      have h2 := @joinRoom_of_room
        ⟨putKey s.rooms rid { room with players := putKey room.players c ⟨name, false⟩ },
          socketJoin s.subs c rid⟩ c rid
        { room with players := putKey room.players c ⟨name, false⟩ } name
        (getKey_putKey_same _ _ _)
      rw [h1]
      simp only
      rw [h2]
      simp only [putKey_putKey]
      rw [socketJoin_socketJoin]

/-- Witness of C20: Bob, ready in the room of Ann and Bob, joins again under
the name Rob; he stays second and is not ready. -/
theorem joinRoom_again_resets_record_witness :
    getKey (toggleReady stAnnBob 2 "AAAAA").state.rooms "AAAAA" =
      some { roomAnnBob with
             players := [(1, { name := .str "Ann", ready := false }),
                         (2, { name := .str "Bob", ready := true })] } ∧
    getKey (joinRoom (toggleReady stAnnBob 2 "AAAAA").state 2 "AAAAA"
        (.str "Rob")).state.rooms "AAAAA" =
      some { roomAnnBob with
             players := putKey [(1, { name := .str "Ann", ready := false }),
                                (2, { name := .str "Bob", ready := true })] 2
                          { name := .str "Rob", ready := false } } ∧
    putKey [((1 : ConnId), ({ name := .str "Ann", ready := false } : Player)),
            (2, { name := .str "Bob", ready := true })] 2
        { name := .str "Rob", ready := false } =
      [(1, { name := .str "Ann", ready := false }),
       (2, { name := .str "Rob", ready := false })] :=
  ⟨by decide,
   (joinRoom_again_resets_record.1 (toggleReady stAnnBob 2 "AAAAA").state 2 "AAAAA"
      (.str "Rob")
      { roomAnnBob with
        players := [(1, { name := .str "Ann", ready := false }),
                    (2, { name := .str "Bob", ready := true })] }
      (by decide) (by decide)).1,
   by decide⟩

end Party
